import Mathlib

/-!
Split-and-merge quadtree segmentation.

A shallow embedding of `src/src/exam_algorithms/split_and_merge.cpp`
(`qtNode`, `satisfyPredicate`, `regionIsDivisible`, `shouldBeMerged`, `split`,
`merge`, `draw`, `split_and_merge`) and theorems about it.

Modelling conventions.

* A `qtNode *` is a value of the inductive type `qtNode`; the constructor
  `qtNode.null` is `nullptr`.  Dereferencing `nullptr` is the fault
  `Fault.nullDeref`.
* The `merged` vector of a node only ever receives the node itself or one of
  its four children (`pushOnMerged` is only called that way), so a stored
  pointer is a `Ref` resolved relative to the owning node.
* `cv::Mat` (8-bit, one channel) is a size and a pixel function indexed by
  row and column.  `img(region)` and `cv::meanStdDev` are OpenCV primitives:
  the first asserts that the rectangle lies inside the matrix, the second that
  its input is not empty; a failed assertion is the fault `Fault.cvAssert`.
* The statistics primitive is exact: a node holds the exact mean and the exact
  *variance* (the square of the standard deviation, which is not a rational
  number in general) of its region, and the test `stdDev <= samTH` is decided
  on squares (`stdDevLe`, justified by `stdDevLe_iff_sqrt`).
* The arithmetic of `draw` on `double` is IEEE 754 binary64 with rounding to
  nearest, ties to even: `toDouble` gives the `double` nearest to a rational.
  `getMean()` is read as the `double` nearest to the mean of the node, `+=` and
  `/=` round their exact result.  Doubles are represented by the rationals they
  denote; overflow to infinity does not occur for sums of at most four means
  and is not modelled.
* `int` is `Int` (no wrap-around: coordinates are bounded by the raster size),
  `/` on `int` is `Int.tdiv`.
* Recursion of `split` is by fuel; `split` supplies `region.width + 1`, which
  always suffices (`splitFuel_fuel_irrelevant`).
-/

namespace SplitAndMerge

/-! ## Data model -/

/-- Ways in which a run stops without a result. -/
inductive Fault where
  | cvAssert
  | nullDeref
  | outOfFuel
  deriving DecidableEq, Repr

deriving instance DecidableEq for Except

/-- The rectangle type `cv::Rect`. -/
structure Rect where
  x : Int
  y : Int
  width : Int
  height : Int
  deriving DecidableEq, Repr

/-- The pixel in column `c` and row `r` belongs to the rectangle. -/
def Rect.contains (region : Rect) (r c : Int) : Prop :=
  region.y ≤ r ∧ r < region.y + region.height ∧ region.x ≤ c ∧ c < region.x + region.width

instance (region : Rect) (r c : Int) : Decidable (region.contains r c) := by
  unfold Rect.contains; infer_instance

/-- An 8-bit single-channel raster `cv::Mat`: `px r c` is the sample in row `r`,
column `c`; only `0 ≤ r < rows`, `0 ≤ c < cols` is meaningful. -/
structure Mat where
  rows : Nat
  cols : Nat
  px : Int → Int → Nat

/-- The rows of a raster as lists of samples (used to display and compare rasters). -/
def Mat.toLists (img : Mat) : List (List Nat) :=
  (List.range img.rows).map fun (r : Nat) =>
    (List.range img.cols).map fun (c : Nat) => img.px (r : Int) (c : Int)

/-- The assertion of `Mat::operator()(const Rect&)`: the rectangle lies in the matrix. -/
def Mat.roiValid (img : Mat) (region : Rect) : Prop :=
  0 ≤ region.x ∧ 0 ≤ region.width ∧ region.x + region.width ≤ img.cols ∧
  0 ≤ region.y ∧ 0 ≤ region.height ∧ region.y + region.height ≤ img.rows

instance (img : Mat) (region : Rect) : Decidable (img.roiValid region) := by
  unfold Mat.roiValid; infer_instance

/-- Modelled from the spec: the sub-matrix `img(region)` of OpenCV, which is not part of the
sources; it fails when the rectangle does not lie within the raster bounds (spec 4.1, 7). -/
def Mat.roi (img : Mat) (region : Rect) : Except Fault Mat :=
  if img.roiValid region then
    .ok ⟨region.height.toNat, region.width.toNat,
      fun r c => img.px (region.y + r) (region.x + c)⟩
  else .error .cvAssert

/-- The conversion `saturate_cast<uchar>` of an `int`. -/
def saturate_cast (v : Int) : Nat :=
  if v < 0 then 0 else if 255 < v then 255 else v.toNat

/-- The assignment `img(region) = value`: every sample of the rectangle is set. -/
def Mat.assignRoi (img : Mat) (region : Rect) (value : Int) : Except Fault Mat :=
  if img.roiValid region then
    .ok ⟨img.rows, img.cols,
      fun r c => if region.contains r c then saturate_cast value else img.px r c⟩
  else .error .cvAssert

/-- All samples of a matrix, row by row. -/
def Mat.pixels (src : Mat) : List Nat :=
  (List.range src.rows).flatMap fun (r : Nat) =>
    (List.range src.cols).map fun (c : Nat) => src.px (r : Int) (c : Int)

/-- Modelled from the spec: the statistics primitive `cv::meanStdDev` of OpenCV, which is not
part of the sources, on a one-channel matrix and in exact arithmetic: the arithmetic mean of
the samples and their variance (the square of the standard deviation, spec 6).  It fails on a
matrix without samples (spec 4.1: non-positive width or height). -/
def meanStdDev (src : Mat) : Except Fault (ℚ × ℚ) :=
  if src.rows = 0 ∨ src.cols = 0 then .error .cvAssert
  else
    let total : ℚ := ((src.rows * src.cols : Nat) : ℚ)
    let s : ℚ := ((src.pixels.sum : Nat) : ℚ)
    let sq : ℚ := (((src.pixels.map fun v => v * v).sum : Nat) : ℚ)
    .ok (s / total, sq / total - (s / total) * (s / total))

/-- The comparison `stdDev <= samTH` of doubles, decided on the variance. -/
def stdDevLe (variance samTH : ℚ) : Bool :=
  decide (0 ≤ samTH ∧ variance ≤ samTH * samTH)

/-- The quadrant index `up_left`. -/
def up_left : Nat := 0
/-- The quadrant index `up_right`. -/
def up_right : Nat := 1
/-- The quadrant index `low_left`. -/
def low_left : Nat := 3
/-- The quadrant index `low_right`. -/
def low_right : Nat := 2

/-- The vector `isMerged` of a node: four flags, indexed by quadrant
(`0` upper left, `1` upper right, `2` lower right, `3` lower left). -/
structure Flags where
  q0 : Bool
  q1 : Bool
  q2 : Bool
  q3 : Bool
  deriving DecidableEq, Repr

/-- The initial value `std::vector<bool>(4, false)`, also the result of
`setIsMergedAllFalse`. -/
def Flags.allFalse : Flags := ⟨false, false, false, false⟩

/-- The element `isMerged.at(quadrant)`. -/
def Flags.at (f : Flags) (quadrant : Nat) : Bool :=
  match quadrant with
  | 0 => f.q0
  | 1 => f.q1
  | 2 => f.q2
  | 3 => f.q3
  | _ => false

/-- The update `isMerged.at(quadrant) = flag` (`setIsMerged`). -/
def Flags.set (f : Flags) (quadrant : Nat) (flag : Bool) : Flags :=
  match quadrant with
  | 0 => ⟨flag, f.q1, f.q2, f.q3⟩
  | 1 => ⟨f.q0, flag, f.q2, f.q3⟩
  | 2 => ⟨f.q0, f.q1, flag, f.q3⟩
  | 3 => ⟨f.q0, f.q1, f.q2, flag⟩
  | _ => f

/-- A pointer stored in a node's `merged` vector: the node itself or one of its children. -/
inductive Ref where
  | self
  | upper_left
  | upper_right
  | lower_left
  | lower_right
  deriving DecidableEq, Repr

/-- A `qtNode *`: either `nullptr` or a node with its region, its four child
pointers, its `merged` vector, its `isMerged` flags, its mean and its variance. -/
inductive qtNode where
  | null : qtNode
  | node (region : Rect) (upper_left upper_right lower_left lower_right : qtNode)
      (merged : List Ref) (isMerged : Flags) (mean : ℚ) (variance : ℚ) : qtNode
  deriving DecidableEq, Repr

/-- The test `node == nullptr`. -/
def qtNode.isNull : qtNode → Bool
  | .null => true
  | .node .. => false

/-- The accessor `getRegion`. -/
def qtNode.getRegion : qtNode → Except Fault Rect
  | .null => .error .nullDeref
  | .node region _ _ _ _ _ _ _ _ => .ok region

/-- The accessor `getMean`. -/
def qtNode.getMean : qtNode → Except Fault ℚ
  | .null => .error .nullDeref
  | .node _ _ _ _ _ _ _ mean _ => .ok mean

/-- The node a stored pointer refers to, relative to the node that stores it. -/
def qtNode.deref : qtNode → Ref → qtNode
  | .null, _ => .null
  | n@(.node _ _ _ _ _ _ _ _ _), .self => n
  | .node _ ul _ _ _ _ _ _ _, .upper_left => ul
  | .node _ _ ur _ _ _ _ _ _, .upper_right => ur
  | .node _ _ _ ll _ _ _ _ _, .lower_left => ll
  | .node _ _ _ _ lr _ _ _ _, .lower_right => lr

/-! ## The functions of the source -/

/-- The function `satisfyPredicate(node, samTH)` of the source. -/
def satisfyPredicate : qtNode → ℚ → Except Fault Bool
  | .null, _ => .error .nullDeref
  | .node _ _ _ _ _ _ _ _ variance, samTH => .ok (stdDevLe variance samTH)

/-- The overload `regionIsDivisible(qtNode *, int)` of the source: width only. -/
def regionIsDivisibleNode : qtNode → Int → Except Fault Bool
  | .null, _ => .error .nullDeref
  | .node region _ _ _ _ _ _ _ _, minRegSize => .ok (decide (region.width > minRegSize))

/-- The overload `regionIsDivisible(cv::Rect, int)` of the source. -/
def regionIsDivisible (region : Rect) (minRegSize : Int) : Bool :=
  decide (region.width > minRegSize) && decide (region.height > minRegSize)

/-- The function `shouldBeMerged(node1, node2, samTH)` of the source
(`and` evaluates its second operand only when the first holds). -/
def shouldBeMerged (node1 node2 : qtNode) (samTH : ℚ) : Except Fault Bool := do
  if (← satisfyPredicate node1 samTH) then satisfyPredicate node2 samTH else pure false

/-- The function `split(img, region, samTH, minRegSize)` of the source, with a bound on
the recursion depth. -/
def splitFuel : Nat → Mat → Rect → ℚ → Int → Except Fault qtNode
  | 0, _, _, _, _ => .error .outOfFuel
  | fuel + 1, img, region, samTH, minRegSize => do
    let subImg ← img.roi region
    let (mean, variance) ← meanStdDev subImg
    if regionIsDivisible region minRegSize && !(stdDevLe variance samTH) then
      let halfWidth := Int.tdiv region.width 2
      let halfHeight := Int.tdiv region.height 2
      let upper_left ← splitFuel fuel img
        ⟨region.x, region.y, halfWidth, halfHeight⟩ samTH minRegSize
      let upper_right ← splitFuel fuel img
        ⟨region.x + halfWidth, region.y, halfWidth, halfHeight⟩ samTH minRegSize
      let lower_left ← splitFuel fuel img
        ⟨region.x, region.y + halfHeight, halfWidth, halfHeight⟩ samTH minRegSize
      let lower_right ← splitFuel fuel img
        ⟨region.x + halfWidth, region.y + halfHeight, halfWidth, halfHeight⟩ samTH minRegSize
      pure (.node region upper_left upper_right lower_left lower_right [] Flags.allFalse
        mean variance)
    else
      pure (.node region .null .null .null .null [] Flags.allFalse mean variance)

/-- The function `split(img, region, samTH, minRegSize)` of the source. -/
def split (img : Mat) (region : Rect) (samTH : ℚ) (minRegSize : Int) : Except Fault qtNode :=
  splitFuel (region.width.toNat + 1) img region samTH minRegSize

/-- The function `merge(node, samTH, minRegSize)` of the source; the result is the node
after the in-place update. -/
def merge : qtNode → ℚ → Int → Except Fault qtNode
  | .null, _, _ => .error .nullDeref
  | .node region upper_left upper_right lower_left lower_right merged isMerged mean variance,
      samTH, minRegSize =>
    if !(decide (region.width > minRegSize)) || stdDevLe variance samTH then
      .ok (.node region upper_left upper_right lower_left lower_right (merged ++ [Ref.self])
        Flags.allFalse mean variance)
    else do
      -- UPPER LINE
      if (← shouldBeMerged upper_left upper_right samTH) then
        let merged := merged ++ [Ref.upper_left, Ref.upper_right]
        let isMerged := (isMerged.set up_left true).set up_right true
        if (← shouldBeMerged lower_left lower_right samTH) then
          pure (.node region upper_left upper_right lower_left lower_right
            (merged ++ [Ref.lower_right, Ref.lower_left])
            ((isMerged.set low_right true).set low_left true) mean variance)
        else
          let lower_left ← merge lower_left samTH minRegSize
          let lower_right ← merge lower_right samTH minRegSize
          pure (.node region upper_left upper_right lower_left lower_right merged isMerged
            mean variance)
      -- RIGHT LINE
      else if (← shouldBeMerged upper_right lower_right samTH) then
        let merged := merged ++ [Ref.upper_right, Ref.lower_right]
        let isMerged := (isMerged.set up_right true).set low_right true
        if (← shouldBeMerged upper_left lower_left samTH) then
          pure (.node region upper_left upper_right lower_left lower_right
            (merged ++ [Ref.upper_left, Ref.lower_left])
            ((isMerged.set up_left true).set low_left true) mean variance)
        else
          let upper_left ← merge upper_left samTH minRegSize
          let lower_left ← merge lower_left samTH minRegSize
          pure (.node region upper_left upper_right lower_left lower_right merged isMerged
            mean variance)
      -- LOW LINE (the source repeats the test of the right line here)
      else if (← shouldBeMerged upper_right lower_right samTH) then
        let merged := merged ++ [Ref.lower_left, Ref.lower_right]
        let isMerged := (isMerged.set low_left true).set low_right true
        if (← shouldBeMerged upper_left upper_right samTH) then
          pure (.node region upper_left upper_right lower_left lower_right
            (merged ++ [Ref.upper_left, Ref.upper_right])
            ((isMerged.set up_left true).set up_right true) mean variance)
        else
          let upper_left ← merge upper_left samTH minRegSize
          let upper_right ← merge upper_right samTH minRegSize
          pure (.node region upper_left upper_right lower_left lower_right merged isMerged
            mean variance)
      -- LEFT LINE
      else if (← shouldBeMerged upper_left lower_left samTH) then
        let merged := merged ++ [Ref.upper_left, Ref.lower_left]
        let isMerged := (isMerged.set up_left true).set low_left true
        if (← shouldBeMerged upper_right lower_right samTH) then
          pure (.node region upper_left upper_right lower_left lower_right
            (merged ++ [Ref.upper_right, Ref.lower_right])
            ((isMerged.set up_right true).set low_right true) mean variance)
        else
          let upper_right ← merge upper_right samTH minRegSize
          let lower_right ← merge lower_right samTH minRegSize
          pure (.node region upper_left upper_right lower_left lower_right merged isMerged
            mean variance)
      else
        let upper_left ← merge upper_left samTH minRegSize
        let upper_right ← merge upper_right samTH minRegSize
        let lower_right ← merge lower_right samTH minRegSize
        let lower_left ← merge lower_left samTH minRegSize
        pure (.node region upper_left upper_right lower_left lower_right merged isMerged
          mean variance)

/-- The integer nearest to a rational, the even one at a tie (the rounding
`roundTiesToEven` of IEEE 754). -/
def roundHalfEven (x : ℚ) : Int :=
  if x - ⌊x⌋ < 1 / 2 then ⌊x⌋
  else if 1 / 2 < x - ⌊x⌋ then ⌊x⌋ + 1
  else if ⌊x⌋ % 2 = 0 then ⌊x⌋ else ⌊x⌋ + 1

/-- The number of halvings that bring `n` below 2, at most `fuel` of them: the binary
logarithm of `n`, rounded down, when `1 ≤ n ≤ fuel`. -/
def log2Fuel : Nat → Nat → Nat
  | 0, _ => 0
  | fuel + 1, n => if n < 2 then 0 else log2Fuel fuel (n / 2) + 1

/-- The binary exponent of a rational that is not 0: the integer `e` with
`2 ^ e ≤ |q| < 2 ^ (e + 1)` (`binaryExponent_spec`). -/
def binaryExponent (q : ℚ) : Int :=
  if q.den * 2 ^ log2Fuel q.num.natAbs q.num.natAbs ≤
      q.num.natAbs * 2 ^ log2Fuel q.den q.den then
    (log2Fuel q.num.natAbs q.num.natAbs : Int) - (log2Fuel q.den q.den : Int)
  else (log2Fuel q.num.natAbs q.num.natAbs : Int) - (log2Fuel q.den q.den : Int) - 1

/-- The `double` (IEEE 754 binary64) nearest to a rational, ties to even: the significand has
53 bits, so the spacing of doubles around `q` is `2 ^ (e - 52)` for the binary exponent `e`
of `q`, and `2 ^ (-1074)` in the subnormal range.  The operations `+` and `/` on doubles are
the exact operation followed by `toDouble`. -/
def toDouble (q : ℚ) : ℚ :=
  if q = 0 then 0
  else (roundHalfEven (q / 2 ^ max (binaryExponent q - 52) (-1074)) : ℚ) *
    2 ^ max (binaryExponent q - 52) (-1074)

/-- The conversion `(int) regionValue` of a double: truncation toward zero. -/
def truncToInt (q : ℚ) : Int := Int.tdiv q.num q.den

/-- The first loop of `draw`, `regionValue += mergedNode->getMean()` over the merged nodes:
the mean is read as a `double` and added to the running sum in `double` arithmetic. -/
def sumMeans : List qtNode → ℚ → Except Fault ℚ
  | [], acc => .ok acc
  | mergedNode :: rest, acc => do
    let mean ← mergedNode.getMean
    sumMeans rest (toDouble (acc + toDouble mean))

/-- The running sum of the first loop of `draw` over the means of the merged nodes, from the
value `acc` (`sumMeans_ok`): every mean is read as a `double` and added in `double`
arithmetic. -/
def doubleSum : List ℚ → ℚ → ℚ
  | [], acc => acc
  | mean :: rest, acc => doubleSum rest (toDouble (acc + toDouble mean))

/-- The value `regionValue` of `draw` for merged nodes with the given means: the running sum
from `0.0`, divided by the number of nodes in `double` arithmetic. -/
def regionValueOf (means : List ℚ) : ℚ :=
  toDouble (doubleSum means 0 / ((means.length : Int) : ℚ))

/-- The second loop of `draw`: `img(mergedNode->getRegion()) = value` for every merged node. -/
def paintAll : Mat → List qtNode → Int → Except Fault Mat
  | img, [], _ => .ok img
  | img, mergedNode :: rest, value => do
    let region ← mergedNode.getRegion
    let img ← img.assignRoi region value
    paintAll img rest value

/-- The function `draw(img, node)` of the source; the result is the raster after the
in-place update. -/
def draw : Mat → qtNode → Except Fault Mat
  | img, .null => .ok img
  | img, .node region upper_left upper_right lower_left lower_right merged isMerged mean
      variance =>
    let mergedVector := merged.map (qtNode.deref
      (.node region upper_left upper_right lower_left lower_right merged isMerged mean variance))
    if mergedVector.isEmpty then do
      let img ← draw img upper_left
      let img ← draw img upper_right
      let img ← draw img lower_left
      draw img lower_right
    else do
      let regionValue ← sumMeans mergedVector 0
      let regionValue := toDouble (regionValue / ((mergedVector.length : Int) : ℚ))
      let img ← paintAll img mergedVector (truncToInt regionValue)
      if mergedVector.length ≤ 1 then pure img
      else
        let img ← (if !(isMerged.at up_left) then draw img upper_left else pure img)
        let img ← (if !(isMerged.at up_right) then draw img upper_right else pure img)
        let img ← (if !(isMerged.at low_right) then draw img lower_right else pure img)
        -- the source reads `getUpperLeft()` for the lower-left quadrant
        (if !(isMerged.at low_left) then draw img upper_left else pure img)

/-- The function `split_and_merge(inputImg, samTH, minRegSize)` of the source on a square
raster, where both calls of `cv::resize` have scale factor 1 and copy their input. -/
def split_and_merge (inputImg : Mat) (samTH : ℚ) (minRegSize : Int) : Except Fault Mat := do
  let resized := inputImg
  let startingRegion : Rect := ⟨0, 0, resized.cols, resized.rows⟩
  let quadTreeRoot ← split resized startingRegion samTH minRegSize
  let quadTreeRoot ← merge quadTreeRoot samTH minRegSize
  draw resized quadTreeRoot

/-! ## Reading a tree -/

/-- The region of a node (unused at `nullptr`). -/
def qtNode.region : qtNode → Rect
  | .null => ⟨0, 0, 0, 0⟩
  | .node region _ _ _ _ _ _ _ _ => region

/-- The stored mean of a node (unused at `nullptr`). -/
def qtNode.mean : qtNode → ℚ
  | .null => 0
  | .node _ _ _ _ _ _ _ mean _ => mean

/-- The stored variance of a node (unused at `nullptr`). -/
def qtNode.variance : qtNode → ℚ
  | .null => 0
  | .node _ _ _ _ _ _ _ _ variance => variance

/-- The `merged` vector of a node (unused at `nullptr`). -/
def qtNode.merged : qtNode → List Ref
  | .null => []
  | .node _ _ _ _ _ merged _ _ _ => merged

/-- The `isMerged` flags of a node (unused at `nullptr`). -/
def qtNode.isMerged : qtNode → Flags
  | .null => Flags.allFalse
  | .node _ _ _ _ _ _ isMerged _ _ => isMerged

/-- The pointer `getUpperLeft()`. -/
def qtNode.upperLeft (n : qtNode) : qtNode := n.deref Ref.upper_left
/-- The pointer `getUpperRight()`. -/
def qtNode.upperRight (n : qtNode) : qtNode := n.deref Ref.upper_right
/-- The pointer `getLowerLeft()`. -/
def qtNode.lowerLeft (n : qtNode) : qtNode := n.deref Ref.lower_left
/-- The pointer `getLowerRight()`. -/
def qtNode.lowerRight (n : qtNode) : qtNode := n.deref Ref.lower_right

/-- A node without children: all four child pointers are `nullptr`. -/
def qtNode.isLeaf (n : qtNode) : Prop :=
  n.upperLeft = .null ∧ n.upperRight = .null ∧ n.lowerLeft = .null ∧ n.lowerRight = .null

/-- A node with all four children present. -/
def qtNode.hasFourChildren (n : qtNode) : Prop :=
  n.upperLeft ≠ .null ∧ n.upperRight ≠ .null ∧ n.lowerLeft ≠ .null ∧ n.lowerRight ≠ .null

/-- The property `P` holds at every node of the tree (at every non-null pointer). -/
def qtNode.All (P : qtNode → Prop) : qtNode → Prop
  | .null => True
  | .node region ul ur ll lr merged isMerged mean variance =>
    P (.node region ul ur ll lr merged isMerged mean variance) ∧
      qtNode.All P ul ∧ qtNode.All P ur ∧ qtNode.All P ll ∧ qtNode.All P lr

/-- The regions of the leaves of a tree, in the order upper left, upper right, lower left,
lower right. -/
def qtNode.leafRegions : qtNode → List Rect
  | .null => []
  | .node region ul ur ll lr _ _ _ _ =>
    if ul.isNull && ur.isNull && ll.isNull && lr.isNull then [region]
    else ul.leafRegions ++ ur.leafRegions ++ ll.leafRegions ++ lr.leafRegions

/-- The number of pixels of a rectangle. -/
def Rect.area (region : Rect) : Int := region.width * region.height

/-- The first rectangle lies within the second. -/
def Rect.within (a b : Rect) : Prop :=
  b.x ≤ a.x ∧ a.x + a.width ≤ b.x + b.width ∧ b.y ≤ a.y ∧ a.y + a.height ≤ b.y + b.height

/-- Two rectangles share no pixel. -/
def Rect.disjoint (a b : Rect) : Prop := ∀ r c : Int, ¬ (a.contains r c ∧ b.contains r c)

/-- The statistics of a region of a raster, as `split` computes them:
`cv::meanStdDev(img(region))`. -/
def regionStats (img : Mat) (region : Rect) : Except Fault (ℚ × ℚ) := do
  let subImg ← img.roi region
  meanStdDev subImg

/-- The stopping test of `split` at a node: the region is large enough in both dimensions
and its standard deviation exceeds the threshold. -/
def splitCondition (n : qtNode) (samTH : ℚ) (minRegSize : Int) : Prop :=
  n.region.width > minRegSize ∧ n.region.height > minRegSize ∧ stdDevLe n.variance samTH = false

/-- The region of every child of the node lies within the region of the node. -/
def childrenWithin (n : qtNode) : Prop :=
  ∀ q : Ref, n.deref q ≠ .null → (n.deref q).region.within n.region

/-! ## Example rasters -/

/-- The 4x4 raster whose 2x2 quadrants are uniformly 0 (upper left), 64 (upper right),
128 (lower left) and 192 (lower right). -/
def quadrantRaster : Mat :=
  ⟨4, 4, fun r c => if r < 2 then (if c < 2 then 0 else 64) else (if c < 2 then 128 else 192)⟩

/-- A leaf as `split` creates it. -/
def freshLeaf (region : Rect) (mean variance : ℚ) : qtNode :=
  .node region .null .null .null .null [] Flags.allFalse mean variance

/-- The tree that `split` builds for `quadrantRaster` with threshold 0 and minimum size 1. -/
def quadrantTree : qtNode :=
  .node ⟨0, 0, 4, 4⟩ (freshLeaf ⟨0, 0, 2, 2⟩ 0 0) (freshLeaf ⟨2, 0, 2, 2⟩ 64 0)
    (freshLeaf ⟨0, 2, 2, 2⟩ 128 0) (freshLeaf ⟨2, 2, 2, 2⟩ 192 0) [] Flags.allFalse 96 5120

/-- A 3x3 raster that is not uniform: 9 in the upper left corner, 0 elsewhere. -/
def oddRaster : Mat := ⟨3, 3, fun r c => if r = 0 ∧ c = 0 then 9 else 0⟩

/-- A uniform 2x2 raster. -/
def uniformRaster : Mat := ⟨2, 2, fun _ _ => 7⟩

/-- A 4x4 raster: the upper-left quadrant is 0 except for one sample 2, the upper-right
quadrant is uniformly 100, the lower half is uniformly 0. -/
def driftRaster : Mat :=
  ⟨4, 4, fun r c =>
    if r < 2 then (if c < 2 then (if r = 0 ∧ c = 1 then 2 else 0) else 100) else 0⟩

/-- A 4x4 raster: as `driftRaster`, with one sample 2 in the lower-left quadrant too. -/
def skipRaster : Mat :=
  ⟨4, 4, fun r c =>
    if r < 2 then (if c < 2 then (if r = 0 ∧ c = 1 then 2 else 0) else 100)
    else (if c < 2 then (if r = 2 ∧ c = 1 then 2 else 0) else 0)⟩

/-- The result of `split_and_merge`, or the input when there is none. -/
def segmentOrInput (img : Mat) (samTH : ℚ) (minRegSize : Int) : Mat :=
  match split_and_merge img samTH minRegSize with
  | .ok out => out
  | .error _ => img

/-- The merge groups of an annotated tree, node by node: for every node with a non-empty
`merged` vector, the regions of the members and the value that `draw` computes for them. -/
def qtNode.groups : qtNode → List (List Rect × Nat)
  | .null => []
  | .node region ul ur ll lr merged isMerged mean variance =>
    let members := merged.map (qtNode.deref
      (.node region ul ur ll lr merged isMerged mean variance))
    (if members.isEmpty then []
      else [(members.map qtNode.region,
        saturate_cast (truncToInt (regionValueOf (members.map qtNode.mean))))]) ++
      ul.groups ++ ur.groups ++ ll.groups ++ lr.groups

/-! ## Further notions for the claims on `split`, `merge` and `draw` -/

/-- Every child of the node has a region strictly narrower and strictly lower than the region
of the node. -/
def childrenSmaller (n : qtNode) : Prop :=
  ∀ q : Ref, q ≠ Ref.self → n.deref q ≠ .null →
    (n.deref q).region.width < n.region.width ∧ (n.deref q).region.height < n.region.height

/-- The depth of a tree, counted in levels: 0 for `nullptr`, 1 for a node without children. -/
def qtNode.depth : qtNode → Nat
  | .null => 0
  | .node _ ul ur ll lr _ _ _ _ => 1 + max (max ul.depth ur.depth) (max ll.depth lr.depth)

/-- A 1x1 raster. -/
def tinyRaster : Mat := ⟨1, 1, fun _ _ => 5⟩

/-- The pairwise test of `merge` on two nodes that exist: both are homogeneous, each on its
own (the value of `shouldBeMerged`, see `shouldBeMerged_of_not_null`). -/
def mergeable (a b : qtNode) (samTH : ℚ) : Bool :=
  stdDevLe a.variance samTH && stdDevLe b.variance samTH

/-- The test by which `merge` treats a node as internal: the node is wider than `minRegSize`
and not homogeneous. -/
def mergeInternal (n : qtNode) (samTH : ℚ) (minRegSize : Int) : Prop :=
  n.region.width > minRegSize ∧ stdDevLe n.variance samTH = false

/-- The tree without the annotations of `merge`: every `merged` vector is empty and every
flag is false, as `split` leaves them. -/
def qtNode.eraseAnnotations : qtNode → qtNode
  | .null => .null
  | .node region ul ur ll lr _ _ mean variance =>
    .node region ul.eraseAnnotations ur.eraseAnnotations ll.eraseAnnotations
      lr.eraseAnnotations [] Flags.allFalse mean variance

/-- The property `P` holds at every node that `merge` has processed, read off the annotated
tree: the node itself and, unless the node is a group of its own, every child that is not a
member of the node's group (those are the children `merge` recurses into). -/
def qtNode.Visited (P : qtNode → Prop) : qtNode → Prop
  | .null => False
  | .node region ul ur ll lr merged isMerged mean variance =>
    P (.node region ul ur ll lr merged isMerged mean variance) ∧
    (Ref.self ∉ merged →
      (Ref.upper_left ∉ merged → qtNode.Visited P ul) ∧
      (Ref.upper_right ∉ merged → qtNode.Visited P ur) ∧
      (Ref.lower_left ∉ merged → qtNode.Visited P ll) ∧
      (Ref.lower_right ∉ merged → qtNode.Visited P lr))

/-- A raster of one row and four columns that is not uniform. -/
def wideRaster : Mat := ⟨1, 4, fun _ c => if c = 0 then 9 else 0⟩

/-- A 4x4 raster whose upper quadrants are not uniform and whose lower quadrants are uniform
(0 on the left, 100 on the right). -/
def lowPairRaster : Mat :=
  ⟨4, 4, fun r c =>
    if r < 2 then (if r = 0 ∧ (c = 1 ∨ c = 3) then 2 else 0) else (if c < 2 then 0 else 100)⟩

/-- The result of `draw`, or the input raster when there is none. -/
def drawOrInput (img : Mat) (node : qtNode) : Mat :=
  match draw img node with
  | .ok out => out
  | .error _ => img

/-- A node of width 4 whose four children are leaves of positive variance. -/
def roughNode : qtNode :=
  .node ⟨0, 0, 4, 4⟩ (freshLeaf ⟨0, 0, 2, 2⟩ 1 1) (freshLeaf ⟨2, 0, 2, 2⟩ 2 1)
    (freshLeaf ⟨0, 2, 2, 2⟩ 3 1) (freshLeaf ⟨2, 2, 2, 2⟩ 4 1) [] Flags.allFalse 5 2

/-- The classification of a node after `merge`: its group has 1, 2 or 4 members, or it is
empty and the node has its four children; and a node without children is a group of its
own. -/
def mergeClass (n : qtNode) : Prop :=
  ((n.merged.length = 1 ∨ n.merged.length = 2 ∨ n.merged.length = 4) ∨
    (n.merged = [] ∧ n.hasFourChildren)) ∧
  (n.isLeaf → n.merged = [Ref.self])

/-- The quadrant tree after `merge` with threshold 0 and minimum size 1: the four quadrants
form the group of the root. -/
def quadrantMerged : qtNode :=
  .node ⟨0, 0, 4, 4⟩ (freshLeaf ⟨0, 0, 2, 2⟩ 0 0) (freshLeaf ⟨2, 0, 2, 2⟩ 64 0)
    (freshLeaf ⟨0, 2, 2, 2⟩ 128 0) (freshLeaf ⟨2, 2, 2, 2⟩ 192 0)
    [Ref.upper_left, Ref.upper_right, Ref.lower_right, Ref.lower_left]
    ⟨true, true, true, true⟩ 96 5120

/-- The function `merge` of the source without its third branch (the one commented
`LOW LINE`); compared with `merge` to show that the branch is never taken. -/
def mergeWithoutLowLine : qtNode → ℚ → Int → Except Fault qtNode
  | .null, _, _ => .error .nullDeref
  | .node region upper_left upper_right lower_left lower_right merged isMerged mean variance,
      samTH, minRegSize =>
    if !(decide (region.width > minRegSize)) || stdDevLe variance samTH then
      .ok (.node region upper_left upper_right lower_left lower_right (merged ++ [Ref.self])
        Flags.allFalse mean variance)
    else do
      if (← shouldBeMerged upper_left upper_right samTH) then
        let merged := merged ++ [Ref.upper_left, Ref.upper_right]
        let isMerged := (isMerged.set up_left true).set up_right true
        if (← shouldBeMerged lower_left lower_right samTH) then
          pure (.node region upper_left upper_right lower_left lower_right
            (merged ++ [Ref.lower_right, Ref.lower_left])
            ((isMerged.set low_right true).set low_left true) mean variance)
        else
          let lower_left ← mergeWithoutLowLine lower_left samTH minRegSize
          let lower_right ← mergeWithoutLowLine lower_right samTH minRegSize
          pure (.node region upper_left upper_right lower_left lower_right merged isMerged
            mean variance)
      else if (← shouldBeMerged upper_right lower_right samTH) then
        let merged := merged ++ [Ref.upper_right, Ref.lower_right]
        let isMerged := (isMerged.set up_right true).set low_right true
        if (← shouldBeMerged upper_left lower_left samTH) then
          pure (.node region upper_left upper_right lower_left lower_right
            (merged ++ [Ref.upper_left, Ref.lower_left])
            ((isMerged.set up_left true).set low_left true) mean variance)
        else
          let upper_left ← mergeWithoutLowLine upper_left samTH minRegSize
          let lower_left ← mergeWithoutLowLine lower_left samTH minRegSize
          pure (.node region upper_left upper_right lower_left lower_right merged isMerged
            mean variance)
      else if (← shouldBeMerged upper_left lower_left samTH) then
        let merged := merged ++ [Ref.upper_left, Ref.lower_left]
        let isMerged := (isMerged.set up_left true).set low_left true
        if (← shouldBeMerged upper_right lower_right samTH) then
          pure (.node region upper_left upper_right lower_left lower_right
            (merged ++ [Ref.upper_right, Ref.lower_right])
            ((isMerged.set up_right true).set low_right true) mean variance)
        else
          let upper_right ← mergeWithoutLowLine upper_right samTH minRegSize
          let lower_right ← mergeWithoutLowLine lower_right samTH minRegSize
          pure (.node region upper_left upper_right lower_left lower_right merged isMerged
            mean variance)
      else
        let upper_left ← mergeWithoutLowLine upper_left samTH minRegSize
        let upper_right ← mergeWithoutLowLine upper_right samTH minRegSize
        let lower_right ← mergeWithoutLowLine lower_right samTH minRegSize
        let lower_left ← mergeWithoutLowLine lower_left samTH minRegSize
        pure (.node region upper_left upper_right lower_left lower_right merged isMerged
          mean variance)

/-- The number of flags that are true. -/
def Flags.count (f : Flags) : Nat :=
  (if f.q0 then 1 else 0) + (if f.q1 then 1 else 0) + (if f.q2 then 1 else 0) +
    (if f.q3 then 1 else 0)

/-- The annotations that `merge` can leave on a node that was fresh: a group of its own, the
four children, the upper pair, the right pair, the left pair, or nothing. -/
def mergeShape (n : qtNode) : Prop :=
  (n.merged = [Ref.self] ∧ n.isMerged = Flags.allFalse) ∨
  (n.merged = [Ref.upper_left, Ref.upper_right, Ref.lower_right, Ref.lower_left] ∧
    n.isMerged = ⟨true, true, true, true⟩) ∨
  (n.merged = [Ref.upper_left, Ref.upper_right] ∧ n.isMerged = ⟨true, true, false, false⟩) ∨
  (n.merged = [Ref.upper_right, Ref.lower_right] ∧ n.isMerged = ⟨false, true, true, false⟩) ∨
  (n.merged = [Ref.upper_left, Ref.lower_left] ∧ n.isMerged = ⟨true, false, false, true⟩) ∨
  (n.merged = [] ∧ n.isMerged = Flags.allFalse)

/-- The flags of a node agree with its group: a flag is true exactly when the child of that
quadrant is a member, no member occurs twice, and the number of true flags is the size of
the group, which is 0, 2 or 4. -/
def flagsAgree (n : qtNode) : Prop :=
  (n.isMerged.at up_left = true ↔ Ref.upper_left ∈ n.merged) ∧
  (n.isMerged.at up_right = true ↔ Ref.upper_right ∈ n.merged) ∧
  (n.isMerged.at low_right = true ↔ Ref.lower_right ∈ n.merged) ∧
  (n.isMerged.at low_left = true ↔ Ref.lower_left ∈ n.merged) ∧
  n.merged.Nodup ∧ n.isMerged.count = n.merged.length ∧
  (n.merged.length = 0 ∨ n.merged.length = 2 ∨ n.merged.length = 4)

/-- The tree that `split` returns, or `nullptr` when there is none. -/
def splitOrNull (img : Mat) (region : Rect) (samTH : ℚ) (minRegSize : Int) : qtNode :=
  match split img region samTH minRegSize with
  | .ok t => t
  | .error _ => .null

/-- The tree after `merge`, or `nullptr` when `merge` fails. -/
def mergeOrNull (t : qtNode) (samTH : ℚ) (minRegSize : Int) : qtNode :=
  match merge t samTH minRegSize with
  | .ok t1 => t1
  | .error _ => .null

/-- The tree of `lowPairRaster` that `split` builds with threshold 0 and minimum size 1. -/
def lowPairTree : qtNode := splitOrNull lowPairRaster ⟨0, 0, 4, 4⟩ 0 1

/-- The tree of `skipRaster` that `split` builds with threshold 0 and minimum size 1. -/
def skipTree : qtNode := splitOrNull skipRaster ⟨0, 0, 4, 4⟩ 0 1

/-- The node has its four children, and their regions are the four quadrants of size
`(width / 2, height / 2)` of the region of the node. -/
def hasQuadrants (n : qtNode) : Prop :=
  n.upperLeft.isNull = false ∧ n.upperRight.isNull = false ∧
  n.lowerLeft.isNull = false ∧ n.lowerRight.isNull = false ∧
  n.upperLeft.region = ⟨n.region.x, n.region.y, n.region.width / 2, n.region.height / 2⟩ ∧
  n.upperRight.region = ⟨n.region.x + n.region.width / 2, n.region.y,
    n.region.width / 2, n.region.height / 2⟩ ∧
  n.lowerLeft.region = ⟨n.region.x, n.region.y + n.region.height / 2,
    n.region.width / 2, n.region.height / 2⟩ ∧
  n.lowerRight.region = ⟨n.region.x + n.region.width / 2, n.region.y + n.region.height / 2,
    n.region.width / 2, n.region.height / 2⟩

/-- The pixel in row `r` and column `c` belongs to the region of one of the four children. -/
def coveredByChildren (n : qtNode) (r c : Int) : Prop :=
  n.upperLeft.region.contains r c ∨ n.upperRight.region.contains r c ∨
  n.lowerLeft.region.contains r c ∨ n.lowerRight.region.contains r c

/-- The tree of `oddRaster` that `split` builds with threshold 0 and minimum size 1. -/
def oddTree : qtNode := splitOrNull oddRaster ⟨0, 0, 3, 3⟩ 0 1

/-- Every member of the group of the node exists and has no children, and in a group of two
or more every member has a standard deviation of at most the threshold. -/
def membersAreLeaves (samTH : ℚ) (n : qtNode) : Prop :=
  ∀ q ∈ n.merged, (n.deref q).isNull = false ∧ (n.deref q).isLeaf ∧
    (2 ≤ n.merged.length → stdDevLe (n.deref q).variance samTH = true)

/-- The geometry of a node of a split tree: a region of positive width and height, and no
children or the four quadrants as children. -/
def splitGeometry (n : qtNode) : Prop :=
  0 < n.region.width ∧ 0 < n.region.height ∧ (n.isLeaf ∨ (¬ n.isLeaf ∧ hasQuadrants n))

/-- The node with another lower-left child pointer. -/
def qtNode.setLowerLeft : qtNode → qtNode → qtNode
  | .null, _ => .null
  | .node region ul ur _ lr merged isMerged mean variance, ll1 =>
    .node region ul ur ll1 lr merged isMerged mean variance

/-- The painting step of `draw` on a node with a non-empty group: both loops. -/
def drawPaint (img : Mat) (n : qtNode) : Except Fault Mat :=
  sumMeans (n.merged.map n.deref) 0 >>= fun regionValue =>
    paintAll img (n.merged.map n.deref)
      (truncToInt (toDouble (regionValue / (((n.merged.map n.deref).length : Int) : ℚ))))

/-- What `draw` does on a node with a group of two or more members whose lower-left flag is
false: after the painting step it recurses, flag by flag, into the upper-left, upper-right
and lower-right children and then, for the lower-left quadrant, into the upper-left child
again; the result does not depend on what lies below the lower-left child; and no sample of
the region of the lower-left child is changed. -/
def lowerLeftSkipped (n : qtNode) : Prop :=
  ∀ img : Mat,
    (draw img n =
      (drawPaint img n >>= fun i0 =>
        (if !(n.isMerged.at up_left) then draw i0 n.upperLeft else pure i0) >>= fun i1 =>
        (if !(n.isMerged.at up_right) then draw i1 n.upperRight else pure i1) >>= fun i2 =>
        (if !(n.isMerged.at low_right) then draw i2 n.lowerRight else pure i2) >>= fun i3 =>
        draw i3 n.upperLeft)) ∧
    (∀ ll1 : qtNode, ll1.getRegion = n.lowerLeft.getRegion →
      ll1.getMean = n.lowerLeft.getMean → draw img (n.setLowerLeft ll1) = draw img n) ∧
    (∀ out : Mat, draw img n = .ok out →
      ∀ r c : Int, n.lowerLeft.region.contains r c → out.px r c = img.px r c)

/-- The value of the group of a node as `draw` computes it before the conversion to an
integer: the sum of `getMean()` over the merged nodes, divided by their number, both in
`double` arithmetic. -/
def groupAverage (n : qtNode) : Except Fault ℚ :=
  sumMeans (n.merged.map n.deref) 0 >>= fun regionValue =>
    pure (toDouble (regionValue / (((n.merged.map n.deref).length : Int) : ℚ)))

/-- The integer `(int) regionValue` that `draw` writes for the group of a node. -/
def groupValue (n : qtNode) : Except Fault Int :=
  groupAverage n >>= fun regionValue => pure (truncToInt regionValue)

/-- The samples of the raster at the pixels that lie in one of the rectangles at least, row
by row. -/
def unionPixels (img : Mat) (regions : List Rect) : List Nat :=
  (List.range img.rows).flatMap fun (r : Nat) =>
    ((List.range img.cols).filter fun (c : Nat) =>
      regions.any fun region => decide (region.contains (r : Int) (c : Int))).map
      fun (c : Nat) => img.px (r : Int) (c : Int)

/-- The arithmetic mean of the samples of the raster over the union of the rectangles. -/
def unionMean (img : Mat) (regions : List Rect) : ℚ :=
  (((unionPixels img regions).sum : Nat) : ℚ) / (((unionPixels img regions).length : Nat) : ℚ)

/-- A 6x6 raster whose 3x3 quadrants have the means 5/9 (upper left), 59/9 (upper right),
15/9 (lower left) and 29/9 (lower right) and a standard deviation below 1 each. -/
def roundoffRaster : Mat :=
  ⟨6, 6, fun r c =>
    if r < 3 then
      (if c < 3 then (if 3 * r + c < 5 then 1 else 0) else (if 3 * r + (c - 3) < 5 then 7 else 6))
    else
      (if c < 3 then (if 3 * (r - 3) + c < 6 then 2 else 1)
        else (if 3 * (r - 3) + (c - 3) < 2 then 4 else 3))⟩

/-- The tree of `roundoffRaster` that `split` builds with threshold 1 and minimum size 1. -/
def roundoffTree : qtNode := splitOrNull roundoffRaster ⟨0, 0, 6, 6⟩ 1 1

/-! ## Basic facts -/

/-- The halving count is the binary logarithm: `2 ^ k ≤ n < 2 ^ (k + 1)`. -/
theorem log2Fuel_spec : ∀ (fuel n : Nat), n ≤ fuel → 0 < n →
    2 ^ log2Fuel fuel n ≤ n ∧ n < 2 ^ (log2Fuel fuel n + 1) := by
  intro fuel
  induction fuel with
  | zero => intro n h0 hpos; omega
  | succ fuel ih =>
    intro n hle hpos
    unfold log2Fuel
    by_cases h2 : n < 2
    · rw [if_pos h2]
      simp only [pow_zero, zero_add, pow_one]
      omega
    · rw [if_neg h2]
      obtain ⟨h1, h3⟩ := ih (n / 2) (by omega) (by omega)
      constructor
      · rw [pow_succ]
        omega
      · rw [pow_succ]
        omega

/-- The integer nearest to a rational differs from it by one half at most. -/
theorem roundHalfEven_error (x : ℚ) : |(roundHalfEven x : ℚ) - x| ≤ 1 / 2 := by
  have h1 := Int.floor_le x
  have h2 := Int.lt_floor_add_one x
  unfold roundHalfEven
  rw [abs_le]
  split_ifs <;> push_cast <;> constructor <;> linarith

/-- An integer is its own nearest integer. -/
theorem roundHalfEven_intCast (m : Int) : roundHalfEven (m : ℚ) = m := by
  unfold roundHalfEven
  simp

/-- The binary exponent `e` of a rational `q` that is not 0 satisfies
`2 ^ e ≤ |q| < 2 ^ (e + 1)`. -/
theorem binaryExponent_spec (q : ℚ) (hq : q ≠ 0) :
    (2 : ℚ) ^ binaryExponent q ≤ |q| ∧ |q| < (2 : ℚ) ^ (binaryExponent q + 1) := by
  have hn : 0 < q.num.natAbs := Int.natAbs_pos.mpr (Rat.num_ne_zero.mpr hq)
  have hd : 0 < q.den := q.den_pos
  obtain ⟨a1, a2⟩ := log2Fuel_spec q.num.natAbs q.num.natAbs le_rfl hn
  obtain ⟨b1, b2⟩ := log2Fuel_spec q.den q.den le_rfl hd
  have habs : |q| = (q.num.natAbs : ℚ) / (q.den : ℚ) := by
    conv_lhs => rw [← Rat.num_div_den q]
    rw [abs_div, Nat.abs_cast, ← Int.cast_abs, Int.abs_eq_natAbs, Int.cast_natCast]
  have hdq : (0 : ℚ) < (q.den : ℚ) := by exact_mod_cast hd
  set a := log2Fuel q.num.natAbs q.num.natAbs with ha
  set b := log2Fuel q.den q.den with hb
  set n := q.num.natAbs with hnn
  set d := q.den with hdd
  have a1q : (2 : ℚ) ^ a ≤ (n : ℚ) := by exact_mod_cast a1
  have a2q : (n : ℚ) < (2 : ℚ) ^ (a + 1) := by exact_mod_cast a2
  have b1q : (2 : ℚ) ^ b ≤ (d : ℚ) := by exact_mod_cast b1
  have b2q : (d : ℚ) < (2 : ℚ) ^ (b + 1) := by exact_mod_cast b2
  have pa : (0 : ℚ) < (2 : ℚ) ^ a := by positivity
  have pb : (0 : ℚ) < (2 : ℚ) ^ b := by positivity
  have e1 : (2 : ℚ) ^ ((a : Int) - (b : Int)) = (2 : ℚ) ^ a / (2 : ℚ) ^ b := by
    rw [zpow_sub₀ (by norm_num), zpow_natCast, zpow_natCast]
  have e2 : (2 : ℚ) ^ ((a : Int) - (b : Int) + 1) = (2 : ℚ) ^ (a + 1) / (2 : ℚ) ^ b := by
    rw [zpow_add_one₀ (by norm_num), e1, pow_succ]
    ring
  have e3 : (2 : ℚ) ^ ((a : Int) - (b : Int) - 1) = (2 : ℚ) ^ a / (2 : ℚ) ^ (b + 1) := by
    rw [zpow_sub_one₀ (by norm_num), e1, pow_succ]
    field_simp
  unfold binaryExponent
  rw [habs]
  by_cases hc : d * 2 ^ a ≤ n * 2 ^ b
  · rw [if_pos hc]
    have hcq : (d : ℚ) * (2 : ℚ) ^ a ≤ (n : ℚ) * (2 : ℚ) ^ b := by exact_mod_cast hc
    constructor
    · rw [e1, div_le_div_iff₀ pb hdq]
      linarith
    · rw [e2, div_lt_div_iff₀ hdq pb]
      calc (n : ℚ) * (2 : ℚ) ^ b < (2 : ℚ) ^ (a + 1) * (2 : ℚ) ^ b := by
            exact mul_lt_mul_of_pos_right a2q pb
        _ ≤ (2 : ℚ) ^ (a + 1) * (d : ℚ) := by
            exact mul_le_mul_of_nonneg_left b1q (by positivity)
  · rw [if_neg hc]
    have hcq : (n : ℚ) * (2 : ℚ) ^ b < (d : ℚ) * (2 : ℚ) ^ a := by
      exact_mod_cast (not_le.mp hc)
    constructor
    · rw [e3, div_le_div_iff₀ (by positivity) hdq]
      calc (2 : ℚ) ^ a * (d : ℚ) ≤ (n : ℚ) * (d : ℚ) := by
            exact mul_le_mul_of_nonneg_right a1q hdq.le
        _ ≤ (n : ℚ) * (2 : ℚ) ^ (b + 1) := by
            exact mul_le_mul_of_nonneg_left b2q.le (by positivity)
    · rw [sub_add_cancel, e1, div_lt_div_iff₀ hdq pb]
      linarith

/-- The rounding error of `toDouble`: half a unit in the last place at most. -/
theorem toDouble_error (q : ℚ) :
    |toDouble q - q| ≤ (2 : ℚ) ^ max (binaryExponent q - 52) (-1074) / 2 := by
  unfold toDouble
  by_cases hq : q = 0
  · rw [if_pos hq, hq]
    simp only [sub_self, abs_zero]
    positivity
  · rw [if_neg hq]
    set g : ℚ := (2 : ℚ) ^ max (binaryExponent q - 52) (-1074) with hg
    have gpos : 0 < g := by positivity
    have h := roundHalfEven_error (q / g)
    have e : (roundHalfEven (q / g) : ℚ) * g - q = ((roundHalfEven (q / g) : ℚ) - q / g) * g := by
      field_simp
    rw [e, abs_mul, abs_of_pos gpos]
    calc |(roundHalfEven (q / g) : ℚ) - q / g| * g ≤ 1 / 2 * g :=
          mul_le_mul_of_nonneg_right h gpos.le
      _ = g / 2 := by ring

/-- The rounding error of `toDouble` on a rational of absolute value 1024 at most. -/
theorem toDouble_error_small (q : ℚ) (h : |q| ≤ 1024) : |toDouble q - q| ≤ 1 / 2 ^ 43 := by
  by_cases hq : q = 0
  · rw [hq]
    have : toDouble 0 = 0 := by unfold toDouble; simp
    rw [this]
    simp
  · have hs := (binaryExponent_spec q hq).1
    have he : binaryExponent q < 11 := by
      have hlt : (2 : ℚ) ^ binaryExponent q < (2 : ℚ) ^ (11 : Int) := by
        calc (2 : ℚ) ^ binaryExponent q ≤ |q| := hs
          _ ≤ 1024 := h
          _ < (2 : ℚ) ^ (11 : Int) := by norm_num
      exact (zpow_lt_zpow_iff_right₀ (by norm_num : (1 : ℚ) < 2)).mp hlt
    have hmax : max (binaryExponent q - 52) (-1074) ≤ -42 := by omega
    calc |toDouble q - q| ≤ (2 : ℚ) ^ max (binaryExponent q - 52) (-1074) / 2 :=
          toDouble_error q
      _ ≤ (2 : ℚ) ^ (-42 : Int) / 2 := by
          apply div_le_div_of_nonneg_right _ (by norm_num)
          exact zpow_le_zpow_right₀ (by norm_num) hmax
      _ = 1 / 2 ^ 43 := by norm_num

/-- Values of `toDouble`: 1/10 and 5/9 are rounded to 53 significant bits, a tie goes to the
even significand (`2 ^ 53 + 1` down, `2 ^ 53 + 3` up), half of the smallest subnormal goes
to 0, and the sum of the doubles of 5/9, 59/9, 29/9 and 15/9, added one by one, is
`12 - 2 ^ (-49)`. -/
theorem toDouble_examples :
    toDouble (1 / 10) = 3602879701896397 / 36028797018963968 ∧
    toDouble (5 / 9) = 2501999792983609 / 4503599627370496 ∧
    toDouble (-3 / 4) = -3 / 4 ∧
    toDouble (2 ^ 53 + 1) = 2 ^ 53 ∧
    toDouble (2 ^ 53 + 3) = 2 ^ 53 + 4 ∧
    toDouble (1 / 2 ^ 1075) = 0 ∧
    toDouble (3 / 2 ^ 1075) = 2 / 2 ^ 1074 ∧
    doubleSum [5 / 9, 59 / 9, 29 / 9, 15 / 9] 0 = 12 - 1 / 2 ^ 49 ∧
    regionValueOf [5 / 9, 59 / 9, 29 / 9, 15 / 9] = 3 - 1 / 2 ^ 51 ∧
    truncToInt (regionValueOf [5 / 9, 59 / 9, 29 / 9, 15 / 9]) = 2 := by
  decide!

/-- A natural number below `2 ^ 53` is a `double`. -/
theorem toDouble_natCast (v : Nat) (hv : v < 2 ^ 53) : toDouble (v : ℚ) = (v : ℚ) := by
  by_cases h0 : (v : ℚ) = 0
  · rw [h0]; unfold toDouble; simp
  · have hs := (binaryExponent_spec (v : ℚ) h0).1
    have he : binaryExponent (v : ℚ) < 53 := by
      have hlt : (2 : ℚ) ^ binaryExponent (v : ℚ) < (2 : ℚ) ^ (53 : Int) := by
        calc (2 : ℚ) ^ binaryExponent (v : ℚ) ≤ |(v : ℚ)| := hs
          _ = (v : ℚ) := Nat.abs_cast v
          _ < (2 : ℚ) ^ (53 : Int) := by
            rw [zpow_ofNat]
            exact_mod_cast hv
      exact (zpow_lt_zpow_iff_right₀ (by norm_num : (1 : ℚ) < 2)).mp hlt
    unfold toDouble
    rw [if_neg h0]
    obtain ⟨j, hj⟩ : ∃ j : Nat, max (binaryExponent (v : ℚ) - 52) (-1074) = -(j : Int) :=
      ⟨(-(max (binaryExponent (v : ℚ) - 52) (-1074))).toNat, by omega⟩
    rw [hj, zpow_neg, zpow_natCast]
    have hx : (v : ℚ) / ((2 : ℚ) ^ j)⁻¹ = (((v * 2 ^ j : Nat) : Int) : ℚ) := by
      push_cast
      field_simp
    rw [hx, roundHalfEven_intCast]
    push_cast
    field_simp


theorem stdDevLe_iff_sqrt (variance samTH : ℚ) :
    stdDevLe variance samTH = true ↔ Real.sqrt (variance : ℝ) ≤ (samTH : ℝ) := by
  unfold stdDevLe
  rw [decide_eq_true_iff]
  constructor
  · rintro ⟨h0, h1⟩
    have h0r : (0 : ℝ) ≤ (samTH : ℝ) := by exact_mod_cast h0
    have h1r : (variance : ℝ) ≤ (samTH : ℝ) * (samTH : ℝ) := by exact_mod_cast h1
    calc Real.sqrt (variance : ℝ) ≤ Real.sqrt ((samTH : ℝ) * (samTH : ℝ)) := Real.sqrt_le_sqrt h1r
      _ = (samTH : ℝ) := Real.sqrt_mul_self h0r
  · intro h
    have h0r : (0 : ℝ) ≤ (samTH : ℝ) := le_trans (Real.sqrt_nonneg _) h
    refine ⟨by exact_mod_cast h0r, ?_⟩
    have h2 : (variance : ℝ) ≤ (samTH : ℝ) ^ 2 := (Real.sqrt_le_left h0r).mp h
    have h3 : (variance : ℝ) ≤ (samTH : ℝ) * (samTH : ℝ) := by rw [← sq]; exact h2
    exact_mod_cast h3

theorem regionStats_ok {img : Mat} {region : Rect} {st : ℚ × ℚ}
    (h : regionStats img region = .ok st) :
    img.roiValid region ∧ 0 < region.width ∧ 0 < region.height := by
  unfold regionStats Mat.roi at h
  by_cases hv : img.roiValid region
  · refine ⟨hv, ?_⟩
    simp only [hv, if_true] at h
    unfold meanStdDev at h
    simp only [bind, Except.bind] at h
    split at h
    · cases h
    · rename_i hne
      simp only [not_or] at hne
      omega
  · simp [hv, bind, Except.bind] at h

theorem regionStats_error {img : Mat} {region : Rect} {e : Fault}
    (h : regionStats img region = .error e) : e = .cvAssert := by
  unfold regionStats Mat.roi at h
  by_cases hv : img.roiValid region
  · simp only [hv, if_true, bind, Except.bind] at h
    unfold meanStdDev at h
    by_cases he : region.height.toNat = 0 ∨ region.width.toNat = 0
    · simp only [he, if_true] at h
      cases h; rfl
    · simp only [he, if_false] at h
      cases h
  · simp only [hv, if_false, bind, Except.bind] at h
    cases h; rfl

/-- One step of `splitFuel`, written with `regionStats`. -/
theorem splitFuel_succ (fuel : Nat) (img : Mat) (region : Rect) (samTH : ℚ) (minRegSize : Int) :
    splitFuel (fuel + 1) img region samTH minRegSize =
      (regionStats img region >>= fun st =>
        if regionIsDivisible region minRegSize && !(stdDevLe st.2 samTH) then
          splitFuel fuel img ⟨region.x, region.y, Int.tdiv region.width 2,
            Int.tdiv region.height 2⟩ samTH minRegSize >>= fun ul =>
          splitFuel fuel img ⟨region.x + Int.tdiv region.width 2, region.y,
            Int.tdiv region.width 2, Int.tdiv region.height 2⟩ samTH minRegSize >>= fun ur =>
          splitFuel fuel img ⟨region.x, region.y + Int.tdiv region.height 2,
            Int.tdiv region.width 2, Int.tdiv region.height 2⟩ samTH minRegSize >>= fun ll =>
          splitFuel fuel img ⟨region.x + Int.tdiv region.width 2,
            region.y + Int.tdiv region.height 2, Int.tdiv region.width 2,
            Int.tdiv region.height 2⟩ samTH minRegSize >>= fun lr =>
          pure (.node region ul ur ll lr [] Flags.allFalse st.1 st.2)
        else pure (.node region .null .null .null .null [] Flags.allFalse st.1 st.2)) := by
  rw [splitFuel]
  unfold regionStats
  cases img.roi region with
  | error e => rfl
  | ok sub =>
    cases meanStdDev sub with
    | error e => rfl
    | ok st => rfl

/-- Induction over the trees that `splitFuel` returns. -/
theorem splitFuel_induct (img : Mat) (samTH : ℚ) (minRegSize : Int)
    (P : Rect → qtNode → Prop)
    (leaf : ∀ region st, regionStats img region = .ok st →
      (regionIsDivisible region minRegSize && !(stdDevLe st.2 samTH)) = false →
      P region (.node region .null .null .null .null [] Flags.allFalse st.1 st.2))
    (internal : ∀ region st ul ur ll lr, regionStats img region = .ok st →
      regionIsDivisible region minRegSize = true → stdDevLe st.2 samTH = false →
      P ⟨region.x, region.y, Int.tdiv region.width 2, Int.tdiv region.height 2⟩ ul →
      P ⟨region.x + Int.tdiv region.width 2, region.y, Int.tdiv region.width 2,
        Int.tdiv region.height 2⟩ ur →
      P ⟨region.x, region.y + Int.tdiv region.height 2, Int.tdiv region.width 2,
        Int.tdiv region.height 2⟩ ll →
      P ⟨region.x + Int.tdiv region.width 2, region.y + Int.tdiv region.height 2,
        Int.tdiv region.width 2, Int.tdiv region.height 2⟩ lr →
      P region (.node region ul ur ll lr [] Flags.allFalse st.1 st.2)) :
    ∀ (fuel : Nat) (region : Rect) (t : qtNode),
      splitFuel fuel img region samTH minRegSize = .ok t → P region t := by
  intro fuel
  induction fuel with
  | zero => intro region t h; simp [splitFuel] at h
  | succ fuel ih =>
    intro region t h
    rw [splitFuel_succ] at h
    cases hst : regionStats img region with
    | error e => rw [hst] at h; cases h
    | ok st =>
      rw [hst] at h
      simp only [bind, Except.bind] at h
      by_cases hc : (regionIsDivisible region minRegSize && !(stdDevLe st.2 samTH)) = true
      · rw [if_pos hc] at h
        cases h1 : splitFuel fuel img ⟨region.x, region.y, Int.tdiv region.width 2,
            Int.tdiv region.height 2⟩ samTH minRegSize with
        | error e => rw [h1] at h; cases h
        | ok ul =>
          rw [h1] at h
          cases h2 : splitFuel fuel img ⟨region.x + Int.tdiv region.width 2, region.y,
              Int.tdiv region.width 2, Int.tdiv region.height 2⟩ samTH minRegSize with
          | error e => rw [h2] at h; cases h
          | ok ur =>
            rw [h2] at h
            cases h3 : splitFuel fuel img ⟨region.x, region.y + Int.tdiv region.height 2,
                Int.tdiv region.width 2, Int.tdiv region.height 2⟩ samTH minRegSize with
            | error e => rw [h3] at h; cases h
            | ok ll =>
              rw [h3] at h
              cases h4 : splitFuel fuel img ⟨region.x + Int.tdiv region.width 2,
                  region.y + Int.tdiv region.height 2, Int.tdiv region.width 2,
                  Int.tdiv region.height 2⟩ samTH minRegSize with
              | error e => rw [h4] at h; cases h
              | ok lr =>
                rw [h4] at h
                simp only [pure, Except.pure, Except.ok.injEq] at h
                subst h
                simp only [Bool.and_eq_true, Bool.not_eq_true', ] at hc
                exact internal region st ul ur ll lr hst hc.1 hc.2 (ih _ _ h1) (ih _ _ h2)
                  (ih _ _ h3) (ih _ _ h4)
      · rw [if_neg hc] at h
        simp only [pure, Except.pure, Except.ok.injEq] at h
        subst h
        exact leaf region st hst (by simpa using hc)

/-- Induction over the trees that `split` returns. -/
theorem split_induct (img : Mat) (samTH : ℚ) (minRegSize : Int)
    (P : Rect → qtNode → Prop)
    (leaf : ∀ region st, regionStats img region = .ok st →
      (regionIsDivisible region minRegSize && !(stdDevLe st.2 samTH)) = false →
      P region (.node region .null .null .null .null [] Flags.allFalse st.1 st.2))
    (internal : ∀ region st ul ur ll lr, regionStats img region = .ok st →
      regionIsDivisible region minRegSize = true → stdDevLe st.2 samTH = false →
      P ⟨region.x, region.y, Int.tdiv region.width 2, Int.tdiv region.height 2⟩ ul →
      P ⟨region.x + Int.tdiv region.width 2, region.y, Int.tdiv region.width 2,
        Int.tdiv region.height 2⟩ ur →
      P ⟨region.x, region.y + Int.tdiv region.height 2, Int.tdiv region.width 2,
        Int.tdiv region.height 2⟩ ll →
      P ⟨region.x + Int.tdiv region.width 2, region.y + Int.tdiv region.height 2,
        Int.tdiv region.width 2, Int.tdiv region.height 2⟩ lr →
      P region (.node region ul ur ll lr [] Flags.allFalse st.1 st.2))
    (region : Rect) (t : qtNode) (h : split img region samTH minRegSize = .ok t) :
    P region t :=
  splitFuel_induct img samTH minRegSize P leaf internal _ region t h

theorem tdiv_two_of_nonneg {w : Int} (h : 0 ≤ w) : Int.tdiv w 2 = w / 2 :=
  Int.tdiv_eq_ediv h (by norm_num)

/-- Any fuel above the width of the region gives the same result. -/
theorem splitFuel_fuel_irrelevant (img : Mat) (samTH : ℚ) (minRegSize : Int) :
    ∀ (f1 f2 : Nat) (region : Rect), region.width.toNat < f1 → region.width.toNat < f2 →
      splitFuel f1 img region samTH minRegSize = splitFuel f2 img region samTH minRegSize := by
  intro f1
  induction f1 with
  | zero => intro f2 region h1; omega
  | succ n ih =>
    intro f2 region h1 h2
    cases f2 with
    | zero => omega
    | succ k =>
      rw [splitFuel_succ, splitFuel_succ]
      cases hst : regionStats img region with
      | error e => rfl
      | ok st =>
        obtain ⟨_, hw, _⟩ := regionStats_ok hst
        have hlt : (Int.tdiv region.width 2).toNat < region.width.toNat := by
          rw [tdiv_two_of_nonneg (le_of_lt hw)]; omega
        have hn : (Int.tdiv region.width 2).toNat < n := by omega
        have hk : (Int.tdiv region.width 2).toNat < k := by omega
        simp only [bind, Except.bind]
        rw [ih k ⟨region.x, region.y, Int.tdiv region.width 2, Int.tdiv region.height 2⟩ hn hk,
          ih k ⟨region.x + Int.tdiv region.width 2, region.y, Int.tdiv region.width 2,
            Int.tdiv region.height 2⟩ hn hk,
          ih k ⟨region.x, region.y + Int.tdiv region.height 2, Int.tdiv region.width 2,
            Int.tdiv region.height 2⟩ hn hk,
          ih k ⟨region.x + Int.tdiv region.width 2, region.y + Int.tdiv region.height 2,
            Int.tdiv region.width 2, Int.tdiv region.height 2⟩ hn hk]

/-- The fuel that `split` supplies is never used up. -/
theorem splitFuel_ne_outOfFuel (img : Mat) (samTH : ℚ) (minRegSize : Int) :
    ∀ (fuel : Nat) (region : Rect), region.width.toNat < fuel →
      splitFuel fuel img region samTH minRegSize ≠ .error .outOfFuel := by
  intro fuel
  induction fuel with
  | zero => intro region h; omega
  | succ n ih =>
    intro region h
    rw [splitFuel_succ]
    cases hst : regionStats img region with
    | error e =>
      intro hh
      simp only [bind, Except.bind] at hh
      cases hh
      cases regionStats_error hst
    | ok st =>
      obtain ⟨_, hw, _⟩ := regionStats_ok hst
      have hn : (Int.tdiv region.width 2).toNat < n := by
        rw [tdiv_two_of_nonneg (le_of_lt hw)]; omega
      simp only [bind, Except.bind]
      split
      · have a1 := ih ⟨region.x, region.y, Int.tdiv region.width 2,
          Int.tdiv region.height 2⟩ hn
        have a2 := ih ⟨region.x + Int.tdiv region.width 2, region.y, Int.tdiv region.width 2,
          Int.tdiv region.height 2⟩ hn
        have a3 := ih ⟨region.x, region.y + Int.tdiv region.height 2,
          Int.tdiv region.width 2, Int.tdiv region.height 2⟩ hn
        have a4 := ih ⟨region.x + Int.tdiv region.width 2, region.y + Int.tdiv region.height 2,
          Int.tdiv region.width 2, Int.tdiv region.height 2⟩ hn
        revert a1 a2 a3 a4
        cases splitFuel n img ⟨region.x, region.y, Int.tdiv region.width 2,
          Int.tdiv region.height 2⟩ samTH minRegSize with
        | error e => intro a1 _ _ _; simpa using a1
        | ok ul =>
          cases splitFuel n img ⟨region.x + Int.tdiv region.width 2, region.y,
            Int.tdiv region.width 2, Int.tdiv region.height 2⟩ samTH minRegSize with
          | error e => intro _ a2 _ _; simpa using a2
          | ok ur =>
            cases splitFuel n img ⟨region.x, region.y + Int.tdiv region.height 2,
              Int.tdiv region.width 2, Int.tdiv region.height 2⟩ samTH minRegSize with
            | error e => intro _ _ a3 _; simpa using a3
            | ok ll =>
              cases splitFuel n img ⟨region.x + Int.tdiv region.width 2,
                region.y + Int.tdiv region.height 2, Int.tdiv region.width 2,
                Int.tdiv region.height 2⟩ samTH minRegSize with
              | error e => intro _ _ _ a4; simpa using a4
              | ok lr => intro _ _ _ _; simp [pure, Except.pure]
      · simp [pure, Except.pure]

/-- The recursion equation of `split`, as in the source: the statistics of the region, then,
when the region is divisible and not homogeneous, `split` on the four quadrants. -/
theorem split_eq (img : Mat) (region : Rect) (samTH : ℚ) (minRegSize : Int) :
    split img region samTH minRegSize =
      (regionStats img region >>= fun st =>
        if regionIsDivisible region minRegSize && !(stdDevLe st.2 samTH) then
          split img ⟨region.x, region.y, Int.tdiv region.width 2,
            Int.tdiv region.height 2⟩ samTH minRegSize >>= fun ul =>
          split img ⟨region.x + Int.tdiv region.width 2, region.y,
            Int.tdiv region.width 2, Int.tdiv region.height 2⟩ samTH minRegSize >>= fun ur =>
          split img ⟨region.x, region.y + Int.tdiv region.height 2,
            Int.tdiv region.width 2, Int.tdiv region.height 2⟩ samTH minRegSize >>= fun ll =>
          split img ⟨region.x + Int.tdiv region.width 2,
            region.y + Int.tdiv region.height 2, Int.tdiv region.width 2,
            Int.tdiv region.height 2⟩ samTH minRegSize >>= fun lr =>
          pure (.node region ul ur ll lr [] Flags.allFalse st.1 st.2)
        else pure (.node region .null .null .null .null [] Flags.allFalse st.1 st.2)) := by
  unfold split
  rw [splitFuel_succ]
  cases hst : regionStats img region with
  | error e => rfl
  | ok st =>
    obtain ⟨_, hw, _⟩ := regionStats_ok hst
    have hn : (Int.tdiv region.width 2).toNat < region.width.toNat := by
      rw [tdiv_two_of_nonneg (le_of_lt hw)]; omega
    simp only [bind, Except.bind]
    rw [splitFuel_fuel_irrelevant img samTH minRegSize region.width.toNat
        ((Int.tdiv region.width 2).toNat + 1)
        ⟨region.x, region.y, Int.tdiv region.width 2, Int.tdiv region.height 2⟩ hn
        (Nat.lt_succ_self _),
      splitFuel_fuel_irrelevant img samTH minRegSize region.width.toNat
        ((Int.tdiv region.width 2).toNat + 1)
        ⟨region.x + Int.tdiv region.width 2, region.y, Int.tdiv region.width 2,
          Int.tdiv region.height 2⟩ hn (Nat.lt_succ_self _),
      splitFuel_fuel_irrelevant img samTH minRegSize region.width.toNat
        ((Int.tdiv region.width 2).toNat + 1)
        ⟨region.x, region.y + Int.tdiv region.height 2, Int.tdiv region.width 2,
          Int.tdiv region.height 2⟩ hn (Nat.lt_succ_self _),
      splitFuel_fuel_irrelevant img samTH minRegSize region.width.toNat
        ((Int.tdiv region.width 2).toNat + 1)
        ⟨region.x + Int.tdiv region.width 2, region.y + Int.tdiv region.height 2,
          Int.tdiv region.width 2, Int.tdiv region.height 2⟩ hn (Nat.lt_succ_self _)]

theorem qtNode.All_imp {P Q : qtNode → Prop} (hPQ : ∀ n, P n → Q n) :
    ∀ t : qtNode, t.All P → t.All Q := by
  intro t
  induction t with
  | null => intro _; trivial
  | node region ul ur ll lr merged isMerged mean variance ih1 ih2 ih3 ih4 =>
    intro h
    exact ⟨hPQ _ h.1, ih1 h.2.1, ih2 h.2.2.1, ih3 h.2.2.2.1, ih4 h.2.2.2.2⟩

theorem qtNode.All_and {P Q : qtNode → Prop} :
    ∀ t : qtNode, t.All P → t.All Q → t.All (fun n => P n ∧ Q n) := by
  intro t
  induction t with
  | null => intro _ _; trivial
  | node region ul ur ll lr merged isMerged mean variance ih1 ih2 ih3 ih4 =>
    intro h g
    exact ⟨⟨h.1, g.1⟩, ih1 h.2.1 g.2.1, ih2 h.2.2.1 g.2.2.1, ih3 h.2.2.2.1 g.2.2.2.1,
      ih4 h.2.2.2.2 g.2.2.2.2⟩

/-- What `split` returns is a node for the requested region that carries the statistics of
that region, at the root and at every node below it. -/
theorem split_root (img : Mat) (region : Rect) (samTH : ℚ) (minRegSize : Int) (t : qtNode)
    (h : split img region samTH minRegSize = .ok t) :
    t.isNull = false ∧ t.region = region ∧
      t.All (fun n => regionStats img n.region = .ok (n.mean, n.variance)) := by
  refine split_induct img samTH minRegSize
    (fun region t => t.isNull = false ∧ t.region = region ∧
      t.All (fun n => regionStats img n.region = .ok (n.mean, n.variance))) ?_ ?_ region t h
  · intro region st hst _
    exact ⟨rfl, rfl, hst, trivial, trivial, trivial, trivial⟩
  · intro region st ul ur ll lr hst _ _ h1 h2 h3 h4
    exact ⟨rfl, rfl, hst, h1.2.2, h2.2.2, h3.2.2, h4.2.2⟩

/-- At every node of a tree returned by `split`: four children exactly when the stopping test
says so, no child otherwise. -/
theorem split_children_iff (img : Mat) (region : Rect) (samTH : ℚ) (minRegSize : Int)
    (t : qtNode) (h : split img region samTH minRegSize = .ok t) :
    t.All (fun n => (n.hasFourChildren ↔ splitCondition n samTH minRegSize) ∧
      (¬ splitCondition n samTH minRegSize → n.isLeaf)) := by
  refine split_induct img samTH minRegSize
    (fun _ t => t.isNull = false ∧
      t.All (fun n => (n.hasFourChildren ↔ splitCondition n samTH minRegSize) ∧
        (¬ splitCondition n samTH minRegSize → n.isLeaf))) ?_ ?_ region t h |>.2
  · intro region st _ hc
    refine ⟨rfl, ⟨?_, ?_⟩, trivial, trivial, trivial, trivial⟩
    · constructor
      · intro hf; exact absurd rfl hf.1
      · intro hs
        unfold splitCondition at hs
        simp only [qtNode.region, qtNode.variance] at hs
        unfold regionIsDivisible at hc
        simp only [hs.1, hs.2.1, hs.2.2, decide_True, Bool.and_self, Bool.not_false] at hc
        cases hc
    · intro _; exact ⟨rfl, rfl, rfl, rfl⟩
  · intro region st ul ur ll lr _ hd hs h1 h2 h3 h4
    refine ⟨rfl, ⟨?_, ?_⟩, h1.2, h2.2, h3.2, h4.2⟩
    · constructor
      · intro _
        unfold regionIsDivisible at hd
        simp only [Bool.and_eq_true, decide_eq_true_eq] at hd
        exact ⟨hd.1, hd.2, hs⟩
      · intro _
        refine ⟨?_, ?_, ?_, ?_⟩
        · intro hn; have := h1.1; simp [qtNode.upperLeft, qtNode.deref] at hn; simp [hn, qtNode.isNull] at this
        · intro hn; have := h2.1; simp [qtNode.upperRight, qtNode.deref] at hn; simp [hn, qtNode.isNull] at this
        · intro hn; have := h3.1; simp [qtNode.lowerLeft, qtNode.deref] at hn; simp [hn, qtNode.isNull] at this
        · intro hn; have := h4.1; simp [qtNode.lowerRight, qtNode.deref] at hn; simp [hn, qtNode.isNull] at this
    · intro hns
      exfalso
      apply hns
      unfold regionIsDivisible at hd
      simp only [Bool.and_eq_true, decide_eq_true_eq] at hd
      exact ⟨hd.1, hd.2, hs⟩

/-! ## Claims on `split` -/

/-- C7 (split child geometry).  Every node of a tree returned by `split` has no child or all
four, and the children of a node with region `(x, y, w, h)` have the regions
`(x, y, w/2, h/2)`, `(x + w/2, y, w/2, h/2)`, `(x, y + h/2, w/2, h/2)` and
`(x + w/2, y + h/2, w/2, h/2)`, where `/` rounds down. -/
theorem split_child_geometry (img : Mat) (region : Rect) (samTH : ℚ) (minRegSize : Int)
    (t : qtNode) (h : split img region samTH minRegSize = .ok t) :
    t.All (fun n => n.isLeaf ∨ (n.hasFourChildren ∧
      n.upperLeft.getRegion = .ok ⟨n.region.x, n.region.y,
        n.region.width / 2, n.region.height / 2⟩ ∧
      n.upperRight.getRegion = .ok ⟨n.region.x + n.region.width / 2, n.region.y,
        n.region.width / 2, n.region.height / 2⟩ ∧
      n.lowerLeft.getRegion = .ok ⟨n.region.x, n.region.y + n.region.height / 2,
        n.region.width / 2, n.region.height / 2⟩ ∧
      n.lowerRight.getRegion = .ok ⟨n.region.x + n.region.width / 2,
        n.region.y + n.region.height / 2, n.region.width / 2, n.region.height / 2⟩)) := by
  refine split_induct img samTH minRegSize
    (fun region t => (t.isNull = false ∧ t.region = region) ∧
      t.All (fun n => n.isLeaf ∨ (n.hasFourChildren ∧
        n.upperLeft.getRegion = .ok ⟨n.region.x, n.region.y,
          n.region.width / 2, n.region.height / 2⟩ ∧
        n.upperRight.getRegion = .ok ⟨n.region.x + n.region.width / 2, n.region.y,
          n.region.width / 2, n.region.height / 2⟩ ∧
        n.lowerLeft.getRegion = .ok ⟨n.region.x, n.region.y + n.region.height / 2,
          n.region.width / 2, n.region.height / 2⟩ ∧
        n.lowerRight.getRegion = .ok ⟨n.region.x + n.region.width / 2,
          n.region.y + n.region.height / 2, n.region.width / 2, n.region.height / 2⟩)))
    ?_ ?_ region t h |>.2
  · intro region st _ _
    exact ⟨⟨rfl, rfl⟩, Or.inl ⟨rfl, rfl, rfl, rfl⟩, trivial, trivial, trivial, trivial⟩
  · intro region st ul ur ll lr hst _ _ h1 h2 h3 h4
    obtain ⟨_, hw, hh⟩ := regionStats_ok hst
    have ew := tdiv_two_of_nonneg (le_of_lt hw)
    have eh := tdiv_two_of_nonneg (le_of_lt hh)
    refine ⟨⟨rfl, rfl⟩, Or.inr ⟨⟨?_, ?_, ?_, ?_⟩, ?_, ?_, ?_, ?_⟩, h1.2, h2.2, h3.2, h4.2⟩
    · intro hn; have := h1.1.1; simp [qtNode.upperLeft, qtNode.deref] at hn; simp [hn, qtNode.isNull] at this
    · intro hn; have := h2.1.1; simp [qtNode.upperRight, qtNode.deref] at hn; simp [hn, qtNode.isNull] at this
    · intro hn; have := h3.1.1; simp [qtNode.lowerLeft, qtNode.deref] at hn; simp [hn, qtNode.isNull] at this
    · intro hn; have := h4.1.1; simp [qtNode.lowerRight, qtNode.deref] at hn; simp [hn, qtNode.isNull] at this
    · obtain ⟨⟨a, b⟩, _⟩ := h1
      cases ul with
      | null => simp [qtNode.isNull] at a
      | node r _ _ _ _ _ _ _ _ =>
        simp only [qtNode.region] at b
        simp only [qtNode.upperLeft, qtNode.deref, qtNode.getRegion, qtNode.region, b, ew, eh]
    · obtain ⟨⟨a, b⟩, _⟩ := h2
      cases ur with
      | null => simp [qtNode.isNull] at a
      | node r _ _ _ _ _ _ _ _ =>
        simp only [qtNode.region] at b
        simp only [qtNode.upperRight, qtNode.deref, qtNode.getRegion, qtNode.region, b, ew, eh]
    · obtain ⟨⟨a, b⟩, _⟩ := h3
      cases ll with
      | null => simp [qtNode.isNull] at a
      | node r _ _ _ _ _ _ _ _ =>
        simp only [qtNode.region] at b
        simp only [qtNode.lowerLeft, qtNode.deref, qtNode.getRegion, qtNode.region, b, ew, eh]
    · obtain ⟨⟨a, b⟩, _⟩ := h4
      cases lr with
      | null => simp [qtNode.isNull] at a
      | node r _ _ _ _ _ _ _ _ =>
        simp only [qtNode.region] at b
        simp only [qtNode.lowerRight, qtNode.deref, qtNode.getRegion, qtNode.region, b, ew, eh]

/-- A concrete instance of the child geometry: the quadrant raster at threshold 0 and
minimum size 1. -/
theorem split_child_geometry_witness :
    split quadrantRaster ⟨0, 0, 4, 4⟩ 0 1 = .ok quadrantTree ∧
    quadrantTree.All (fun n => n.isLeaf ∨ (n.hasFourChildren ∧
      n.upperLeft.getRegion = .ok ⟨n.region.x, n.region.y,
        n.region.width / 2, n.region.height / 2⟩ ∧
      n.upperRight.getRegion = .ok ⟨n.region.x + n.region.width / 2, n.region.y,
        n.region.width / 2, n.region.height / 2⟩ ∧
      n.lowerLeft.getRegion = .ok ⟨n.region.x, n.region.y + n.region.height / 2,
        n.region.width / 2, n.region.height / 2⟩ ∧
      n.lowerRight.getRegion = .ok ⟨n.region.x + n.region.width / 2,
        n.region.y + n.region.height / 2, n.region.width / 2, n.region.height / 2⟩)) :=
  ⟨by decide!, split_child_geometry quadrantRaster ⟨0, 0, 4, 4⟩ 0 1 quadrantTree (by decide!)⟩

/-- C8 (tiling invariant, area), evaluated where it fails: on the 3x3 raster `oddRaster`
with threshold 0 and minimum size 1 the root region has 9 pixels, is split into four 1x1
quadrants, and the areas of the leaves sum to 4. -/
theorem split_leaf_area_odd :
    (split oddRaster ⟨0, 0, 3, 3⟩ 0 1).map (fun t => (t.leafRegions.map Rect.area).sum) = .ok 4 ∧
    Rect.area ⟨0, 0, 3, 3⟩ = 9 ∧
    (split oddRaster ⟨0, 0, 3, 3⟩ 0 1).map qtNode.leafRegions =
      .ok [⟨0, 0, 1, 1⟩, ⟨1, 0, 1, 1⟩, ⟨0, 1, 1, 1⟩, ⟨1, 1, 1, 1⟩] := by
  decide!

theorem Rect.within_trans {a b c : Rect} (hab : a.within b) (hbc : b.within c) :
    a.within c := by
  unfold Rect.within at *
  omega

theorem Rect.disjoint_of_within {a b qa qb : Rect} (ha : a.within qa) (hb : b.within qb)
    (hsep : qa.x + qa.width ≤ qb.x ∨ qb.x + qb.width ≤ qa.x ∨
      qa.y + qa.height ≤ qb.y ∨ qb.y + qb.height ≤ qa.y) : a.disjoint b := by
  intro r c
  unfold Rect.within at ha hb
  unfold Rect.contains
  omega

theorem leafRegions_node_of_not_null (region : Rect) (ul ur ll lr : qtNode) (merged : List Ref)
    (isMerged : Flags) (mean variance : ℚ) (h : ul.isNull = false) :
    (qtNode.node region ul ur ll lr merged isMerged mean variance).leafRegions =
      ul.leafRegions ++ ur.leafRegions ++ ll.leafRegions ++ lr.leafRegions := by
  simp [qtNode.leafRegions, h]

/-- The leaves of a tree returned by `split` lie within the region and are pairwise
disjoint. -/
theorem split_leaves_within_disjoint (img : Mat) (region : Rect) (samTH : ℚ) (minRegSize : Int)
    (t : qtNode) (h : split img region samTH minRegSize = .ok t) :
    (∀ a ∈ t.leafRegions, a.within region) ∧ t.leafRegions.Pairwise Rect.disjoint := by
  refine split_induct img samTH minRegSize
    (fun region t => t.isNull = false ∧
      (∀ a ∈ t.leafRegions, a.within region) ∧ t.leafRegions.Pairwise Rect.disjoint)
    ?_ ?_ region t h |>.2
  · intro region st _ _
    refine ⟨rfl, ?_, ?_⟩
    · intro a ha
      simp [qtNode.leafRegions, qtNode.isNull] at ha
      subst ha
      unfold Rect.within; omega
    · simp [qtNode.leafRegions, qtNode.isNull]
  · intro region st ul ur ll lr hst _ _ h1 h2 h3 h4
    obtain ⟨_, hw, hh⟩ := regionStats_ok hst
    have ew := tdiv_two_of_nonneg (le_of_lt hw)
    have eh := tdiv_two_of_nonneg (le_of_lt hh)
    rw [ew, eh] at h1 h2 h3 h4
    refine ⟨rfl, ?_, ?_⟩
    · intro a ha
      rw [leafRegions_node_of_not_null _ _ _ _ _ _ _ _ _ h1.1] at ha
      simp only [List.mem_append] at ha
      rcases ha with ((ha | ha) | ha) | ha
      · exact Rect.within_trans (h1.2.1 a ha) (by unfold Rect.within; simp only; omega)
      · exact Rect.within_trans (h2.2.1 a ha) (by unfold Rect.within; simp only; omega)
      · exact Rect.within_trans (h3.2.1 a ha) (by unfold Rect.within; simp only; omega)
      · exact Rect.within_trans (h4.2.1 a ha) (by unfold Rect.within; simp only; omega)
    · rw [leafRegions_node_of_not_null _ _ _ _ _ _ _ _ _ h1.1]
      rw [List.pairwise_append, List.pairwise_append, List.pairwise_append]
      refine ⟨⟨⟨h1.2.2, h2.2.2, ?_⟩, h3.2.2, ?_⟩, h4.2.2, ?_⟩
      · intro a ha b hb
        exact Rect.disjoint_of_within (h1.2.1 a ha) (h2.2.1 b hb) (by simp only; omega)
      · intro a ha b hb
        simp only [List.mem_append] at ha
        rcases ha with ha | ha
        · exact Rect.disjoint_of_within (h1.2.1 a ha) (h3.2.1 b hb) (by simp only; omega)
        · exact Rect.disjoint_of_within (h2.2.1 a ha) (h3.2.1 b hb) (by simp only; omega)
      · intro a ha b hb
        simp only [List.mem_append] at ha
        rcases ha with (ha | ha) | ha
        · exact Rect.disjoint_of_within (h1.2.1 a ha) (h4.2.1 b hb) (by simp only; omega)
        · exact Rect.disjoint_of_within (h2.2.1 a ha) (h4.2.1 b hb) (by simp only; omega)
        · exact Rect.disjoint_of_within (h3.2.1 a ha) (h4.2.1 b hb) (by simp only; omega)

/-- C9 (tiling invariant, disjointness).  In a tree returned by `split`, any two distinct
leaves have regions that share no pixel. -/
theorem split_leaves_disjoint (img : Mat) (region : Rect) (samTH : ℚ) (minRegSize : Int)
    (t : qtNode) (hmin : 1 ≤ minRegSize) (h : split img region samTH minRegSize = .ok t) :
    t.leafRegions.Pairwise (fun a b => ∀ r c : Int, ¬ (a.contains r c ∧ b.contains r c)) :=
  have _ := hmin
  (split_leaves_within_disjoint img region samTH minRegSize t h).2

/-- A concrete instance of the disjointness of leaves: the quadrant raster at threshold 0 and
minimum size 1. -/
theorem split_leaves_disjoint_witness :
    (1 : Int) ≤ 1 ∧ split quadrantRaster ⟨0, 0, 4, 4⟩ 0 1 = .ok quadrantTree ∧
    quadrantTree.leafRegions.Pairwise
      (fun a b => ∀ r c : Int, ¬ (a.contains r c ∧ b.contains r c)) :=
  ⟨by decide, by decide!,
    split_leaves_disjoint quadrantRaster ⟨0, 0, 4, 4⟩ 0 1 quadrantTree (by decide) (by decide!)⟩

/-- C10 (region containment).  In a tree returned by `split` the region of every node lies
within the region of its parent, within the root region and within the raster bounds
(`split` returns a tree only for a region within the raster bounds). -/
theorem split_region_containment (img : Mat) (region : Rect) (samTH : ℚ) (minRegSize : Int)
    (t : qtNode) (hin : img.roiValid region) (h : split img region samTH minRegSize = .ok t) :
    t.All childrenWithin ∧ t.All (fun n => n.region.within region) ∧
      t.All (fun n => img.roiValid n.region) := by
  have key := split_induct img samTH minRegSize
    (fun region t => (t.isNull = false ∧ t.region = region ∧ 0 ≤ region.width ∧
        0 ≤ region.height) ∧
      t.All childrenWithin ∧ t.All (fun n => n.region.within region)) ?_ ?_ region t h
  · refine ⟨key.2.1, key.2.2, ?_⟩
    have hstat := (split_root img region samTH minRegSize t h).2.2
    refine qtNode.All_imp ?_ t (qtNode.All_and t key.2.2 hstat)
    intro n hn
    obtain ⟨_, hw, hh⟩ := regionStats_ok hn.2
    have hwithin := hn.1
    unfold Rect.within at hwithin
    unfold Mat.roiValid at hin ⊢
    omega
  · intro region st hst _
    obtain ⟨_, hw, hh⟩ := regionStats_ok hst
    refine ⟨⟨rfl, rfl, le_of_lt hw, le_of_lt hh⟩,
      ⟨?_, trivial, trivial, trivial, trivial⟩, ⟨?_, trivial, trivial, trivial, trivial⟩⟩
    · intro q hq
      cases q
      · unfold Rect.within; simp only [qtNode.deref]; omega
      all_goals exact absurd rfl hq
    · unfold Rect.within; simp only [qtNode.region]; omega
  · intro region st ul ur ll lr hst _ _ h1 h2 h3 h4
    obtain ⟨_, hw, hh⟩ := regionStats_ok hst
    have ew := tdiv_two_of_nonneg (le_of_lt hw)
    have eh := tdiv_two_of_nonneg (le_of_lt hh)
    rw [ew, eh] at h1 h2 h3 h4
    have w1 : ul.region.within region := by
      rw [h1.1.2.1]; unfold Rect.within; simp only; omega
    have w2 : ur.region.within region := by
      rw [h2.1.2.1]; unfold Rect.within; simp only; omega
    have w3 : ll.region.within region := by
      rw [h3.1.2.1]; unfold Rect.within; simp only; omega
    have w4 : lr.region.within region := by
      rw [h4.1.2.1]; unfold Rect.within; simp only; omega
    refine ⟨⟨rfl, rfl, le_of_lt hw, le_of_lt hh⟩,
      ⟨?_, h1.2.1, h2.2.1, h3.2.1, h4.2.1⟩, ⟨?_, ?_, ?_, ?_, ?_⟩⟩
    · intro q _
      cases q
      · unfold Rect.within; simp only [qtNode.deref]; omega
      · exact w1
      · exact w2
      · exact w3
      · exact w4
    · unfold Rect.within; simp only [qtNode.region]; omega
    · refine qtNode.All_imp ?_ ul h1.2.2
      intro n hn
      exact Rect.within_trans hn (by unfold Rect.within; simp only; omega)
    · refine qtNode.All_imp ?_ ur h2.2.2
      intro n hn
      exact Rect.within_trans hn (by unfold Rect.within; simp only; omega)
    · refine qtNode.All_imp ?_ ll h3.2.2
      intro n hn
      exact Rect.within_trans hn (by unfold Rect.within; simp only; omega)
    · refine qtNode.All_imp ?_ lr h4.2.2
      intro n hn
      exact Rect.within_trans hn (by unfold Rect.within; simp only; omega)

/-- A concrete instance of region containment: the quadrant raster at threshold 0
and minimum size 1. -/
theorem split_region_containment_witness :
    quadrantRaster.roiValid ⟨0, 0, 4, 4⟩ ∧
    split quadrantRaster ⟨0, 0, 4, 4⟩ 0 1 = .ok quadrantTree ∧
    (quadrantTree.All childrenWithin ∧
      quadrantTree.All (fun n => n.region.within ⟨0, 0, 4, 4⟩) ∧
      quadrantTree.All (fun n => quadrantRaster.roiValid n.region)) :=
  ⟨by decide, by decide!,
    split_region_containment quadrantRaster ⟨0, 0, 4, 4⟩ 0 1 quadrantTree (by decide)
      (by decide!)⟩

/-! ## Uniform rasters -/

theorem pixels_length (src : Mat) : src.pixels.length = src.rows * src.cols := by
  unfold Mat.pixels
  rw [List.length_flatMap]
  have hconst : (List.map (fun (r : Nat) =>
      (List.map (fun (c : Nat) => src.px (r : Int) (c : Int)) (List.range src.cols)).length)
      (List.range src.rows)) = List.replicate src.rows src.cols := by
    rw [List.eq_replicate_iff]
    constructor
    · simp
    · intro b hb
      simp only [List.mem_map, List.mem_range, List.length_map, List.length_range] at hb
      obtain ⟨_, _, rfl⟩ := hb
      rfl
  have hcomp : (List.length ∘ fun (r : Nat) =>
      List.map (fun (c : Nat) => src.px (r : Int) (c : Int)) (List.range src.cols)) =
      (fun (r : Nat) =>
        (List.map (fun (c : Nat) => src.px (r : Int) (c : Int)) (List.range src.cols)).length) :=
    rfl
  rw [hcomp, hconst]
  simp

theorem pixels_uniform (src : Mat) (v : Nat)
    (huni : ∀ r : Nat, r < src.rows → ∀ c : Nat, c < src.cols → src.px (r : Int) (c : Int) = v) :
    src.pixels = List.replicate (src.rows * src.cols) v := by
  rw [List.eq_replicate_iff]
  refine ⟨pixels_length src, ?_⟩
  intro b hb
  unfold Mat.pixels at hb
  simp only [List.mem_flatMap, List.mem_map, List.mem_range] at hb
  obtain ⟨r, hr, c, hc, rfl⟩ := hb
  exact huni r hr c hc

theorem meanStdDev_uniform (src : Mat) (v : Nat) (hr : src.rows ≠ 0) (hc : src.cols ≠ 0)
    (huni : ∀ r : Nat, r < src.rows → ∀ c : Nat, c < src.cols → src.px (r : Int) (c : Int) = v) :
    meanStdDev src = .ok ((v : ℚ), 0) := by
  unfold meanStdDev
  rw [if_neg (by simp [hr, hc])]
  rw [pixels_uniform src v huni]
  have hn : ((src.rows * src.cols : Nat) : ℚ) ≠ 0 := by
    exact_mod_cast Nat.mul_ne_zero hr hc
  simp only [List.map_replicate, List.sum_replicate, smul_eq_mul]
  congr 1
  simp only [Prod.mk.injEq]
  constructor
  · push_cast at hn ⊢
    field_simp
  · push_cast at hn ⊢
    field_simp

theorem stdDevLe_zero {samTH : ℚ} (h : 0 ≤ samTH) : stdDevLe 0 samTH = true := by
  unfold stdDevLe
  rw [decide_eq_true_iff]
  exact ⟨h, mul_nonneg h h⟩

theorem truncToInt_natCast (v : Nat) : truncToInt (v : ℚ) = (v : Int) := by
  unfold truncToInt
  simp

theorem saturate_cast_of_le {v : Nat} (h : v ≤ 255) : saturate_cast (v : Int) = v := by
  unfold saturate_cast
  have h1 : ¬ ((v : Int) < 0) := by omega
  have h2 : ¬ ((255 : Int) < (v : Int)) := by omega
  simp [h1, h2]

/-- The statistics of the whole region `cv::Rect(0, 0, cols, rows)` of a uniform raster:
mean `v`, variance 0. -/
theorem regionStats_uniform (img : Mat) (v : Nat) (hr : 0 < img.rows) (hc : 0 < img.cols)
    (huni : ∀ r : Nat, r < img.rows → ∀ c : Nat, c < img.cols → img.px (r : Int) (c : Int) = v) :
    regionStats img ⟨0, 0, img.cols, img.rows⟩ = .ok ((v : ℚ), 0) := by
  unfold regionStats Mat.roi
  have hv : img.roiValid ⟨0, 0, img.cols, img.rows⟩ := by
    unfold Mat.roiValid; simp
  rw [if_pos hv]
  simp only [bind, Except.bind]
  apply meanStdDev_uniform
  · simp only [Int.toNat_ofNat]; omega
  · simp only [Int.toNat_ofNat]; omega
  · intro r hr' c hc'
    simp only [Int.toNat_ofNat] at hr' hc'
    simp only [zero_add]
    exact huni r hr' c hc'

/-- On a uniform raster of 8-bit samples and with a non-negative threshold the root is not
split, `merge` makes it a group of its own and `draw` paints the whole raster with the common
value (which is a `double`, so that no step of `draw` rounds). -/
theorem split_and_merge_uniform (img : Mat) (v : Nat) (samTH : ℚ) (minRegSize : Int)
    (hr : 0 < img.rows) (hc : 0 < img.cols)
    (huni : ∀ r : Nat, r < img.rows → ∀ c : Nat, c < img.cols → img.px (r : Int) (c : Int) = v)
    (hth : 0 ≤ samTH) (hv8 : v ≤ 255) :
    split_and_merge img samTH minRegSize =
      .ok ⟨img.rows, img.cols, fun r c =>
        if (⟨0, 0, img.cols, img.rows⟩ : Rect).contains r c then saturate_cast v
        else img.px r c⟩ := by
  have hst := regionStats_uniform img v hr hc huni
  have hsd := stdDevLe_zero hth
  have hv : img.roiValid ⟨0, 0, img.cols, img.rows⟩ := by
    unfold Mat.roiValid; simp
  have hsplit : split img ⟨0, 0, img.cols, img.rows⟩ samTH minRegSize =
      .ok (.node ⟨0, 0, img.cols, img.rows⟩ .null .null .null .null [] Flags.allFalse v 0) := by
    unfold split
    rw [splitFuel_succ, hst]
    simp only [bind, Except.bind, hsd, Bool.not_true, Bool.and_false]
    rfl
  unfold split_and_merge
  simp only [hsplit, bind, Except.bind]
  simp only [merge, hsd, Bool.or_true, if_true]
  simp only [draw, qtNode.deref, List.nil_append, List.map_cons, List.map_nil, List.isEmpty_cons,
    sumMeans, qtNode.getMean, bind, Except.bind, paintAll, qtNode.getRegion, Mat.assignRoi,
    if_pos hv, List.length_singleton, le_refl, if_true, zero_add, Nat.cast_one, Int.cast_one, div_one,
    toDouble_natCast v (by omega), truncToInt_natCast, Bool.false_eq_true, if_false, pure,
    Except.pure]

/-! ## Raster dimensions -/

theorem bind_eq_ok {ε α β : Type} {x : Except ε α} {f : α → Except ε β} {b : β} :
    (x >>= f) = .ok b ↔ ∃ a, x = .ok a ∧ f a = .ok b := by
  cases x with
  | error e => simp [bind, Except.bind]
  | ok a => simp [bind, Except.bind]

theorem assignRoi_dims {img out : Mat} {region : Rect} {value : Int}
    (h : img.assignRoi region value = .ok out) :
    out.rows = img.rows ∧ out.cols = img.cols := by
  unfold Mat.assignRoi at h
  split at h
  · cases h; exact ⟨rfl, rfl⟩
  · cases h

theorem paintAll_dims (value : Int) : ∀ (members : List qtNode) (img out : Mat),
    paintAll img members value = .ok out → out.rows = img.rows ∧ out.cols = img.cols := by
  intro members
  induction members with
  | nil =>
    intro img out h
    simp only [paintAll] at h
    cases h; exact ⟨rfl, rfl⟩
  | cons n rest ih =>
    intro img out h
    simp only [paintAll] at h
    obtain ⟨region, _, h⟩ := bind_eq_ok.mp h
    obtain ⟨img1, h1, h⟩ := bind_eq_ok.mp h
    have d1 := assignRoi_dims h1
    have d2 := ih img1 out h
    exact ⟨d2.1.trans d1.1, d2.2.trans d1.2⟩

theorem draw_cond_dims {c : Bool} {t : qtNode} {img out : Mat}
    (ih : ∀ img out, draw img t = .ok out → out.rows = img.rows ∧ out.cols = img.cols)
    (h : (if c = true then draw img t else pure img) = .ok out) :
    out.rows = img.rows ∧ out.cols = img.cols := by
  split at h
  · exact ih img out h
  · cases h; exact ⟨rfl, rfl⟩

/-- The renderer keeps the size of the raster. -/
theorem draw_dims : ∀ (t : qtNode) (img out : Mat),
    draw img t = .ok out → out.rows = img.rows ∧ out.cols = img.cols := by
  intro t
  induction t with
  | null =>
    intro img out h
    simp only [draw] at h
    cases h; exact ⟨rfl, rfl⟩
  | node region ul ur ll lr merged isMerged mean variance ih1 ih2 ih3 ih4 =>
    intro img out h
    simp only [draw] at h
    split at h
    · obtain ⟨i1, h1, h⟩ := bind_eq_ok.mp h
      obtain ⟨i2, h2, h⟩ := bind_eq_ok.mp h
      obtain ⟨i3, h3, h⟩ := bind_eq_ok.mp h
      have d1 := ih1 _ _ h1
      have d2 := ih2 _ _ h2
      have d3 := ih3 _ _ h3
      have d4 := ih4 _ _ h
      exact ⟨by omega, by omega⟩
    · obtain ⟨rv, _, h⟩ := bind_eq_ok.mp h
      obtain ⟨i0, h0, h⟩ := bind_eq_ok.mp h
      have d0 := paintAll_dims _ _ _ _ h0
      split at h
      · cases h; exact d0
      · obtain ⟨i1, h1, h⟩ := bind_eq_ok.mp h
        obtain ⟨i2, h2, h⟩ := bind_eq_ok.mp h
        obtain ⟨i3, h3, h⟩ := bind_eq_ok.mp h
        have d1 := draw_cond_dims ih1 h1
        have d2 := draw_cond_dims ih2 h2
        have d3 := draw_cond_dims ih4 h3
        have d4 := draw_cond_dims ih1 h
        exact ⟨by omega, by omega⟩

/-- The size of the result of `split_and_merge` is the size of its input. -/
theorem split_and_merge_dims {img out : Mat} {samTH : ℚ} {minRegSize : Int}
    (h : split_and_merge img samTH minRegSize = .ok out) :
    out.rows = img.rows ∧ out.cols = img.cols := by
  unfold split_and_merge at h
  obtain ⟨t, _, h⟩ := bind_eq_ok.mp h
  obtain ⟨t1, _, h⟩ := bind_eq_ok.mp h
  exact draw_dims t1 img out h

/-- A raster on which `split_and_merge` succeeds is not empty. -/
theorem split_and_merge_nonempty {img out : Mat} {samTH : ℚ} {minRegSize : Int}
    (h : split_and_merge img samTH minRegSize = .ok out) : 0 < img.rows ∧ 0 < img.cols := by
  unfold split_and_merge at h
  obtain ⟨t, ht, _⟩ := bind_eq_ok.mp h
  have hs := (split_root img _ samTH minRegSize t ht)
  obtain ⟨hnull, hreg, hall⟩ := hs
  cases t with
  | null => simp [qtNode.isNull] at hnull
  | node r ul ur ll lr merged isMerged mean variance =>
    simp only [qtNode.region] at hreg
    subst hreg
    obtain ⟨_, hw, hh⟩ := regionStats_ok hall.1
    simp only [qtNode.region] at hw hh
    omega

/-! ## Claims on the pipeline -/

/-- C1 (uniform-input stability).  For a non-empty square raster all of whose samples equal
`v` (at most 255), a threshold that is not negative and a minimum size of at least 1,
`split_and_merge` returns a raster of the same size all of whose samples equal `v`. -/
theorem uniform_input_stability (img : Mat) (v : Nat) (samTH : ℚ) (minRegSize : Int)
    (hsq : img.rows = img.cols) (hne : 0 < img.rows) (hv : v ≤ 255)
    (huni : ∀ r : Nat, r < img.rows → ∀ c : Nat, c < img.cols → img.px (r : Int) (c : Int) = v)
    (hth : 0 ≤ samTH) (hmin : 1 ≤ minRegSize) :
    ∃ out, split_and_merge img samTH minRegSize = .ok out ∧
      out.rows = img.rows ∧ out.cols = img.cols ∧
      ∀ r : Nat, r < out.rows → ∀ c : Nat, c < out.cols → out.px (r : Int) (c : Int) = v := by
  have _ := hmin
  refine ⟨_, split_and_merge_uniform img v samTH minRegSize hne (hsq ▸ hne) huni hth hv,
    rfl, rfl, ?_⟩
  intro r hr c hc
  simp only at hr hc
  have hin : (⟨0, 0, img.cols, img.rows⟩ : Rect).contains (r : Int) (c : Int) := by
    unfold Rect.contains; simp only; omega
  simp only [if_pos hin]
  exact saturate_cast_of_le hv

/-- A concrete instance of uniform-input stability: a 2x2 raster of value 7, threshold 3,
minimum size 1. -/
theorem uniform_input_stability_witness :
    ∃ out, split_and_merge uniformRaster 3 1 = .ok out ∧
      out.rows = uniformRaster.rows ∧ out.cols = uniformRaster.cols ∧
      ∀ r : Nat, r < out.rows → ∀ c : Nat, c < out.cols → out.px (r : Int) (c : Int) = 7 :=
  uniform_input_stability uniformRaster 7 3 1 rfl (by decide) (by decide)
    (fun _ _ _ _ => rfl) (by norm_num) (by decide)

/-- C2 (idempotence), refuted: on `driftRaster` with threshold 0 and minimum size 1 the first
pass returns a raster with the values 0 and 50, and a second pass on that result returns a
raster that is 25 everywhere. -/
theorem segment_not_idempotent :
    (split_and_merge driftRaster 0 1).map Mat.toLists =
      .ok [[0, 0, 50, 50], [0, 0, 50, 50], [0, 0, 50, 50], [0, 0, 50, 50]] ∧
    (split_and_merge driftRaster 0 1 >>= fun out =>
      (split_and_merge out 0 1).map Mat.toLists) =
      .ok [[25, 25, 25, 25], [25, 25, 25, 25], [25, 25, 25, 25], [25, 25, 25, 25]] ∧
    (split_and_merge driftRaster 0 1 >>= fun out =>
      (split_and_merge out 0 1).map Mat.toLists) ≠
      (split_and_merge driftRaster 0 1).map Mat.toLists := by
  decide!

/-- C2 (idempotence), amended.  If the first pass on a square raster, with a threshold that
is not negative, returns a raster all of whose samples have the same value, then a second
pass on that result returns it unchanged. -/
theorem segment_idempotent_of_uniform_output (img out : Mat) (v : Nat) (samTH : ℚ)
    (minRegSize : Int) (hsq : img.rows = img.cols) (hth : 0 ≤ samTH)
    (hfirst : split_and_merge img samTH minRegSize = .ok out) (hv : v ≤ 255)
    (huni : ∀ r : Nat, r < out.rows → ∀ c : Nat, c < out.cols → out.px (r : Int) (c : Int) = v) :
    split_and_merge out samTH minRegSize = .ok out := by
  have _ := hsq
  obtain ⟨d1, d2⟩ := split_and_merge_dims hfirst
  obtain ⟨n1, n2⟩ := split_and_merge_nonempty hfirst
  rw [split_and_merge_uniform out v samTH minRegSize (by omega) (by omega) huni hth hv]
  congr 1
  cases out with
  | mk rows cols px =>
    simp only [Mat.mk.injEq, true_and]
    funext r c
    by_cases hin : (⟨0, 0, cols, rows⟩ : Rect).contains r c
    · rw [if_pos hin, saturate_cast_of_le hv]
      unfold Rect.contains at hin
      simp only at hin huni
      have hr : r = ((r.toNat : Nat) : Int) := by omega
      have hc : c = ((c.toNat : Nat) : Int) := by omega
      rw [hr, hc]
      exact (huni r.toNat (by omega) c.toNat (by omega)).symm
    · rw [if_neg hin]

/-- A concrete instance of idempotence on a uniform result: the first pass on the
quadrant raster with threshold 0 and minimum size 1 returns a raster that is 96 everywhere. -/
theorem segment_idempotent_of_uniform_output_witness :
    split_and_merge (segmentOrInput quadrantRaster 0 1) 0 1 =
      .ok (segmentOrInput quadrantRaster 0 1) := by
  have hex : ∃ out, split_and_merge quadrantRaster 0 1 = .ok out := by
    cases h : split_and_merge quadrantRaster 0 1 with
    | ok out => exact ⟨out, rfl⟩
    | error e =>
      have hl : (split_and_merge quadrantRaster 0 1).map Mat.toLists =
          .ok [[96, 96, 96, 96], [96, 96, 96, 96], [96, 96, 96, 96], [96, 96, 96, 96]] := by
        decide!
      rw [h] at hl
      cases hl
  obtain ⟨out, hout⟩ := hex
  have hseg : segmentOrInput quadrantRaster 0 1 = out := by
    unfold segmentOrInput
    rw [hout]
  exact segment_idempotent_of_uniform_output quadrantRaster (segmentOrInput quadrantRaster 0 1)
    96 0 1 rfl (le_refl 0) (hseg ▸ hout) (by decide) (by decide!)

/-- C3 (disjoint-quadrant example), refuted: on the quadrant raster with threshold 0 and
minimum size 1 the merge group of the root is not empty and the output differs from the
input. -/
theorem quadrant_example_merges :
    (split quadrantRaster ⟨0, 0, 4, 4⟩ 0 1 >>= fun t => merge t 0 1).map qtNode.merged ≠ .ok [] ∧
    (split_and_merge quadrantRaster 0 1).map Mat.toLists ≠ .ok quadrantRaster.toLists := by
  decide!

/-- C3 (disjoint-quadrant example), amended.  On the quadrant raster with threshold 0 and
minimum size 1, `split` divides the root into its four uniform quadrants, `merge` puts all
four quadrants into the merge group of the root and sets all four flags, and every sample of
the output is 96. -/
theorem quadrant_example_four_way_merge :
    split quadrantRaster ⟨0, 0, 4, 4⟩ 0 1 = .ok quadrantTree ∧
    merge quadrantTree 0 1 =
      .ok (.node ⟨0, 0, 4, 4⟩ (freshLeaf ⟨0, 0, 2, 2⟩ 0 0) (freshLeaf ⟨2, 0, 2, 2⟩ 64 0)
        (freshLeaf ⟨0, 2, 2, 2⟩ 128 0) (freshLeaf ⟨2, 2, 2, 2⟩ 192 0)
        [Ref.upper_left, Ref.upper_right, Ref.lower_right, Ref.lower_left]
        ⟨true, true, true, true⟩ 96 5120) ∧
    (split_and_merge quadrantRaster 0 1).map Mat.toLists =
      .ok [[96, 96, 96, 96], [96, 96, 96, 96], [96, 96, 96, 96], [96, 96, 96, 96]] := by
  decide!

/-- C4 (full-merge example).  On the quadrant raster with threshold 255 and minimum size 1,
`split` returns a root without children and every sample of the output is 96. -/
theorem full_merge_example :
    split quadrantRaster ⟨0, 0, 4, 4⟩ 255 1 = .ok (freshLeaf ⟨0, 0, 4, 4⟩ 96 5120) ∧
    (freshLeaf ⟨0, 0, 4, 4⟩ 96 5120).isLeaf ∧
    (split_and_merge quadrantRaster 255 1).map Mat.toLists =
      .ok [[96, 96, 96, 96], [96, 96, 96, 96], [96, 96, 96, 96], [96, 96, 96, 96]] := by
  refine ⟨by decide!, ⟨rfl, rfl, rfl, rfl⟩, by decide!⟩

/-- C5 (piecewise-constant output), evaluated where it fails: on `skipRaster` with threshold
0 and minimum size 1 the sample in row 2, column 1 keeps its input value 2, although the only
merge group with a member region that contains this pixel has the value 0 (the group of the
lower-left quadrant, which `draw` never visits). -/
theorem draw_skips_lower_left :
    (split_and_merge skipRaster 0 1).map Mat.toLists =
      .ok [[0, 0, 50, 50], [0, 0, 50, 50], [0, 2, 50, 50], [0, 0, 50, 50]] ∧
    skipRaster.px 2 1 = 2 ∧
    (split skipRaster ⟨0, 0, 4, 4⟩ 0 1 >>= fun t => merge t 0 1).map
      (fun t => t.groups.filter (fun g => g.1.any (fun reg => decide (reg.contains 2 1)))) =
      .ok [([⟨0, 2, 1, 1⟩, ⟨1, 2, 1, 1⟩, ⟨1, 3, 1, 1⟩, ⟨0, 3, 1, 1⟩], 0)] := by
  decide!

/-! ## Termination and depth of `split` -/

theorem regionStats_total {img : Mat} {region : Rect} (hv : img.roiValid region)
    (hw : 0 < region.width) (hh : 0 < region.height) :
    ∃ st, regionStats img region = .ok st := by
  unfold regionStats Mat.roi
  rw [if_pos hv]
  simp only [bind, Except.bind]
  unfold meanStdDev
  have hne : ¬ (region.height.toNat = 0 ∨ region.width.toNat = 0) := by
    simp only [not_or]; omega
  simp only [hne, if_false]
  exact ⟨_, rfl⟩

/-- With a minimum size of at least 1, `splitFuel` returns a tree for every non-empty region
within the raster, whatever fuel above the width it is given. -/
theorem splitFuel_total (img : Mat) (samTH : ℚ) (minRegSize : Int) (hmin : 1 ≤ minRegSize) :
    ∀ (fuel : Nat) (region : Rect), region.width.toNat < fuel → img.roiValid region →
      0 < region.width → 0 < region.height →
      ∃ t, splitFuel fuel img region samTH minRegSize = .ok t := by
  intro fuel
  induction fuel with
  | zero => intro region h; omega
  | succ n ih =>
    intro region hf hv hw hh
    rw [splitFuel_succ]
    obtain ⟨st, hst⟩ := regionStats_total hv hw hh
    rw [hst]
    simp only [bind, Except.bind]
    by_cases hc : (regionIsDivisible region minRegSize && !(stdDevLe st.2 samTH)) = true
    · rw [if_pos hc]
      simp only [Bool.and_eq_true] at hc
      have hd := hc.1
      unfold regionIsDivisible at hd
      simp only [Bool.and_eq_true, decide_eq_true_eq] at hd
      have ew := tdiv_two_of_nonneg (le_of_lt hw)
      have eh := tdiv_two_of_nonneg (le_of_lt hh)
      unfold Mat.roiValid at hv
      have hn : (Int.tdiv region.width 2).toNat < n := by rw [ew]; omega
      obtain ⟨ul, h1⟩ := ih ⟨region.x, region.y, Int.tdiv region.width 2,
        Int.tdiv region.height 2⟩ hn (by unfold Mat.roiValid; simp only [ew, eh]; omega)
        (by simp only [ew]; omega) (by simp only [eh]; omega)
      obtain ⟨ur, h2⟩ := ih ⟨region.x + Int.tdiv region.width 2, region.y,
        Int.tdiv region.width 2, Int.tdiv region.height 2⟩ hn
        (by unfold Mat.roiValid; simp only [ew, eh]; omega)
        (by simp only [ew]; omega) (by simp only [eh]; omega)
      obtain ⟨ll, h3⟩ := ih ⟨region.x, region.y + Int.tdiv region.height 2,
        Int.tdiv region.width 2, Int.tdiv region.height 2⟩ hn
        (by unfold Mat.roiValid; simp only [ew, eh]; omega)
        (by simp only [ew]; omega) (by simp only [eh]; omega)
      obtain ⟨lr, h4⟩ := ih ⟨region.x + Int.tdiv region.width 2,
        region.y + Int.tdiv region.height 2, Int.tdiv region.width 2,
        Int.tdiv region.height 2⟩ hn
        (by unfold Mat.roiValid; simp only [ew, eh]; omega)
        (by simp only [ew]; omega) (by simp only [eh]; omega)
      rw [h1, h2, h3, h4]
      exact ⟨_, rfl⟩
    · rw [if_neg hc]
      exact ⟨_, rfl⟩

/-- In a tree returned by `split` every child is strictly narrower and strictly lower than
its parent. -/
theorem split_children_smaller (img : Mat) (region : Rect) (samTH : ℚ) (minRegSize : Int)
    (t : qtNode) (h : split img region samTH minRegSize = .ok t) : t.All childrenSmaller := by
  refine split_induct img samTH minRegSize
    (fun region t => (t.isNull = false ∧ t.region = region) ∧ t.All childrenSmaller)
    ?_ ?_ region t h |>.2
  · intro region st _ _
    refine ⟨⟨rfl, rfl⟩, ?_, trivial, trivial, trivial, trivial⟩
    intro q hq hn
    cases q
    · exact absurd rfl hq
    all_goals exact absurd rfl hn
  · intro region st ul ur ll lr hst _ _ h1 h2 h3 h4
    obtain ⟨_, hw, hh⟩ := regionStats_ok hst
    have ew := tdiv_two_of_nonneg (le_of_lt hw)
    have eh := tdiv_two_of_nonneg (le_of_lt hh)
    refine ⟨⟨rfl, rfl⟩, ?_, h1.2, h2.2, h3.2, h4.2⟩
    intro q hq _
    cases q
    · exact absurd rfl hq
    · simp only [qtNode.deref]; rw [h1.1.2]; simp only [qtNode.region, ew, eh]; omega
    · simp only [qtNode.deref]; rw [h2.1.2]; simp only [qtNode.region, ew, eh]; omega
    · simp only [qtNode.deref]; rw [h3.1.2]; simp only [qtNode.region, ew, eh]; omega
    · simp only [qtNode.deref]; rw [h4.1.2]; simp only [qtNode.region, ew, eh]; omega

/-- C11 (split termination).  For a region of positive width and height and a minimum size of
at least 1 the recursion of `split` ends: the fuel is never used up, more fuel does not change
the result, and for a region within the raster the result is a tree in which every child
region is strictly narrower and strictly lower than the region of its parent. -/
theorem split_terminates (img : Mat) (region : Rect) (samTH : ℚ) (minRegSize : Int)
    (hw : 0 < region.width) (hh : 0 < region.height) (hmin : 1 ≤ minRegSize) :
    split img region samTH minRegSize ≠ .error .outOfFuel ∧
    (∀ fuel : Nat, region.width.toNat < fuel →
      splitFuel fuel img region samTH minRegSize = split img region samTH minRegSize) ∧
    (img.roiValid region →
      ∃ t, split img region samTH minRegSize = .ok t ∧ t.All childrenSmaller) := by
  refine ⟨?_, ?_, ?_⟩
  · exact splitFuel_ne_outOfFuel img samTH minRegSize _ region (Nat.lt_succ_self _)
  · intro fuel hf
    exact splitFuel_fuel_irrelevant img samTH minRegSize fuel _ region hf (Nat.lt_succ_self _)
  · intro hv
    obtain ⟨t, ht⟩ := splitFuel_total img samTH minRegSize hmin _ region (Nat.lt_succ_self _)
      hv hw hh
    exact ⟨t, ht, split_children_smaller img region samTH minRegSize t ht⟩

/-- A concrete instance of termination: the quadrant raster at threshold 0 and minimum
size 1. -/
theorem split_terminates_witness :
    ((0 : Int) < 4 ∧ (1 : Int) ≤ 1) ∧
    (split quadrantRaster ⟨0, 0, 4, 4⟩ 0 1 ≠ .error .outOfFuel ∧
    (∀ fuel : Nat, (4 : Int).toNat < fuel →
      splitFuel fuel quadrantRaster ⟨0, 0, 4, 4⟩ 0 1 = split quadrantRaster ⟨0, 0, 4, 4⟩ 0 1) ∧
    (quadrantRaster.roiValid ⟨0, 0, 4, 4⟩ →
      ∃ t, split quadrantRaster ⟨0, 0, 4, 4⟩ 0 1 = .ok t ∧ t.All childrenSmaller)) :=
  ⟨by decide, split_terminates quadrantRaster ⟨0, 0, 4, 4⟩ 0 1 (by decide) (by decide)
    (by decide)⟩

/-- A region of width at most `minRegSize * 2 ^ k` gives a tree of at most `k + 1` levels. -/
theorem split_depth_le (img : Mat) (region : Rect) (samTH : ℚ) (minRegSize : Int)
    (t : qtNode) (h : split img region samTH minRegSize = .ok t) :
    ∀ k : Nat, region.width ≤ minRegSize * 2 ^ k → t.depth ≤ k + 1 := by
  refine split_induct img samTH minRegSize
    (fun region t => ∀ k : Nat, region.width ≤ minRegSize * 2 ^ k → t.depth ≤ k + 1)
    ?_ ?_ region t h
  · intro region st _ _ k _
    simp [qtNode.depth]
  · intro region st ul ur ll lr hst hd _ h1 h2 h3 h4 k hk
    obtain ⟨_, hw, _⟩ := regionStats_ok hst
    have ew := tdiv_two_of_nonneg (le_of_lt hw)
    unfold regionIsDivisible at hd
    simp only [Bool.and_eq_true, decide_eq_true_eq] at hd
    cases k with
    | zero =>
      simp only [pow_zero, mul_one] at hk
      omega
    | succ j =>
      have hj : Int.tdiv region.width 2 ≤ minRegSize * 2 ^ j := by
        rw [ew]
        have hp : minRegSize * 2 ^ (j + 1) = 2 * (minRegSize * 2 ^ j) := by ring
        rw [hp] at hk
        omega
      have d1 := h1 j hj
      have d2 := h2 j hj
      have d3 := h3 j hj
      have d4 := h4 j hj
      simp only [qtNode.depth]
      omega

/-- C12 (depth bound), refuted as stated: for the 1x1 raster and minimum size 4 the tree is a
single node (one level, no edge), while the bound `⌈log₂ (1 / 4)⌉ + 1` is `-1`. -/
theorem split_depth_bound_fails :
    (split tinyRaster ⟨0, 0, 1, 1⟩ 0 4).map qtNode.depth = .ok 1 ∧
    Int.clog 2 ((((max 1 1 : Int) : ℚ)) / ((4 : Int) : ℚ)) + 1 = -1 ∧
    ¬ ((1 : Int) ≤ Int.clog 2 ((((max 1 1 : Int) : ℚ)) / ((4 : Int) : ℚ)) + 1) ∧
    ¬ ((0 : Int) ≤ Int.clog 2 ((((max 1 1 : Int) : ℚ)) / ((4 : Int) : ℚ)) + 1) := by
  decide!

/-- C12 (depth bound), amended.  For a region of positive width and height, a minimum size of
at least 1 and `max width height` at least the minimum size, the tree returned by `split` has
at most `⌈log₂ (max width height / minRegSize)⌉ + 1` levels. -/
theorem split_depth_bound (img : Mat) (region : Rect) (samTH : ℚ) (minRegSize : Int)
    (t : qtNode) (hw : 0 < region.width) (hh : 0 < region.height) (hmin : 1 ≤ minRegSize)
    (hbig : minRegSize ≤ max region.width region.height)
    (h : split img region samTH minRegSize = .ok t) :
    (t.depth : Int) ≤
      Int.clog 2 (((max region.width region.height : Int) : ℚ) / (minRegSize : ℚ)) + 1 := by
  have _ := hw
  have _ := hh
  have hmq : (0 : ℚ) < (minRegSize : ℚ) := by exact_mod_cast (by omega : (0 : Int) < minRegSize)
  have hone : (1 : ℚ) ≤ ((max region.width region.height : Int) : ℚ) / (minRegSize : ℚ) := by
    rw [le_div_iff₀ hmq, one_mul]
    exact_mod_cast hbig
  have hclog := Int.clog_of_one_le_right 2 hone
  have hself := Int.self_le_zpow_clog (R := ℚ) (b := 2) (by norm_num)
    (((max region.width region.height : Int) : ℚ) / (minRegSize : ℚ))
  rw [hclog] at hself ⊢
  rw [zpow_natCast, div_le_iff₀ hmq] at hself
  have hint : max region.width region.height ≤
      minRegSize * 2 ^ (Nat.clog 2 ⌈((max region.width region.height : Int) : ℚ) /
        (minRegSize : ℚ)⌉₊) := by
    have : ((max region.width region.height : Int) : ℚ) ≤
        ((minRegSize * 2 ^ (Nat.clog 2 ⌈((max region.width region.height : Int) : ℚ) /
          (minRegSize : ℚ)⌉₊) : Int) : ℚ) := by
      push_cast
      push_cast at hself
      linarith
    exact_mod_cast this
  have hwid : region.width ≤ minRegSize * 2 ^ (Nat.clog 2
      ⌈((max region.width region.height : Int) : ℚ) / (minRegSize : ℚ)⌉₊) :=
    le_trans (le_max_left _ _) hint
  have hd := split_depth_le img region samTH minRegSize t h _ hwid
  exact_mod_cast hd

/-- A concrete instance of the depth bound: the quadrant raster at threshold 0 and minimum
size 1 has two levels, the bound is 3. -/
theorem split_depth_bound_witness :
    ((0 : Int) < 4 ∧ (1 : Int) ≤ 1 ∧ (1 : Int) ≤ max 4 4) ∧
    split quadrantRaster ⟨0, 0, 4, 4⟩ 0 1 = .ok quadrantTree ∧
    (quadrantTree.depth : Int) ≤
      Int.clog 2 (((max 4 4 : Int) : ℚ) / ((1 : Int) : ℚ)) + 1 :=
  ⟨by decide, by decide!,
    split_depth_bound quadrantRaster ⟨0, 0, 4, 4⟩ 0 1 quadrantTree (by decide) (by decide)
      (by decide) (by decide) (by decide!)⟩

/-! ## The branches of `merge` -/

theorem satisfyPredicate_of_not_null {n : qtNode} (samTH : ℚ) (h : n.isNull = false) :
    satisfyPredicate n samTH = .ok (stdDevLe n.variance samTH) := by
  cases n with
  | null => simp [qtNode.isNull] at h
  | node _ _ _ _ _ _ _ _ _ => rfl

theorem shouldBeMerged_of_not_null {a b : qtNode} (samTH : ℚ) (ha : a.isNull = false)
    (hb : b.isNull = false) : shouldBeMerged a b samTH = .ok (mergeable a b samTH) := by
  unfold shouldBeMerged mergeable
  rw [satisfyPredicate_of_not_null samTH ha, satisfyPredicate_of_not_null samTH hb]
  simp only [bind, Except.bind]
  cases stdDevLe a.variance samTH <;> simp [pure, Except.pure]

theorem merge_leaf_eq (region : Rect) (ul ur ll lr : qtNode) (merged : List Ref)
    (isMerged : Flags) (mean variance samTH : ℚ) (minRegSize : Int)
    (hleaf : ¬ (region.width > minRegSize) ∨ stdDevLe variance samTH = true) :
    merge (.node region ul ur ll lr merged isMerged mean variance) samTH minRegSize =
      .ok (.node region ul ur ll lr (merged ++ [Ref.self]) Flags.allFalse mean variance) := by
  have hc : (!(decide (region.width > minRegSize)) || stdDevLe variance samTH) = true := by
    rcases hleaf with h | h
    · simp [h]
    · simp [h]
  simp only [merge, hc, if_true]

theorem merge_upper_four_eq (region : Rect) (ul ur ll lr : qtNode) (merged : List Ref)
    (isMerged : Flags) (mean variance samTH : ℚ) (minRegSize : Int)
    (hw : region.width > minRegSize) (hs : stdDevLe variance samTH = false)
    (hU : shouldBeMerged ul ur samTH = .ok true) (hL : shouldBeMerged ll lr samTH = .ok true) :
    merge (.node region ul ur ll lr merged isMerged mean variance) samTH minRegSize =
      .ok (.node region ul ur ll lr
        (merged ++ [Ref.upper_left, Ref.upper_right] ++ [Ref.lower_right, Ref.lower_left])
        ((((isMerged.set up_left true).set up_right true).set low_right true).set low_left true)
        mean variance) := by
  simp [merge, hw, hs, hU, hL, bind, Except.bind, pure, Except.pure]

theorem merge_upper_two_eq (region : Rect) (ul ur ll lr : qtNode) (merged : List Ref)
    (isMerged : Flags) (mean variance samTH : ℚ) (minRegSize : Int)
    (hw : region.width > minRegSize) (hs : stdDevLe variance samTH = false)
    (hU : shouldBeMerged ul ur samTH = .ok true) (hL : shouldBeMerged ll lr samTH = .ok false) :
    merge (.node region ul ur ll lr merged isMerged mean variance) samTH minRegSize =
      (merge ll samTH minRegSize >>= fun ll1 =>
       merge lr samTH minRegSize >>= fun lr1 =>
        pure (.node region ul ur ll1 lr1 (merged ++ [Ref.upper_left, Ref.upper_right])
          ((isMerged.set up_left true).set up_right true) mean variance)) := by
  simp [merge, hw, hs, hU, hL, bind, Except.bind, pure, Except.pure]

theorem merge_right_four_eq (region : Rect) (ul ur ll lr : qtNode) (merged : List Ref)
    (isMerged : Flags) (mean variance samTH : ℚ) (minRegSize : Int)
    (hw : region.width > minRegSize) (hs : stdDevLe variance samTH = false)
    (hU : shouldBeMerged ul ur samTH = .ok false) (hR : shouldBeMerged ur lr samTH = .ok true)
    (hL : shouldBeMerged ul ll samTH = .ok true) :
    merge (.node region ul ur ll lr merged isMerged mean variance) samTH minRegSize =
      .ok (.node region ul ur ll lr
        (merged ++ [Ref.upper_right, Ref.lower_right] ++ [Ref.upper_left, Ref.lower_left])
        ((((isMerged.set up_right true).set low_right true).set up_left true).set low_left true)
        mean variance) := by
  simp [merge, hw, hs, hU, hR, hL, bind, Except.bind, pure, Except.pure]

theorem merge_right_two_eq (region : Rect) (ul ur ll lr : qtNode) (merged : List Ref)
    (isMerged : Flags) (mean variance samTH : ℚ) (minRegSize : Int)
    (hw : region.width > minRegSize) (hs : stdDevLe variance samTH = false)
    (hU : shouldBeMerged ul ur samTH = .ok false) (hR : shouldBeMerged ur lr samTH = .ok true)
    (hL : shouldBeMerged ul ll samTH = .ok false) :
    merge (.node region ul ur ll lr merged isMerged mean variance) samTH minRegSize =
      (merge ul samTH minRegSize >>= fun ul1 =>
       merge ll samTH minRegSize >>= fun ll1 =>
        pure (.node region ul1 ur ll1 lr (merged ++ [Ref.upper_right, Ref.lower_right])
          ((isMerged.set up_right true).set low_right true) mean variance)) := by
  simp [merge, hw, hs, hU, hR, hL, bind, Except.bind, pure, Except.pure]

theorem merge_left_two_eq (region : Rect) (ul ur ll lr : qtNode) (merged : List Ref)
    (isMerged : Flags) (mean variance samTH : ℚ) (minRegSize : Int)
    (hw : region.width > minRegSize) (hs : stdDevLe variance samTH = false)
    (hU : shouldBeMerged ul ur samTH = .ok false) (hR : shouldBeMerged ur lr samTH = .ok false)
    (hL : shouldBeMerged ul ll samTH = .ok true) :
    merge (.node region ul ur ll lr merged isMerged mean variance) samTH minRegSize =
      (merge ur samTH minRegSize >>= fun ur1 =>
       merge lr samTH minRegSize >>= fun lr1 =>
        pure (.node region ul ur1 ll lr1 (merged ++ [Ref.upper_left, Ref.lower_left])
          ((isMerged.set up_left true).set low_left true) mean variance)) := by
  simp [merge, hw, hs, hU, hR, hL, bind, Except.bind, pure, Except.pure]

theorem merge_none_eq (region : Rect) (ul ur ll lr : qtNode) (merged : List Ref)
    (isMerged : Flags) (mean variance samTH : ℚ) (minRegSize : Int)
    (hw : region.width > minRegSize) (hs : stdDevLe variance samTH = false)
    (hU : shouldBeMerged ul ur samTH = .ok false) (hR : shouldBeMerged ur lr samTH = .ok false)
    (hL : shouldBeMerged ul ll samTH = .ok false) :
    merge (.node region ul ur ll lr merged isMerged mean variance) samTH minRegSize =
      (merge ul samTH minRegSize >>= fun ul1 =>
       merge ur samTH minRegSize >>= fun ur1 =>
       merge lr samTH minRegSize >>= fun lr1 =>
       merge ll samTH minRegSize >>= fun ll1 =>
        pure (.node region ul1 ur1 ll1 lr1 merged isMerged mean variance)) := by
  simp [merge, hw, hs, hU, hR, hL, bind, Except.bind, pure, Except.pure]

theorem merge_error_of_upper (region : Rect) (ul ur ll lr : qtNode) (merged : List Ref)
    (isMerged : Flags) (mean variance samTH : ℚ) (minRegSize : Int)
    (hw : region.width > minRegSize) (hs : stdDevLe variance samTH = false) (e : Fault)
    (hU : shouldBeMerged ul ur samTH = .error e) :
    merge (.node region ul ur ll lr merged isMerged mean variance) samTH minRegSize =
      .error e := by
  simp [merge, hw, hs, hU, bind, Except.bind]

/-! ## Claims on `merge` -/

/-- C13 (merge leaf rule).  When `merge` is applied to a node that is not wider than
`minRegSize` or whose standard deviation is at most the threshold, and whose `merged` vector
is still empty, the vector becomes the one-element sequence that holds the node itself, all
four flags are false, and the children are left as they were. -/
theorem merge_leaf_rule (region : Rect) (ul ur ll lr : qtNode) (isMerged : Flags)
    (mean variance samTH : ℚ) (minRegSize : Int)
    (hleaf : ¬ (region.width > minRegSize) ∨ stdDevLe variance samTH = true) :
    merge (.node region ul ur ll lr [] isMerged mean variance) samTH minRegSize =
      .ok (.node region ul ur ll lr [Ref.self] Flags.allFalse mean variance) ∧
    (qtNode.node region ul ur ll lr [Ref.self] Flags.allFalse mean variance).deref Ref.self =
      .node region ul ur ll lr [Ref.self] Flags.allFalse mean variance := by
  refine ⟨?_, rfl⟩
  rw [merge_leaf_eq region ul ur ll lr [] isMerged mean variance samTH minRegSize hleaf]
  rfl

/-- A concrete instance of the leaf rule: a homogeneous 2x2 leaf at threshold 0 and minimum
size 1. -/
theorem merge_leaf_rule_witness :
    merge (.node ⟨0, 0, 2, 2⟩ .null .null .null .null [] Flags.allFalse 64 0) 0 1 =
      .ok (.node ⟨0, 0, 2, 2⟩ .null .null .null .null [Ref.self] Flags.allFalse 64 0) ∧
    (qtNode.node ⟨0, 0, 2, 2⟩ .null .null .null .null [Ref.self] Flags.allFalse 64 0).deref
      Ref.self = .node ⟨0, 0, 2, 2⟩ .null .null .null .null [Ref.self] Flags.allFalse 64 0 :=
  merge_leaf_rule ⟨0, 0, 2, 2⟩ .null .null .null .null Flags.allFalse 64 0 0 1
    (Or.inr (by decide!))

/-- C14 (merge priority order), evaluated where it fails: on `lowPairRaster` with threshold 0
and minimum size 1 neither the upper nor the right pair of the root is mergeable and the
lower pair is, yet after `merge` the group of the root is empty, all its flags are false, and
the lower-left and lower-right children are groups of their own; the output keeps 0 and 100
in the lower quadrants. -/
theorem merge_misses_lower_pair :
    (split lowPairRaster ⟨0, 0, 4, 4⟩ 0 1).map
      (fun t => (mergeable t.upperLeft t.upperRight 0, mergeable t.upperRight t.lowerRight 0,
        mergeable t.lowerLeft t.lowerRight 0)) = .ok (false, false, true) ∧
    (split lowPairRaster ⟨0, 0, 4, 4⟩ 0 1 >>= fun t => merge t 0 1).map
      (fun t => (t.merged, t.isMerged, t.lowerLeft.merged, t.lowerRight.merged)) =
      .ok ([], Flags.allFalse, [Ref.self], [Ref.self]) ∧
    (split_and_merge lowPairRaster 0 1).map Mat.toLists =
      .ok [[0, 0, 0, 0], [0, 0, 0, 0], [0, 0, 100, 100], [0, 0, 100, 100]] := by
  decide!

/-- C15 (opposite-pair rule).  For a node that `merge` treats as internal, with four children
and fresh annotations: when the upper pair is selected, the lower pair is absorbed if it is
mergeable, else `merge` recurses into the lower-left and lower-right children; when the right
pair is selected, the left pair is absorbed if it is mergeable, else `merge` recurses into
the upper-left and lower-left children; when the left pair is selected, `merge` recurses into
the upper-right and lower-right children (the right pair is then not mergeable).  Absorbed
children are in the group with true flags, the others keep false flags and are not in the
group.  (`merge` never selects the lower pair.) -/
theorem merge_opposite_pair_rule (region : Rect) (ul ur ll lr : qtNode)
    (mean variance samTH : ℚ) (minRegSize : Int)
    (hw : region.width > minRegSize) (hs : stdDevLe variance samTH = false)
    (n1 : ul.isNull = false) (n2 : ur.isNull = false) (n3 : ll.isNull = false)
    (n4 : lr.isNull = false) :
    (mergeable ul ur samTH = true →
      (mergeable ll lr samTH = true →
        merge (.node region ul ur ll lr [] Flags.allFalse mean variance) samTH minRegSize =
          .ok (.node region ul ur ll lr
            [Ref.upper_left, Ref.upper_right, Ref.lower_right, Ref.lower_left]
            ⟨true, true, true, true⟩ mean variance)) ∧
      (mergeable ll lr samTH = false →
        merge (.node region ul ur ll lr [] Flags.allFalse mean variance) samTH minRegSize =
          (merge ll samTH minRegSize >>= fun ll1 =>
           merge lr samTH minRegSize >>= fun lr1 =>
            pure (.node region ul ur ll1 lr1 [Ref.upper_left, Ref.upper_right]
              ⟨true, true, false, false⟩ mean variance)))) ∧
    (mergeable ul ur samTH = false → mergeable ur lr samTH = true →
      (mergeable ul ll samTH = true →
        merge (.node region ul ur ll lr [] Flags.allFalse mean variance) samTH minRegSize =
          .ok (.node region ul ur ll lr
            [Ref.upper_right, Ref.lower_right, Ref.upper_left, Ref.lower_left]
            ⟨true, true, true, true⟩ mean variance)) ∧
      (mergeable ul ll samTH = false →
        merge (.node region ul ur ll lr [] Flags.allFalse mean variance) samTH minRegSize =
          (merge ul samTH minRegSize >>= fun ul1 =>
           merge ll samTH minRegSize >>= fun ll1 =>
            pure (.node region ul1 ur ll1 lr [Ref.upper_right, Ref.lower_right]
              ⟨false, true, true, false⟩ mean variance)))) ∧
    (mergeable ul ur samTH = false → mergeable ur lr samTH = false →
      mergeable ul ll samTH = true →
        merge (.node region ul ur ll lr [] Flags.allFalse mean variance) samTH minRegSize =
          (merge ur samTH minRegSize >>= fun ur1 =>
           merge lr samTH minRegSize >>= fun lr1 =>
            pure (.node region ul ur1 ll lr1 [Ref.upper_left, Ref.lower_left]
              ⟨true, false, false, true⟩ mean variance))) := by
  have eU := shouldBeMerged_of_not_null samTH n1 n2
  have eR := shouldBeMerged_of_not_null samTH n2 n4
  have eLow := shouldBeMerged_of_not_null samTH n3 n4
  have eLeft := shouldBeMerged_of_not_null samTH n1 n3
  refine ⟨?_, ?_, ?_⟩
  · intro hU
    rw [hU] at eU
    constructor
    · intro hL
      rw [hL] at eLow
      rw [merge_upper_four_eq region ul ur ll lr [] Flags.allFalse mean variance samTH
        minRegSize hw hs eU eLow]
      rfl
    · intro hL
      rw [hL] at eLow
      rw [merge_upper_two_eq region ul ur ll lr [] Flags.allFalse mean variance samTH
        minRegSize hw hs eU eLow]
      rfl
  · intro hU hR
    rw [hU] at eU
    rw [hR] at eR
    constructor
    · intro hL
      rw [hL] at eLeft
      rw [merge_right_four_eq region ul ur ll lr [] Flags.allFalse mean variance samTH
        minRegSize hw hs eU eR eLeft]
      rfl
    · intro hL
      rw [hL] at eLeft
      rw [merge_right_two_eq region ul ur ll lr [] Flags.allFalse mean variance samTH
        minRegSize hw hs eU eR eLeft]
      rfl
  · intro hU hR hL
    rw [hU] at eU
    rw [hR] at eR
    rw [hL] at eLeft
    rw [merge_left_two_eq region ul ur ll lr [] Flags.allFalse mean variance samTH
      minRegSize hw hs eU eR eLeft]
    rfl

/-- A concrete instance of the opposite-pair rule: the root of the quadrant tree at
threshold 0 and minimum size 1, where the upper pair is selected and the lower pair is
absorbed. -/
theorem merge_opposite_pair_rule_witness :
    ((4 : Int) > 1 ∧ stdDevLe 5120 0 = false) ∧
    merge quadrantTree 0 1 =
      .ok (.node ⟨0, 0, 4, 4⟩ (freshLeaf ⟨0, 0, 2, 2⟩ 0 0) (freshLeaf ⟨2, 0, 2, 2⟩ 64 0)
        (freshLeaf ⟨0, 2, 2, 2⟩ 128 0) (freshLeaf ⟨2, 2, 2, 2⟩ 192 0)
        [Ref.upper_left, Ref.upper_right, Ref.lower_right, Ref.lower_left]
        ⟨true, true, true, true⟩ 96 5120) :=
  ⟨⟨by decide, by decide!⟩,
    ((merge_opposite_pair_rule ⟨0, 0, 4, 4⟩ (freshLeaf ⟨0, 0, 2, 2⟩ 0 0)
      (freshLeaf ⟨2, 0, 2, 2⟩ 64 0) (freshLeaf ⟨0, 2, 2, 2⟩ 128 0)
      (freshLeaf ⟨2, 2, 2, 2⟩ 192 0) 96 5120 0 1 (by decide) (by decide!) rfl rfl rfl rfl).1
      (by decide!)).1 (by decide!)⟩

/-- C16 (no-pair rule).  For a node that `merge` treats as internal, with four children and
fresh annotations, none of whose pairs (upper, right, lower, left) is mergeable, `merge`
leaves the group empty and the flags false and applies `merge` to each of the four
children. -/
theorem merge_no_pair_rule (region : Rect) (ul ur ll lr : qtNode)
    (mean variance samTH : ℚ) (minRegSize : Int)
    (hw : region.width > minRegSize) (hs : stdDevLe variance samTH = false)
    (n1 : ul.isNull = false) (n2 : ur.isNull = false) (n3 : ll.isNull = false)
    (n4 : lr.isNull = false)
    (hU : mergeable ul ur samTH = false) (hR : mergeable ur lr samTH = false)
    (hLow : mergeable ll lr samTH = false) (hLeft : mergeable ul ll samTH = false) :
    merge (.node region ul ur ll lr [] Flags.allFalse mean variance) samTH minRegSize =
      (merge ul samTH minRegSize >>= fun ul1 =>
       merge ur samTH minRegSize >>= fun ur1 =>
       merge lr samTH minRegSize >>= fun lr1 =>
       merge ll samTH minRegSize >>= fun ll1 =>
        pure (.node region ul1 ur1 ll1 lr1 [] Flags.allFalse mean variance)) := by
  have _ := hLow
  have _ := n3
  have eU := shouldBeMerged_of_not_null samTH n1 n2
  have eR := shouldBeMerged_of_not_null samTH n2 n4
  have eLeft := shouldBeMerged_of_not_null samTH n1 n3
  rw [hU] at eU
  rw [hR] at eR
  rw [hLeft] at eLeft
  exact merge_none_eq region ul ur ll lr [] Flags.allFalse mean variance samTH minRegSize hw hs
    eU eR eLeft

/-- A concrete instance of the no-pair rule: a node of width 4 with four leaves of positive
variance, threshold 0, minimum size 2; each child becomes a group of its own. -/
theorem merge_no_pair_rule_witness :
    ((4 : Int) > 2 ∧ stdDevLe 2 0 = false) ∧
    merge roughNode 0 2 =
      (merge (freshLeaf ⟨0, 0, 2, 2⟩ 1 1) 0 2 >>= fun ul1 =>
       merge (freshLeaf ⟨2, 0, 2, 2⟩ 2 1) 0 2 >>= fun ur1 =>
       merge (freshLeaf ⟨2, 2, 2, 2⟩ 4 1) 0 2 >>= fun lr1 =>
       merge (freshLeaf ⟨0, 2, 2, 2⟩ 3 1) 0 2 >>= fun ll1 =>
        pure (.node ⟨0, 0, 4, 4⟩ ul1 ur1 ll1 lr1 [] Flags.allFalse 5 2)) :=
  ⟨⟨by decide, by decide!⟩,
    merge_no_pair_rule ⟨0, 0, 4, 4⟩ (freshLeaf ⟨0, 0, 2, 2⟩ 1 1) (freshLeaf ⟨2, 0, 2, 2⟩ 2 1)
      (freshLeaf ⟨0, 2, 2, 2⟩ 3 1) (freshLeaf ⟨2, 2, 2, 2⟩ 4 1) 5 2 0 2 (by decide)
      (by decide!) rfl rfl rfl rfl (by decide!) (by decide!) (by decide!) (by decide!)⟩

/-- What `merge` returns for a node: the same region, mean and variance, and children that
are either untouched or the result of `merge` on the child. -/
theorem merge_node_inv {region : Rect} {ul ur ll lr : qtNode} {merged : List Ref}
    {isMerged : Flags} {mean variance samTH : ℚ} {minRegSize : Int} {t1 : qtNode}
    (h : merge (.node region ul ur ll lr merged isMerged mean variance) samTH minRegSize =
      .ok t1) :
    ∃ ul1 ur1 ll1 lr1 merged1 isMerged1,
      t1 = .node region ul1 ur1 ll1 lr1 merged1 isMerged1 mean variance ∧
      (ul1 = ul ∨ merge ul samTH minRegSize = .ok ul1) ∧
      (ur1 = ur ∨ merge ur samTH minRegSize = .ok ur1) ∧
      (ll1 = ll ∨ merge ll samTH minRegSize = .ok ll1) ∧
      (lr1 = lr ∨ merge lr samTH minRegSize = .ok lr1) := by
  simp only [merge, bind, Except.bind, pure, Except.pure] at h
  repeat' split at h
  all_goals first
    | (cases h; done)
    | (simp only [Except.ok.injEq] at h
       subst h
       refine ⟨_, _, _, _, _, _, rfl, ?_, ?_, ?_, ?_⟩ <;>
         first
           | exact Or.inl rfl
           | (right; assumption))

theorem merge_erase (samTH : ℚ) (minRegSize : Int) : ∀ (t t1 : qtNode),
    merge t samTH minRegSize = .ok t1 → t1.eraseAnnotations = t.eraseAnnotations := by
  intro t
  induction t with
  | null => intro t1 h; simp [merge] at h
  | node region ul ur ll lr merged isMerged mean variance ih1 ih2 ih3 ih4 =>
    intro t1 h
    obtain ⟨ul1, ur1, ll1, lr1, merged1, isMerged1, rfl, c1, c2, c3, c4⟩ := merge_node_inv h
    have e1 : ul1.eraseAnnotations = ul.eraseAnnotations := by
      rcases c1 with c | c
      · rw [c]
      · exact ih1 ul1 c
    have e2 : ur1.eraseAnnotations = ur.eraseAnnotations := by
      rcases c2 with c | c
      · rw [c]
      · exact ih2 ur1 c
    have e3 : ll1.eraseAnnotations = ll.eraseAnnotations := by
      rcases c3 with c | c
      · rw [c]
      · exact ih3 ll1 c
    have e4 : lr1.eraseAnnotations = lr.eraseAnnotations := by
      rcases c4 with c | c
      · rw [c]
      · exact ih4 lr1 c
    simp only [qtNode.eraseAnnotations, e1, e2, e3, e4]

/-- A tree returned by `split` carries no annotation. -/
theorem split_erase (img : Mat) (region : Rect) (samTH : ℚ) (minRegSize : Int) (t : qtNode)
    (h : split img region samTH minRegSize = .ok t) : t.eraseAnnotations = t := by
  refine split_induct img samTH minRegSize (fun _ t => t.eraseAnnotations = t) ?_ ?_ region t h
  · intro region st _ _
    rfl
  · intro region st ul ur ll lr _ _ _ h1 h2 h3 h4
    simp only [qtNode.eraseAnnotations, h1, h2, h3, h4]

/-- C18 (merge frame).  `merge` changes only the `merged` vectors and the `isMerged` flags:
the tree after `merge`, with the annotations erased, is the tree before `merge` with the
annotations erased (same regions, means, variances and children at every node); for a tree
that `split` returned, erasing the annotations of the merged tree gives back that tree. -/
theorem merge_frame (t t1 : qtNode) (samTH : ℚ) (minRegSize : Int)
    (h : merge t samTH minRegSize = .ok t1) :
    t1.eraseAnnotations = t.eraseAnnotations ∧
    t1.region = t.region ∧ t1.mean = t.mean ∧ t1.variance = t.variance ∧
    (∀ (img : Mat) (region : Rect) (th : ℚ) (m : Int),
      split img region th m = .ok t → t1.eraseAnnotations = t) := by
  have he := merge_erase samTH minRegSize t t1 h
  refine ⟨he, ?_, ?_, ?_, ?_⟩
  · cases t with
    | null => simp [merge] at h
    | node region ul ur ll lr merged isMerged mean variance =>
      obtain ⟨_, _, _, _, _, _, rfl, _⟩ := merge_node_inv h
      rfl
  · cases t with
    | null => simp [merge] at h
    | node region ul ur ll lr merged isMerged mean variance =>
      obtain ⟨_, _, _, _, _, _, rfl, _⟩ := merge_node_inv h
      rfl
  · cases t with
    | null => simp [merge] at h
    | node region ul ur ll lr merged isMerged mean variance =>
      obtain ⟨_, _, _, _, _, _, rfl, _⟩ := merge_node_inv h
      rfl
  · intro img region th m hs
    rw [he]
    exact split_erase img region th m t hs

/-- A concrete instance of the frame property: `merge` on the quadrant tree at threshold 0
and minimum size 1. -/
theorem merge_frame_witness :
    merge quadrantTree 0 1 =
      .ok (.node ⟨0, 0, 4, 4⟩ (freshLeaf ⟨0, 0, 2, 2⟩ 0 0) (freshLeaf ⟨2, 0, 2, 2⟩ 64 0)
        (freshLeaf ⟨0, 2, 2, 2⟩ 128 0) (freshLeaf ⟨2, 2, 2, 2⟩ 192 0)
        [Ref.upper_left, Ref.upper_right, Ref.lower_right, Ref.lower_left]
        ⟨true, true, true, true⟩ 96 5120) ∧
    (qtNode.node ⟨0, 0, 4, 4⟩ (freshLeaf ⟨0, 0, 2, 2⟩ 0 0) (freshLeaf ⟨2, 0, 2, 2⟩ 64 0)
        (freshLeaf ⟨0, 2, 2, 2⟩ 128 0) (freshLeaf ⟨2, 2, 2, 2⟩ 192 0)
        [Ref.upper_left, Ref.upper_right, Ref.lower_right, Ref.lower_left]
        ⟨true, true, true, true⟩ 96 5120).eraseAnnotations = quadrantTree.eraseAnnotations :=
  ⟨by decide!, (merge_frame quadrantTree _ 0 1 (by decide!)).1⟩

theorem merge_not_null {t t1 : qtNode} {samTH : ℚ} {minRegSize : Int}
    (h : merge t samTH minRegSize = .ok t1) : t1.isNull = false := by
  cases t with
  | null => simp [merge] at h
  | node region ul ur ll lr merged isMerged mean variance =>
    obtain ⟨_, _, _, _, _, _, rfl, _⟩ := merge_node_inv h
    rfl

theorem isNull_false_ne_null {t : qtNode} (h : t.isNull = false) : t ≠ .null := by
  intro hn
  rw [hn] at h
  simp [qtNode.isNull] at h

/-- On a tree that `split` built for a square region, `merge` with the same threshold and
minimum size returns a tree, and every node it has processed is classified. -/
theorem merge_split_square (img : Mat) (samTH : ℚ) (minRegSize : Int) (region : Rect)
    (t : qtNode) (h : split img region samTH minRegSize = .ok t)
    (hsq : region.width = region.height) :
    ∃ t1, merge t samTH minRegSize = .ok t1 ∧ t1.Visited mergeClass := by
  refine (split_induct img samTH minRegSize
    (fun region t => region.width = region.height → t.isNull = false ∧
      ∃ t1, merge t samTH minRegSize = .ok t1 ∧ t1.Visited mergeClass) ?_ ?_ region t h hsq).2
  · intro region st _ hc hsq
    refine ⟨rfl, ?_⟩
    have hleaf : ¬ (region.width > minRegSize) ∨ stdDevLe st.2 samTH = true := by
      unfold regionIsDivisible at hc
      by_cases hw : region.width > minRegSize
      · right
        have hh : region.height > minRegSize := by omega
        simpa [hw, hh] using hc
      · exact Or.inl hw
    refine ⟨_, merge_leaf_eq region .null .null .null .null [] Flags.allFalse st.1 st.2 samTH
      minRegSize hleaf, ?_⟩
    simp [qtNode.Visited, mergeClass, qtNode.merged]
  · intro region st ul ur ll lr hst hd hs h1 h2 h3 h4 hsq
    have hd2 := hd
    unfold regionIsDivisible at hd2
    simp only [Bool.and_eq_true, decide_eq_true_eq] at hd2
    have hw : region.width > minRegSize := hd2.1
    have hsq2 : Int.tdiv region.width 2 = Int.tdiv region.height 2 := by rw [hsq]
    obtain ⟨n1, u1, mu1, v1⟩ := h1 hsq2
    obtain ⟨n2, u2, mu2, v2⟩ := h2 hsq2
    obtain ⟨n3, u3, mu3, v3⟩ := h3 hsq2
    obtain ⟨n4, u4, mu4, v4⟩ := h4 hsq2
    have m1 := isNull_false_ne_null (merge_not_null mu1)
    have m2 := isNull_false_ne_null (merge_not_null mu2)
    have m3 := isNull_false_ne_null (merge_not_null mu3)
    have m4 := isNull_false_ne_null (merge_not_null mu4)
    have k1 := isNull_false_ne_null n1
    have k2 := isNull_false_ne_null n2
    have k3 := isNull_false_ne_null n3
    have k4 := isNull_false_ne_null n4
    have eU := shouldBeMerged_of_not_null samTH n1 n2
    have eR := shouldBeMerged_of_not_null samTH n2 n4
    have eLow := shouldBeMerged_of_not_null samTH n3 n4
    have eLeft := shouldBeMerged_of_not_null samTH n1 n3
    refine ⟨rfl, ?_⟩
    cases hU : mergeable ul ur samTH with
    | true =>
      rw [hU] at eU
      cases hLow : mergeable ll lr samTH with
      | true =>
        rw [hLow] at eLow
        refine ⟨_, merge_upper_four_eq region ul ur ll lr [] Flags.allFalse st.1 st.2 samTH
          minRegSize hw hs eU eLow, ?_⟩
        simp [qtNode.Visited, mergeClass, qtNode.merged, qtNode.isLeaf, qtNode.upperLeft,
          qtNode.deref, k1]
      | false =>
        rw [hLow] at eLow
        refine ⟨.node region ul ur u3 u4 ([] ++ [Ref.upper_left, Ref.upper_right])
          ((Flags.allFalse.set up_left true).set up_right true) st.1 st.2, ?_, ?_⟩
        · rw [merge_upper_two_eq region ul ur ll lr [] Flags.allFalse st.1 st.2 samTH
            minRegSize hw hs eU eLow, mu3, mu4]
          rfl
        · simp [qtNode.Visited, mergeClass, qtNode.merged, qtNode.isLeaf, qtNode.upperLeft,
            qtNode.deref, k1, v3, v4]
    | false =>
      rw [hU] at eU
      cases hR : mergeable ur lr samTH with
      | true =>
        rw [hR] at eR
        cases hLeft : mergeable ul ll samTH with
        | true =>
          rw [hLeft] at eLeft
          refine ⟨_, merge_right_four_eq region ul ur ll lr [] Flags.allFalse st.1 st.2 samTH
            minRegSize hw hs eU eR eLeft, ?_⟩
          simp [qtNode.Visited, mergeClass, qtNode.merged, qtNode.isLeaf, qtNode.upperLeft,
            qtNode.deref, k1]
        | false =>
          rw [hLeft] at eLeft
          refine ⟨.node region u1 ur u3 lr ([] ++ [Ref.upper_right, Ref.lower_right])
            ((Flags.allFalse.set up_right true).set low_right true) st.1 st.2, ?_, ?_⟩
          · rw [merge_right_two_eq region ul ur ll lr [] Flags.allFalse st.1 st.2 samTH
              minRegSize hw hs eU eR eLeft, mu1, mu3]
            rfl
          · simp [qtNode.Visited, mergeClass, qtNode.merged, qtNode.isLeaf, qtNode.upperLeft,
              qtNode.deref, m1, v1, v3]
      | false =>
        rw [hR] at eR
        cases hLeft : mergeable ul ll samTH with
        | true =>
          rw [hLeft] at eLeft
          refine ⟨.node region ul u2 ll u4 ([] ++ [Ref.upper_left, Ref.lower_left])
            ((Flags.allFalse.set up_left true).set low_left true) st.1 st.2, ?_, ?_⟩
          · rw [merge_left_two_eq region ul ur ll lr [] Flags.allFalse st.1 st.2 samTH
              minRegSize hw hs eU eR eLeft, mu2, mu4]
            rfl
          · simp [qtNode.Visited, mergeClass, qtNode.merged, qtNode.isLeaf, qtNode.upperLeft,
              qtNode.deref, k1, v2, v4]
        | false =>
          rw [hLeft] at eLeft
          refine ⟨.node region u1 u2 u3 u4 [] Flags.allFalse st.1 st.2, ?_, ?_⟩
          · rw [merge_none_eq region ul ur ll lr [] Flags.allFalse st.1 st.2 samTH
              minRegSize hw hs eU eR eLeft, mu1, mu2, mu4, mu3]
            rfl
          · simp [qtNode.Visited, mergeClass, qtNode.merged, qtNode.isLeaf,
              qtNode.hasFourChildren, qtNode.upperLeft, qtNode.upperRight, qtNode.lowerLeft,
              qtNode.lowerRight, qtNode.deref, m1, m2, m3, m4, v1, v2, v3, v4]

/-- C17 (merge result classification), refuted as stated: after `split` and `merge` on the
quadrant raster with threshold 0 and minimum size 1, the upper-left quadrant is a node
without children whose own group is empty (it is a member of the group of the root), so not
every node of the tree is classified and not every leaf is a group of its own. -/
theorem merge_classification_fails :
    (split quadrantRaster ⟨0, 0, 4, 4⟩ 0 1 >>= fun t => merge t 0 1) = .ok quadrantMerged ∧
    quadrantMerged.upperLeft.isLeaf ∧ quadrantMerged.upperLeft.merged = [] ∧
    ¬ quadrantMerged.All mergeClass ∧
    ¬ quadrantMerged.All (fun n => n.isLeaf → n.merged = [Ref.self]) := by
  refine ⟨by decide!, ⟨rfl, rfl, rfl, rfl⟩, rfl, ?_, ?_⟩
  · intro hall
    have hul := hall.2.1.1.2 ⟨rfl, rfl, rfl, rfl⟩
    simp [qtNode.merged] at hul
  · intro hall
    have hul := hall.2.1.1 ⟨rfl, rfl, rfl, rfl⟩
    simp [qtNode.merged] at hul

/-- C17 (merge result classification), amended.  After `merge` on a tree that `split` built
for a square region with the same threshold and minimum size, every node that `merge` has
processed (the root and, recursively, every child that is not a member of the group of its
parent) has a group of 1, 2 or 4 members, or an empty group and four children that were
processed themselves; and every processed node without children is a group of its own. -/
theorem merge_classification (img : Mat) (region : Rect) (samTH : ℚ) (minRegSize : Int)
    (t : qtNode) (hsq : region.width = region.height)
    (h : split img region samTH minRegSize = .ok t) :
    ∃ t1, merge t samTH minRegSize = .ok t1 ∧ t1.Visited mergeClass :=
  merge_split_square img samTH minRegSize region t h hsq

/-- A concrete instance of the classification: the quadrant raster at threshold 0 and
minimum size 1. -/
theorem merge_classification_witness :
    (4 : Int) = 4 ∧ split quadrantRaster ⟨0, 0, 4, 4⟩ 0 1 = .ok quadrantTree ∧
    ∃ t1, merge quadrantTree 0 1 = .ok t1 ∧ t1.Visited mergeClass :=
  ⟨rfl, by decide!,
    merge_classification quadrantRaster ⟨0, 0, 4, 4⟩ 0 1 quadrantTree rfl (by decide!)⟩

/-- In a tree that `split` built for a square region every region is square. -/
theorem split_square_all (img : Mat) (region : Rect) (samTH : ℚ) (minRegSize : Int)
    (t : qtNode) (h : split img region samTH minRegSize = .ok t)
    (hsq : region.width = region.height) :
    t.All (fun n => n.region.width = n.region.height) := by
  refine split_induct img samTH minRegSize
    (fun region t => region.width = region.height →
      t.All (fun n => n.region.width = n.region.height)) ?_ ?_ region t h hsq
  · intro region st _ _ hsq
    exact ⟨hsq, trivial, trivial, trivial, trivial⟩
  · intro region st ul ur ll lr _ _ _ h1 h2 h3 h4 hsq
    have hsq2 : Int.tdiv region.width 2 = Int.tdiv region.height 2 := by rw [hsq]
    exact ⟨hsq, h1 hsq2, h2 hsq2, h3 hsq2, h4 hsq2⟩

/-- C19 (merge has no error path), refuted as stated: for the raster of one row and four
columns, threshold 0 and minimum size 1, `split` returns a node without children (the region
is not higher than the minimum size) that `merge` treats as internal (it is wider than the
minimum size and not homogeneous), and `merge` dereferences an absent child. -/
theorem merge_faults_on_wide_region :
    wideRaster.roiValid ⟨0, 0, 4, 1⟩ ∧
    split wideRaster ⟨0, 0, 4, 1⟩ 0 1 = .ok (freshLeaf ⟨0, 0, 4, 1⟩ (9 / 4) (243 / 16)) ∧
    (freshLeaf ⟨0, 0, 4, 1⟩ (9 / 4) (243 / 16)).isLeaf ∧
    mergeInternal (freshLeaf ⟨0, 0, 4, 1⟩ (9 / 4) (243 / 16)) 0 1 ∧
    (split wideRaster ⟨0, 0, 4, 1⟩ 0 1 >>= fun t => merge t 0 1) = .error .nullDeref := by
  refine ⟨by decide, by decide!, ⟨rfl, rfl, rfl, rfl⟩, ⟨by decide, by decide!⟩, by decide!⟩

/-- C19 (merge has no error path), amended.  For a square region, `merge` with the same
threshold and minimum size returns a tree for the tree that `split` returned, and every node
that `merge` treats as internal has its four children. -/
theorem merge_no_fault_on_square (img : Mat) (region : Rect) (samTH : ℚ) (minRegSize : Int)
    (t : qtNode) (hsq : region.width = region.height)
    (h : split img region samTH minRegSize = .ok t) :
    (∃ t1, merge t samTH minRegSize = .ok t1) ∧
    t.All (fun n => mergeInternal n samTH minRegSize → n.hasFourChildren) := by
  constructor
  · obtain ⟨t1, ht1, _⟩ := merge_split_square img samTH minRegSize region t h hsq
    exact ⟨t1, ht1⟩
  · have hsqs := split_square_all img region samTH minRegSize t h hsq
    have hiff := split_children_iff img region samTH minRegSize t h
    refine qtNode.All_imp ?_ t (qtNode.All_and t hsqs hiff)
    intro n hn hint
    apply hn.2.1.mpr
    unfold mergeInternal at hint
    unfold splitCondition
    have hsqn := hn.1
    exact ⟨hint.1, by omega, hint.2⟩

/-- A concrete instance of the absence of faults: the quadrant raster at threshold 0 and
minimum size 1. -/
theorem merge_no_fault_on_square_witness :
    (4 : Int) = 4 ∧ split quadrantRaster ⟨0, 0, 4, 4⟩ 0 1 = .ok quadrantTree ∧
    ((∃ t1, merge quadrantTree 0 1 = .ok t1) ∧
      quadrantTree.All (fun n => mergeInternal n 0 1 → n.hasFourChildren)) :=
  ⟨rfl, by decide!,
    merge_no_fault_on_square quadrantRaster ⟨0, 0, 4, 4⟩ 0 1 quadrantTree rfl (by decide!)⟩

/-! ## Claims on `draw` -/

/-- For a value that is not negative, the conversion `(int)` rounds down. -/
theorem truncToInt_of_nonneg {q : ℚ} (h : 0 ≤ q) : truncToInt q = ⌊q⌋ := by
  unfold truncToInt
  rw [Rat.floor_def]
  exact Int.tdiv_eq_ediv (Rat.num_nonneg.mpr h) (by positivity)

theorem getRegion_ok {n : qtNode} {region : Rect} (h : n.getRegion = .ok region) :
    n.region = region := by
  cases n with
  | null => cases h
  | node _ _ _ _ _ _ _ _ _ => simp only [qtNode.getRegion, Except.ok.injEq] at h; exact h

/-- The second loop of `draw` sets every sample of every member region to the value and
leaves every other sample as it was. -/
theorem paintAll_px (value : Int) : ∀ (members : List qtNode) (img out : Mat),
    paintAll img members value = .ok out →
    (∀ r c : Int, (∃ member ∈ members, member.region.contains r c) →
      out.px r c = saturate_cast value) ∧
    (∀ r c : Int, (∀ member ∈ members, ¬ member.region.contains r c) →
      out.px r c = img.px r c) := by
  intro members
  induction members with
  | nil =>
    intro img out h
    simp only [paintAll, Except.ok.injEq] at h
    subst h
    constructor
    · intro r c hex
      obtain ⟨member, hmem, _⟩ := hex
      cases hmem
    · intro r c _
      rfl
  | cons n rest ih =>
    intro img out h
    simp only [paintAll] at h
    obtain ⟨region, hreg, h⟩ := bind_eq_ok.mp h
    obtain ⟨img1, h1, h⟩ := bind_eq_ok.mp h
    have hn := getRegion_ok hreg
    obtain ⟨ihin, ihout⟩ := ih img1 out h
    unfold Mat.assignRoi at h1
    split at h1
    · simp only [Except.ok.injEq] at h1
      subst h1
      constructor
      · intro r c hex
        by_cases hrest : ∃ member ∈ rest, member.region.contains r c
        · exact ihin r c hrest
        · have hnot : ∀ member ∈ rest, ¬ member.region.contains r c := by
            intro member hmem hc
            exact hrest ⟨member, hmem, hc⟩
          rw [ihout r c hnot]
          obtain ⟨member, hmem, hc⟩ := hex
          rcases List.mem_cons.mp hmem with heq | hmem2
          · subst heq
            rw [hn] at hc
            simp only [if_pos hc]
          · exact absurd hc (hnot member hmem2)
      · intro r c hall
        have hnot : ∀ member ∈ rest, ¬ member.region.contains r c := by
          intro member hmem
          exact hall member (List.mem_cons_of_mem _ hmem)
        rw [ihout r c hnot]
        have hc : ¬ region.contains r c := by
          rw [← hn]
          exact hall n (List.mem_cons_self _ _)
        simp only [if_neg hc]
    · cases h1

/-- C22 (invalid region rejection).  `split` fails with the assertion of the raster
primitives, and returns no tree, whenever the region has a width or height that is not
positive or does not lie within the raster bounds. -/
theorem split_rejects_invalid_region (img : Mat) (region : Rect) (samTH : ℚ) (minRegSize : Int)
    (h : region.width ≤ 0 ∨ region.height ≤ 0 ∨ ¬ img.roiValid region) :
    split img region samTH minRegSize = .error .cvAssert := by
  unfold split
  rw [splitFuel_succ]
  cases hst : regionStats img region with
  | error e =>
    rw [regionStats_error hst]
    rfl
  | ok st =>
    obtain ⟨hv, hw, hh⟩ := regionStats_ok hst
    rcases h with h | h | h
    · omega
    · omega
    · exact absurd hv h

/-- A concrete instance of the rejection: a region of width 5 on the 4x4 quadrant raster. -/
theorem split_rejects_invalid_region_witness :
    ¬ quadrantRaster.roiValid ⟨0, 0, 5, 4⟩ ∧
    split quadrantRaster ⟨0, 0, 5, 4⟩ 0 1 = .error .cvAssert :=
  ⟨by decide, split_rejects_invalid_region quadrantRaster ⟨0, 0, 5, 4⟩ 0 1
    (Or.inr (Or.inr (by decide)))⟩

/-- The statistics of a region of one pixel: the variance is 0. -/
theorem regionStats_single {img : Mat} {region : Rect} {st : ℚ × ℚ}
    (h : regionStats img region = .ok st) (hw : region.width = 1) (hh : region.height = 1) :
    st.2 = 0 := by
  unfold regionStats Mat.roi at h
  by_cases hv : img.roiValid region
  · rw [if_pos hv] at h
    simp only [bind, Except.bind] at h
    rw [meanStdDev_uniform _ (img.px (region.y + 0) (region.x + 0)) (by simp [hh])
      (by simp [hw])] at h
    · simp only [Except.ok.injEq] at h
      rw [← h]
    · intro r hr c hc
      simp only [hh, hw, Int.toNat_one] at hr hc
      have hr0 : r = 0 := by omega
      have hc0 : c = 0 := by omega
      subst hr0
      subst hc0
      rfl
  · rw [if_neg hv] at h
    simp [bind, Except.bind] at h

/-- C23 (rejection of a minimum size below 1), refuted: with minimum size 0 `split` returns
the tree of the quadrant raster, children included, and `split_and_merge` returns a raster;
with minimum size -2 `split_and_merge` returns the uniform raster unchanged. -/
theorem min_size_below_one_accepted :
    split quadrantRaster ⟨0, 0, 4, 4⟩ 0 0 = .ok quadrantTree ∧
    (split_and_merge quadrantRaster 0 0).map Mat.toLists =
      .ok [[96, 96, 96, 96], [96, 96, 96, 96], [96, 96, 96, 96], [96, 96, 96, 96]] ∧
    (split_and_merge uniformRaster 3 (-2)).map Mat.toLists = .ok [[7, 7], [7, 7]] := by
  decide!

/-- On a square region and with a threshold that is not negative, a minimum size below 1
makes `splitFuel` stop where the minimum size 1 does: a region of one pixel is homogeneous. -/
theorem splitFuel_min_size (img : Mat) (samTH : ℚ) (minRegSize : Int) (hth : 0 ≤ samTH)
    (hmin : minRegSize < 1) :
    ∀ (fuel : Nat) (region : Rect), region.width = region.height →
      splitFuel fuel img region samTH minRegSize = splitFuel fuel img region samTH 1 := by
  intro fuel
  induction fuel with
  | zero => intro region _; rfl
  | succ n ih =>
    intro region hsq
    rw [splitFuel_succ, splitFuel_succ]
    cases hst : regionStats img region with
    | error e => rfl
    | ok st =>
      obtain ⟨_, hw, hh⟩ := regionStats_ok hst
      have hsq2 : Int.tdiv region.width 2 = Int.tdiv region.height 2 := by rw [hsq]
      have hcond : (regionIsDivisible region minRegSize && !(stdDevLe st.2 samTH)) =
          (regionIsDivisible region 1 && !(stdDevLe st.2 samTH)) := by
        by_cases h1 : region.width = 1
        · have hz := regionStats_single hst h1 (by omega)
          rw [hz, stdDevLe_zero hth]
          simp
        · have ha : regionIsDivisible region minRegSize = true := by
            unfold regionIsDivisible
            simp only [Bool.and_eq_true, decide_eq_true_eq]
            omega
          have hb : regionIsDivisible region 1 = true := by
            unfold regionIsDivisible
            simp only [Bool.and_eq_true, decide_eq_true_eq]
            omega
          rw [ha, hb]
      simp only [bind, Except.bind, hcond]
      rw [ih ⟨region.x, region.y, Int.tdiv region.width 2, Int.tdiv region.height 2⟩ hsq2,
        ih ⟨region.x + Int.tdiv region.width 2, region.y, Int.tdiv region.width 2,
          Int.tdiv region.height 2⟩ hsq2,
        ih ⟨region.x, region.y + Int.tdiv region.height 2, Int.tdiv region.width 2,
          Int.tdiv region.height 2⟩ hsq2,
        ih ⟨region.x + Int.tdiv region.width 2, region.y + Int.tdiv region.height 2,
          Int.tdiv region.width 2, Int.tdiv region.height 2⟩ hsq2]

/-- On a tree in which every node is wider than one pixel or homogeneous, `merge` with a
minimum size below 1 does what `merge` with the minimum size 1 does. -/
theorem merge_min_size (samTH : ℚ) (minRegSize : Int) (hmin : minRegSize < 1) :
    ∀ t : qtNode, t.All (fun n => 1 < n.region.width ∨ stdDevLe n.variance samTH = true) →
      merge t samTH minRegSize = merge t samTH 1 := by
  intro t
  induction t with
  | null => intro _; rfl
  | node region ul ur ll lr merged isMerged mean variance ih1 ih2 ih3 ih4 =>
    intro hall
    have hcond : (!(decide (region.width > minRegSize)) || stdDevLe variance samTH) =
        (!(decide (region.width > 1)) || stdDevLe variance samTH) := by
      rcases hall.1 with h | h
      · simp only [qtNode.region] at h
        have h1 : region.width > minRegSize := by omega
        have h2 : region.width > 1 := by omega
        simp [h1, h2]
      · simp only [qtNode.variance] at h
        simp [h]
    simp only [merge, hcond, ih1 hall.2.1, ih2 hall.2.2.1, ih3 hall.2.2.2.1, ih4 hall.2.2.2.2]

/-- C23 (rejection of a minimum size below 1), amended.  The minimum size is not checked: for
a square raster and a threshold that is not negative, `split_and_merge` with a minimum size
below 1 does what it does with the minimum size 1 (and so does `split` on a square
region). -/
theorem min_size_below_one_as_one (img : Mat) (samTH : ℚ) (minRegSize : Int)
    (hsq : img.rows = img.cols) (hth : 0 ≤ samTH) (hmin : minRegSize < 1) :
    split_and_merge img samTH minRegSize = split_and_merge img samTH 1 ∧
    (∀ region : Rect, region.width = region.height →
      split img region samTH minRegSize = split img region samTH 1) := by
  have hsplit : ∀ region : Rect, region.width = region.height →
      split img region samTH minRegSize = split img region samTH 1 := by
    intro region hr
    unfold split
    exact splitFuel_min_size img samTH minRegSize hth hmin _ region hr
  refine ⟨?_, hsplit⟩
  unfold split_and_merge
  have hreg : (⟨0, 0, img.cols, img.rows⟩ : Rect).width =
      (⟨0, 0, img.cols, img.rows⟩ : Rect).height := by
    simp only [hsq]
  simp only []
  rw [hsplit _ hreg]
  cases hs : split img ⟨0, 0, img.cols, img.rows⟩ samTH 1 with
  | error e => rfl
  | ok t =>
    have hstats := (split_root img _ samTH 1 t hs).2.2
    have hsqs := split_square_all img _ samTH 1 t hs hreg
    have hall : t.All (fun n => 1 < n.region.width ∨ stdDevLe n.variance samTH = true) := by
      refine qtNode.All_imp ?_ t (qtNode.All_and t hstats hsqs)
      intro n hn
      obtain ⟨_, hw, hh⟩ := regionStats_ok hn.1
      by_cases h1 : n.region.width = 1
      · right
        have hz := regionStats_single hn.1 h1 (by have := hn.2; omega)
        simp only at hz
        rw [hz]
        exact stdDevLe_zero hth
      · left
        omega
    simp only [bind, Except.bind]
    rw [merge_min_size samTH minRegSize hmin t hall]

/-- A concrete instance: the quadrant raster with threshold 0, minimum size 0 against
minimum size 1. -/
theorem min_size_below_one_as_one_witness :
    ((0 : ℚ) ≤ 0 ∧ (0 : Int) < 1) ∧
    (split_and_merge quadrantRaster 0 0 = split_and_merge quadrantRaster 0 1 ∧
    (∀ region : Rect, region.width = region.height →
      split quadrantRaster region 0 0 = split quadrantRaster region 0 1)) :=
  ⟨⟨le_refl 0, by decide⟩,
    min_size_below_one_as_one quadrantRaster 0 0 rfl (le_refl 0) (by decide)⟩

/-! ## The outcomes of `merge` -/

theorem shouldBeMerged_ok_left {a b : qtNode} {samTH : ℚ} {v : Bool}
    (h : shouldBeMerged a b samTH = .ok v) : a.isNull = false := by
  cases a with
  | null => simp [shouldBeMerged, satisfyPredicate, bind, Except.bind] at h
  | node _ _ _ _ _ _ _ _ _ => rfl

theorem shouldBeMerged_true_right {a b : qtNode} {samTH : ℚ}
    (h : shouldBeMerged a b samTH = .ok true) : b.isNull = false := by
  cases b with
  | null =>
    cases a with
    | null => simp [shouldBeMerged, satisfyPredicate, bind, Except.bind] at h
    | node _ _ _ _ _ _ _ _ variance =>
      simp only [shouldBeMerged, satisfyPredicate, bind, Except.bind] at h
      cases hv : stdDevLe variance samTH <;> simp [hv, pure, Except.pure] at h
  | node _ _ _ _ _ _ _ _ _ => rfl

theorem merge_ok_arg_not_null {t t1 : qtNode} {samTH : ℚ} {minRegSize : Int}
    (h : merge t samTH minRegSize = .ok t1) : t.isNull = false := by
  cases t with
  | null => simp [merge] at h
  | node _ _ _ _ _ _ _ _ _ => rfl

theorem mergeable_of_shouldBeMerged {a b : qtNode} {samTH : ℚ} {v : Bool}
    (ha : a.isNull = false) (hb : b.isNull = false) (h : shouldBeMerged a b samTH = .ok v) :
    mergeable a b samTH = v := by
  rw [shouldBeMerged_of_not_null samTH ha hb] at h
  exact Except.ok.inj h

/-- The outcomes of `merge` on a node that it treats as internal: the four children exist
and the result is one of five, decided by the pairwise tests. -/
theorem merge_internal_cases {region : Rect} {ul ur ll lr : qtNode} {merged : List Ref}
    {isMerged : Flags} {mean variance samTH : ℚ} {minRegSize : Int} {t1 : qtNode}
    (hw : region.width > minRegSize) (hs : stdDevLe variance samTH = false)
    (h : merge (.node region ul ur ll lr merged isMerged mean variance) samTH minRegSize =
      .ok t1) :
    (ul.isNull = false ∧ ur.isNull = false ∧ ll.isNull = false ∧ lr.isNull = false) ∧
    ((mergeable ul ur samTH = true ∧ mergeable ll lr samTH = true ∧
        t1 = .node region ul ur ll lr
          (merged ++ [Ref.upper_left, Ref.upper_right] ++ [Ref.lower_right, Ref.lower_left])
          ((((isMerged.set up_left true).set up_right true).set low_right true).set
            low_left true) mean variance) ∨
     (mergeable ul ur samTH = true ∧ mergeable ll lr samTH = false ∧
        ∃ ll1 lr1, merge ll samTH minRegSize = .ok ll1 ∧ merge lr samTH minRegSize = .ok lr1 ∧
          t1 = .node region ul ur ll1 lr1 (merged ++ [Ref.upper_left, Ref.upper_right])
            ((isMerged.set up_left true).set up_right true) mean variance) ∨
     (mergeable ul ur samTH = false ∧ mergeable ur lr samTH = true ∧
        mergeable ul ll samTH = false ∧
        ∃ ul1 ll1, merge ul samTH minRegSize = .ok ul1 ∧ merge ll samTH minRegSize = .ok ll1 ∧
          t1 = .node region ul1 ur ll1 lr (merged ++ [Ref.upper_right, Ref.lower_right])
            ((isMerged.set up_right true).set low_right true) mean variance) ∨
     (mergeable ul ur samTH = false ∧ mergeable ur lr samTH = false ∧
        mergeable ul ll samTH = true ∧
        ∃ ur1 lr1, merge ur samTH minRegSize = .ok ur1 ∧ merge lr samTH minRegSize = .ok lr1 ∧
          t1 = .node region ul ur1 ll lr1 (merged ++ [Ref.upper_left, Ref.lower_left])
            ((isMerged.set up_left true).set low_left true) mean variance) ∨
     (mergeable ul ur samTH = false ∧ mergeable ur lr samTH = false ∧
        mergeable ul ll samTH = false ∧
        ∃ ul1 ur1 ll1 lr1, merge ul samTH minRegSize = .ok ul1 ∧
          merge ur samTH minRegSize = .ok ur1 ∧ merge ll samTH minRegSize = .ok ll1 ∧
          merge lr samTH minRegSize = .ok lr1 ∧
          t1 = .node region ul1 ur1 ll1 lr1 merged isMerged mean variance)) := by
  cases hU : shouldBeMerged ul ur samTH with
  | error e =>
    rw [merge_error_of_upper region ul ur ll lr merged isMerged mean variance samTH minRegSize
      hw hs e hU] at h
    cases h
  | ok bU =>
    have n1 := shouldBeMerged_ok_left hU
    cases bU with
    | true =>
      have n2 := shouldBeMerged_true_right hU
      have mU := mergeable_of_shouldBeMerged n1 n2 hU
      cases hL : shouldBeMerged ll lr samTH with
      | error e => simp [merge, hw, hs, hU, hL, bind, Except.bind] at h
      | ok bL =>
        have n3 := shouldBeMerged_ok_left hL
        cases bL with
        | true =>
          have n4 := shouldBeMerged_true_right hL
          have mL := mergeable_of_shouldBeMerged n3 n4 hL
          rw [merge_upper_four_eq region ul ur ll lr merged isMerged mean variance samTH
            minRegSize hw hs hU hL] at h
          exact ⟨⟨n1, n2, n3, n4⟩, Or.inl ⟨mU, mL, (Except.ok.inj h).symm⟩⟩
        | false =>
          rw [merge_upper_two_eq region ul ur ll lr merged isMerged mean variance samTH
            minRegSize hw hs hU hL] at h
          obtain ⟨ll1, h3, h⟩ := bind_eq_ok.mp h
          obtain ⟨lr1, h4, h⟩ := bind_eq_ok.mp h
          have n4 := merge_ok_arg_not_null h4
          have mL := mergeable_of_shouldBeMerged n3 n4 hL
          exact ⟨⟨n1, n2, n3, n4⟩, Or.inr (Or.inl ⟨mU, mL, ll1, lr1, h3, h4,
            (Except.ok.inj h).symm⟩)⟩
    | false =>
      cases hR : shouldBeMerged ur lr samTH with
      | error e => simp [merge, hw, hs, hU, hR, bind, Except.bind] at h
      | ok bR =>
        have n2 := shouldBeMerged_ok_left hR
        have mU := mergeable_of_shouldBeMerged n1 n2 hU
        cases hLf : shouldBeMerged ul ll samTH with
        | error e =>
          cases bR <;> simp [merge, hw, hs, hU, hR, hLf, bind, Except.bind] at h
        | ok bLf =>
          cases bR with
          | true =>
            have n4 := shouldBeMerged_true_right hR
            have mR := mergeable_of_shouldBeMerged n2 n4 hR
            cases bLf with
            | true =>
              have n3 := shouldBeMerged_true_right hLf
              have mLf := mergeable_of_shouldBeMerged n1 n3 hLf
              exfalso
              unfold mergeable at mU mR mLf
              simp only [Bool.and_eq_true] at mR mLf
              rw [mLf.1, mR.1] at mU
              simp at mU
            | false =>
              rw [merge_right_two_eq region ul ur ll lr merged isMerged mean variance samTH
                minRegSize hw hs hU hR hLf] at h
              obtain ⟨ul1, h1, h⟩ := bind_eq_ok.mp h
              obtain ⟨ll1, h3, h⟩ := bind_eq_ok.mp h
              have n3 := merge_ok_arg_not_null h3
              have mLf := mergeable_of_shouldBeMerged n1 n3 hLf
              exact ⟨⟨n1, n2, n3, n4⟩, Or.inr (Or.inr (Or.inl ⟨mU, mR, mLf, ul1, ll1, h1, h3,
                (Except.ok.inj h).symm⟩))⟩
          | false =>
            cases bLf with
            | true =>
              have n3 := shouldBeMerged_true_right hLf
              have mLf := mergeable_of_shouldBeMerged n1 n3 hLf
              rw [merge_left_two_eq region ul ur ll lr merged isMerged mean variance samTH
                minRegSize hw hs hU hR hLf] at h
              obtain ⟨ur1, h2, h⟩ := bind_eq_ok.mp h
              obtain ⟨lr1, h4, h⟩ := bind_eq_ok.mp h
              have n4 := merge_ok_arg_not_null h4
              have mR := mergeable_of_shouldBeMerged n2 n4 hR
              exact ⟨⟨n1, n2, n3, n4⟩, Or.inr (Or.inr (Or.inr (Or.inl ⟨mU, mR, mLf, ur1, lr1,
                h2, h4, (Except.ok.inj h).symm⟩)))⟩
            | false =>
              rw [merge_none_eq region ul ur ll lr merged isMerged mean variance samTH
                minRegSize hw hs hU hR hLf] at h
              obtain ⟨ul1, h1, h⟩ := bind_eq_ok.mp h
              obtain ⟨ur1, h2, h⟩ := bind_eq_ok.mp h
              obtain ⟨lr1, h4, h⟩ := bind_eq_ok.mp h
              obtain ⟨ll1, h3, h⟩ := bind_eq_ok.mp h
              have n3 := merge_ok_arg_not_null h3
              have n4 := merge_ok_arg_not_null h4
              have mR := mergeable_of_shouldBeMerged n2 n4 hR
              have mLf := mergeable_of_shouldBeMerged n1 n3 hLf
              exact ⟨⟨n1, n2, n3, n4⟩, Or.inr (Or.inr (Or.inr (Or.inr ⟨mU, mR, mLf, ul1, ur1,
                ll1, lr1, h1, h2, h3, h4, (Except.ok.inj h).symm⟩)))⟩

/-- The outcomes of `merge` on any node: the leaf rule, or one of the five outcomes of an
internal node. -/
theorem merge_leaf_or_internal {region : Rect} {ul ur ll lr : qtNode} {merged : List Ref}
    {isMerged : Flags} {mean variance samTH : ℚ} {minRegSize : Int} {t1 : qtNode}
    (h : merge (.node region ul ur ll lr merged isMerged mean variance) samTH minRegSize =
      .ok t1) :
    ((¬ (region.width > minRegSize) ∨ stdDevLe variance samTH = true) ∧
      t1 = .node region ul ur ll lr (merged ++ [Ref.self]) Flags.allFalse mean variance) ∨
    (region.width > minRegSize ∧ stdDevLe variance samTH = false) := by
  by_cases hw : region.width > minRegSize
  · cases hs : stdDevLe variance samTH with
    | true =>
      left
      rw [merge_leaf_eq region ul ur ll lr merged isMerged mean variance samTH minRegSize
        (Or.inr hs)] at h
      exact ⟨Or.inr rfl, (Except.ok.inj h).symm⟩
    | false => exact Or.inr ⟨hw, rfl⟩
  · left
    rw [merge_leaf_eq region ul ur ll lr merged isMerged mean variance samTH minRegSize
      (Or.inl hw)] at h
    exact ⟨Or.inl hw, (Except.ok.inj h).symm⟩

theorem qtNode.All_not_null : ∀ t : qtNode, t.All (fun n => n.isNull = false) := by
  intro t
  induction t with
  | null => trivial
  | node region ul ur ll lr merged isMerged mean variance ih1 ih2 ih3 ih4 =>
    exact ⟨rfl, ih1, ih2, ih3, ih4⟩

/-- A tree that equals its erasure carries no annotation at any node. -/
theorem fresh_of_erase : ∀ t : qtNode, t.eraseAnnotations = t →
    t.All (fun n => n.merged = [] ∧ n.isMerged = Flags.allFalse) := by
  intro t
  induction t with
  | null => intro _; trivial
  | node region ul ur ll lr merged isMerged mean variance ih1 ih2 ih3 ih4 =>
    intro h
    simp only [qtNode.eraseAnnotations, qtNode.node.injEq, true_and] at h
    obtain ⟨e1, e2, e3, e4, em, ef, _⟩ := h
    exact ⟨⟨em.symm, ef.symm⟩, ih1 e1, ih2 e2, ih3 e3, ih4 e4⟩

/-- After `merge` on a node that was fresh, the annotations of the node have one of six
shapes. -/
theorem merge_fresh_shape {region : Rect} {ul ur ll lr : qtNode}
    {mean variance samTH : ℚ} {minRegSize : Int} {t1 : qtNode}
    (h : merge (.node region ul ur ll lr [] Flags.allFalse mean variance) samTH minRegSize =
      .ok t1) : mergeShape t1 := by
  rcases merge_leaf_or_internal h with ⟨_, rfl⟩ | ⟨hw, hs⟩
  · exact Or.inl ⟨rfl, rfl⟩
  · obtain ⟨_, hc⟩ := merge_internal_cases hw hs h
    rcases hc with ⟨_, _, rfl⟩ | ⟨_, _, _, _, _, _, rfl⟩ | ⟨_, _, _, _, _, _, _, rfl⟩ |
      ⟨_, _, _, _, _, _, _, rfl⟩ | ⟨_, _, _, _, _, _, _, _, _, _, _, rfl⟩
    · exact Or.inr (Or.inl ⟨rfl, rfl⟩)
    · exact Or.inr (Or.inr (Or.inl ⟨rfl, rfl⟩))
    · exact Or.inr (Or.inr (Or.inr (Or.inl ⟨rfl, rfl⟩)))
    · exact Or.inr (Or.inr (Or.inr (Or.inr (Or.inl ⟨rfl, rfl⟩))))
    · exact Or.inr (Or.inr (Or.inr (Or.inr (Or.inr ⟨rfl, rfl⟩))))

/-- After `merge` on a fresh tree, every node has annotations of one of the six shapes. -/
theorem merge_fresh_shape_all (samTH : ℚ) (minRegSize : Int) : ∀ (t t1 : qtNode),
    t.All (fun n => n.merged = [] ∧ n.isMerged = Flags.allFalse) →
    merge t samTH minRegSize = .ok t1 → t1.All mergeShape := by
  intro t
  induction t with
  | null => intro t1 _ h; simp [merge] at h
  | node region ul ur ll lr merged isMerged mean variance ih1 ih2 ih3 ih4 =>
    intro t1 hfresh h
    obtain ⟨⟨hm, hf⟩, f1, f2, f3, f4⟩ := hfresh
    simp only [qtNode.merged, qtNode.isMerged] at hm hf
    subst hm
    subst hf
    have hshape := merge_fresh_shape h
    obtain ⟨ul1, ur1, ll1, lr1, merged1, isMerged1, rfl, c1, c2, c3, c4⟩ := merge_node_inv h
    have unvisited : ∀ c : qtNode,
        c.All (fun n => n.merged = [] ∧ n.isMerged = Flags.allFalse) → c.All mergeShape := by
      intro c hc
      exact qtNode.All_imp (fun n hn => Or.inr (Or.inr (Or.inr (Or.inr (Or.inr hn))))) c hc
    refine ⟨hshape, ?_, ?_, ?_, ?_⟩
    · rcases c1 with c | c
      · rw [c]; exact unvisited ul f1
      · exact ih1 ul1 f1 c
    · rcases c2 with c | c
      · rw [c]; exact unvisited ur f2
      · exact ih2 ur1 f2 c
    · rcases c3 with c | c
      · rw [c]; exact unvisited ll f3
      · exact ih3 ll1 f3 c
    · rcases c4 with c | c
      · rw [c]; exact unvisited lr f4
      · exact ih4 lr1 f4 c

/-- The third branch of `merge` changes nothing: `merge` is `mergeWithoutLowLine`. -/
theorem merge_eq_without_low_line (samTH : ℚ) (minRegSize : Int) : ∀ t : qtNode,
    merge t samTH minRegSize = mergeWithoutLowLine t samTH minRegSize := by
  intro t
  induction t with
  | null => rfl
  | node region ul ur ll lr merged isMerged mean variance ih1 ih2 ih3 ih4 =>
    simp only [merge, mergeWithoutLowLine, ih1, ih2, ih3, ih4]
    split
    · rfl
    · cases hU : shouldBeMerged ul ur samTH with
      | error e => rfl
      | ok bU =>
        cases bU with
        | true => rfl
        | false =>
          cases hR : shouldBeMerged ur lr samTH with
          | error e => simp [bind, Except.bind, hR]
          | ok bR =>
            cases bR with
            | true => simp [bind, Except.bind, hR]
            | false => simp [bind, Except.bind, hR]

/-- C24 (unreachable lower-pair branch).  The third branch of `merge` repeats the test of the
second and is never taken: `merge` does what `merge` without that branch does, for every
node, threshold and minimum size; and after `merge` on a tree without annotations no node
has a group of two that consists of its lower-left and lower-right children. -/
theorem merge_low_line_unreachable (t : qtNode) (samTH : ℚ) (minRegSize : Int) :
    merge t samTH minRegSize = mergeWithoutLowLine t samTH minRegSize ∧
    (∀ t1 : qtNode, t.eraseAnnotations = t → merge t samTH minRegSize = .ok t1 →
      t1.All (fun n => n.merged ≠ [Ref.lower_left, Ref.lower_right] ∧
        n.merged ≠ [Ref.lower_right, Ref.lower_left])) := by
  refine ⟨merge_eq_without_low_line samTH minRegSize t, ?_⟩
  intro t1 hfresh h
  have hall := merge_fresh_shape_all samTH minRegSize t t1 (fresh_of_erase t hfresh) h
  refine qtNode.All_imp ?_ t1 hall
  intro n hn
  unfold mergeShape at hn
  rcases hn with ⟨hm, _⟩ | ⟨hm, _⟩ | ⟨hm, _⟩ | ⟨hm, _⟩ | ⟨hm, _⟩ | ⟨hm, _⟩ <;>
    rw [hm] <;> exact ⟨by decide, by decide⟩

/-- A concrete instance: the tree of `lowPairRaster`, whose lower pair is mergeable, after
`merge` with threshold 0 and minimum size 1. -/
theorem merge_low_line_unreachable_witness :
    (split lowPairRaster ⟨0, 0, 4, 4⟩ 0 1 = .ok lowPairTree ∧
      mergeable lowPairTree.lowerLeft lowPairTree.lowerRight 0 = true) ∧
    (mergeOrNull lowPairTree 0 1).All (fun n =>
      n.merged ≠ [Ref.lower_left, Ref.lower_right] ∧
      n.merged ≠ [Ref.lower_right, Ref.lower_left]) :=
  ⟨by decide!, (merge_low_line_unreachable lowPairTree 0 1).2 (mergeOrNull lowPairTree 0 1)
    (by decide!) (by decide!)⟩

/-- C27 (square trees make the leaf test of `merge` exact).  In a tree that `split` built for
a square region, every region is square, the width-only test of `merge` gives what the test
of `split` on width and height gives, and `merge` with the same threshold and minimum size
takes its leaf branch at a node exactly when the node has no children. -/
theorem square_tree_leaf_test_exact (img : Mat) (region : Rect) (samTH : ℚ) (minRegSize : Int)
    (t : qtNode) (hsq : region.width = region.height)
    (h : split img region samTH minRegSize = .ok t) :
    t.All (fun n => n.region.width = n.region.height ∧
      regionIsDivisibleNode n minRegSize = .ok (regionIsDivisible n.region minRegSize) ∧
      (((!(decide (n.region.width > minRegSize)) || stdDevLe n.variance samTH) = true) ↔
        n.isLeaf)) := by
  have hsqs := split_square_all img region samTH minRegSize t h hsq
  have hiff := split_children_iff img region samTH minRegSize t h
  refine qtNode.All_imp ?_ t (qtNode.All_and t (qtNode.All_not_null t)
    (qtNode.All_and t hsqs hiff))
  intro n hn
  obtain ⟨hnull, hs, hch, hleaf⟩ := hn
  refine ⟨hs, ?_, ?_⟩
  · cases n with
    | null => simp [qtNode.isNull] at hnull
    | node r ul ur ll lr merged isMerged mean variance =>
      simp only [qtNode.region] at hs
      simp only [regionIsDivisibleNode, regionIsDivisible, qtNode.region, Except.ok.injEq]
      by_cases hw : r.width > minRegSize
      · have hh : r.height > minRegSize := by omega
        simp [hw, hh]
      · simp [hw]
  · constructor
    · intro hc
      apply hleaf
      intro hsc
      unfold splitCondition at hsc
      simp [hsc.1, hsc.2.2] at hc
    · intro hl
      have hnot : ¬ splitCondition n samTH minRegSize := by
        intro hsc
        exact (hch.mpr hsc).1 hl.1
      unfold splitCondition at hnot
      by_cases hw : n.region.width > minRegSize
      · have hh : n.region.height > minRegSize := by omega
        cases hv : stdDevLe n.variance samTH with
        | true => simp
        | false => exact absurd ⟨hw, hh, hv⟩ hnot
      · simp [hw]

/-- A concrete instance: the quadrant raster at threshold 0 and minimum size 1. -/
theorem square_tree_leaf_test_exact_witness :
    (4 : Int) = 4 ∧ split quadrantRaster ⟨0, 0, 4, 4⟩ 0 1 = .ok quadrantTree ∧
    quadrantTree.All (fun n => n.region.width = n.region.height ∧
      regionIsDivisibleNode n 1 = .ok (regionIsDivisible n.region 1) ∧
      (((!(decide (n.region.width > 1)) || stdDevLe n.variance 0) = true) ↔ n.isLeaf)) :=
  ⟨rfl, by decide!,
    square_tree_leaf_test_exact quadrantRaster ⟨0, 0, 4, 4⟩ 0 1 quadrantTree rfl (by decide!)⟩

/-- C28 (four-way merge characterisation).  For a fresh node that `merge` treats as internal,
the group has four members after `merge` exactly when all four children have a standard
deviation of at most the threshold, and a group of four is always the sequence upper left,
upper right, lower right, lower left (it comes from the upper-pair branch: the absorption
of the opposite pair in the right-pair and left-pair branches does not happen). -/
theorem merge_four_way_iff (region : Rect) (ul ur ll lr : qtNode) (mean variance samTH : ℚ)
    (minRegSize : Int) (t1 : qtNode)
    (hw : region.width > minRegSize) (hs : stdDevLe variance samTH = false)
    (h : merge (.node region ul ur ll lr [] Flags.allFalse mean variance) samTH minRegSize =
      .ok t1) :
    (t1.merged.length = 4 ↔
      (stdDevLe ul.variance samTH = true ∧ stdDevLe ur.variance samTH = true ∧
        stdDevLe ll.variance samTH = true ∧ stdDevLe lr.variance samTH = true)) ∧
    (t1.merged.length = 4 →
      t1.merged = [Ref.upper_left, Ref.upper_right, Ref.lower_right, Ref.lower_left] ∧
      t1.isMerged = ⟨true, true, true, true⟩) := by
  obtain ⟨_, hc⟩ := merge_internal_cases hw hs h
  unfold mergeable at hc
  rcases hc with ⟨mU, mL, rfl⟩ | ⟨mU, mL, _, _, _, _, rfl⟩ | ⟨mU, mR, mLf, _, _, _, _, rfl⟩ |
    ⟨mU, mR, mLf, _, _, _, _, rfl⟩ | ⟨mU, mR, mLf, _, _, _, _, _, _, _, _, rfl⟩
  · simp only [Bool.and_eq_true] at mU mL
    refine ⟨⟨fun _ => ⟨mU.1, mU.2, mL.1, mL.2⟩, fun _ => rfl⟩, fun _ => ⟨rfl, rfl⟩⟩
  · refine ⟨⟨fun hl => by simp [qtNode.merged] at hl, fun hall => ?_⟩,
      fun hl => by simp [qtNode.merged] at hl⟩
    rw [hall.2.2.1, hall.2.2.2] at mL
    simp at mL
  · refine ⟨⟨fun hl => by simp [qtNode.merged] at hl, fun hall => ?_⟩,
      fun hl => by simp [qtNode.merged] at hl⟩
    rw [hall.1, hall.2.1] at mU
    simp at mU
  · refine ⟨⟨fun hl => by simp [qtNode.merged] at hl, fun hall => ?_⟩,
      fun hl => by simp [qtNode.merged] at hl⟩
    rw [hall.1, hall.2.1] at mU
    simp at mU
  · refine ⟨⟨fun hl => by simp [qtNode.merged] at hl, fun hall => ?_⟩,
      fun hl => by simp [qtNode.merged] at hl⟩
    rw [hall.1, hall.2.1] at mU
    simp at mU

/-- A concrete instance: the root of the quadrant tree at threshold 0 and minimum size 1,
whose four children are homogeneous. -/
theorem merge_four_way_iff_witness :
    ((4 : Int) > 1 ∧ stdDevLe 5120 0 = false ∧ merge quadrantTree 0 1 = .ok quadrantMerged) ∧
    ((quadrantMerged.merged.length = 4 ↔
      (stdDevLe (freshLeaf ⟨0, 0, 2, 2⟩ 0 0).variance 0 = true ∧
        stdDevLe (freshLeaf ⟨2, 0, 2, 2⟩ 64 0).variance 0 = true ∧
        stdDevLe (freshLeaf ⟨0, 2, 2, 2⟩ 128 0).variance 0 = true ∧
        stdDevLe (freshLeaf ⟨2, 2, 2, 2⟩ 192 0).variance 0 = true)) ∧
    (quadrantMerged.merged.length = 4 →
      quadrantMerged.merged =
        [Ref.upper_left, Ref.upper_right, Ref.lower_right, Ref.lower_left] ∧
      quadrantMerged.isMerged = ⟨true, true, true, true⟩)) :=
  ⟨⟨by decide, by decide!, by decide!⟩,
    merge_four_way_iff ⟨0, 0, 4, 4⟩ (freshLeaf ⟨0, 0, 2, 2⟩ 0 0) (freshLeaf ⟨2, 0, 2, 2⟩ 64 0)
      (freshLeaf ⟨0, 2, 2, 2⟩ 128 0) (freshLeaf ⟨2, 2, 2, 2⟩ 192 0) 96 5120 0 1 quadrantMerged
      (by decide) (by decide!) (by decide!)⟩

theorem flagsAgree_of_mergeShape {n : qtNode} (hshape : mergeShape n)
    (hself : Ref.self ∉ n.merged) : flagsAgree n := by
  unfold mergeShape at hshape
  unfold flagsAgree
  rcases hshape with ⟨hm, hf⟩ | ⟨hm, hf⟩ | ⟨hm, hf⟩ | ⟨hm, hf⟩ | ⟨hm, hf⟩ | ⟨hm, hf⟩
  · rw [hm] at hself
    simp at hself
  all_goals
    rw [hm, hf]
    simp [Flags.at, Flags.count, Flags.allFalse, up_left, up_right, low_left, low_right]

/-- C30 (flags agree with group membership).  After `merge` on a tree without annotations,
at every node that is not a group of its own the flag of a quadrant is true exactly when the
child of that quadrant is a member of the group of the node, no child occurs twice in the
group, and the number of true flags is the size of the group, which is 0, 2 or 4. -/
theorem merge_flags_agree (t t1 : qtNode) (samTH : ℚ) (minRegSize : Int)
    (hfresh : t.eraseAnnotations = t) (h : merge t samTH minRegSize = .ok t1) :
    t1.All (fun n => Ref.self ∉ n.merged → flagsAgree n) := by
  have hall := merge_fresh_shape_all samTH minRegSize t t1 (fresh_of_erase t hfresh) h
  exact qtNode.All_imp (fun n hn hself => flagsAgree_of_mergeShape hn hself) t1 hall

/-- A concrete instance: the tree of `skipRaster` (the right pair of the root is merged)
with threshold 0 and minimum size 1. -/
theorem merge_flags_agree_witness :
    (skipTree.eraseAnnotations = skipTree ∧
      merge skipTree 0 1 = .ok (mergeOrNull skipTree 0 1) ∧
      (mergeOrNull skipTree 0 1).merged = [Ref.upper_right, Ref.lower_right]) ∧
    (mergeOrNull skipTree 0 1).All (fun n => Ref.self ∉ n.merged → flagsAgree n) :=
  ⟨by decide!, merge_flags_agree skipTree (mergeOrNull skipTree 0 1) 0 1 (by decide!)
    (by decide!)⟩

/-! ## The geometry of split trees -/

/-- Every node of a tree returned by `split` has a region of positive width and height and
is a leaf or has its four quadrants as children. -/
theorem split_quadrants (img : Mat) (region : Rect) (samTH : ℚ) (minRegSize : Int)
    (t : qtNode) (h : split img region samTH minRegSize = .ok t) :
    t.All (fun n => 0 < n.region.width ∧ 0 < n.region.height ∧
      (n.isLeaf ∨ (¬ n.isLeaf ∧ hasQuadrants n))) := by
  refine split_induct img samTH minRegSize
    (fun region t => (t.isNull = false ∧ t.region = region) ∧
      t.All (fun n => 0 < n.region.width ∧ 0 < n.region.height ∧
        (n.isLeaf ∨ (¬ n.isLeaf ∧ hasQuadrants n)))) ?_ ?_ region t h |>.2
  · intro region st hst _
    obtain ⟨_, hw, hh⟩ := regionStats_ok hst
    exact ⟨⟨rfl, rfl⟩, ⟨hw, hh, Or.inl ⟨rfl, rfl, rfl, rfl⟩⟩, trivial, trivial, trivial,
      trivial⟩
  · intro region st ul ur ll lr hst _ _ h1 h2 h3 h4
    obtain ⟨_, hw, hh⟩ := regionStats_ok hst
    have ew := tdiv_two_of_nonneg (le_of_lt hw)
    have eh := tdiv_two_of_nonneg (le_of_lt hh)
    rw [ew, eh] at h1 h2 h3 h4
    refine ⟨⟨rfl, rfl⟩, ⟨hw, hh, Or.inr ⟨?_, ?_⟩⟩, h1.2, h2.2, h3.2, h4.2⟩
    · intro hl
      have := hl.1
      simp only [qtNode.upperLeft, qtNode.deref] at this
      have hn := h1.1.1
      rw [this] at hn
      simp [qtNode.isNull] at hn
    · exact ⟨h1.1.1, h2.1.1, h3.1.1, h4.1.1, h1.1.2, h2.1.2, h3.1.2, h4.1.2⟩

/-- C26 (odd-dimension loss).  At a node with children of a tree returned by `split`, the
regions of the four children cover the region of the node exactly if and only if its width
and height are both even; when the width is odd no child contains a pixel of the last column,
and when the height is odd no child contains a pixel of the last row. -/
theorem split_odd_dimension_loss (img : Mat) (region : Rect) (samTH : ℚ) (minRegSize : Int)
    (t : qtNode) (h : split img region samTH minRegSize = .ok t) :
    t.All (fun n => ¬ n.isLeaf →
      ((∀ r c : Int, n.region.contains r c ↔ coveredByChildren n r c) ↔
        (n.region.width % 2 = 0 ∧ n.region.height % 2 = 0)) ∧
      (n.region.width % 2 = 1 →
        ∀ r : Int, ¬ coveredByChildren n r (n.region.x + n.region.width - 1)) ∧
      (n.region.height % 2 = 1 →
        ∀ c : Int, ¬ coveredByChildren n (n.region.y + n.region.height - 1) c)) := by
  refine qtNode.All_imp ?_ t (split_quadrants img region samTH minRegSize t h)
  intro n hn hnl
  obtain ⟨hw, hh, hq⟩ := hn
  rcases hq with hl | ⟨_, hq⟩
  · exact absurd hl hnl
  · obtain ⟨_, _, _, _, e1, e2, e3, e4⟩ := hq
    unfold coveredByChildren
    rw [e1, e2, e3, e4]
    unfold Rect.contains
    simp only
    refine ⟨⟨?_, ?_⟩, ?_, ?_⟩
    · intro hcov
      have c1 := (hcov n.region.y (n.region.x + n.region.width - 1)).mp (by omega)
      have c2 := (hcov (n.region.y + n.region.height - 1) n.region.x).mp (by omega)
      constructor
      · omega
      · omega
    · intro heven r c
      omega
    · intro hodd r
      omega
    · intro hodd c
      omega

/-- A concrete instance: the tree of the 3x3 raster `oddRaster` at threshold 0 and minimum
size 1, whose root is split into four 1x1 quadrants. -/
theorem split_odd_dimension_loss_witness :
    (split oddRaster ⟨0, 0, 3, 3⟩ 0 1 = .ok oddTree ∧ oddTree.upperLeft.isNull = false) ∧
    oddTree.All (fun n => ¬ n.isLeaf →
      ((∀ r c : Int, n.region.contains r c ↔ coveredByChildren n r c) ↔
        (n.region.width % 2 = 0 ∧ n.region.height % 2 = 0)) ∧
      (n.region.width % 2 = 1 →
        ∀ r : Int, ¬ coveredByChildren n r (n.region.x + n.region.width - 1)) ∧
      (n.region.height % 2 = 1 →
        ∀ c : Int, ¬ coveredByChildren n (n.region.y + n.region.height - 1) c)) :=
  ⟨⟨by decide!, by decide!⟩,
    split_odd_dimension_loss oddRaster ⟨0, 0, 3, 3⟩ 0 1 oddTree (by decide!)⟩

theorem qtNode.All_root {P : qtNode → Prop} {t : qtNode} (hn : t.isNull = false)
    (h : t.All P) : P t := by
  cases t with
  | null => simp [qtNode.isNull] at hn
  | node _ _ _ _ _ _ _ _ _ => exact h.1

/-- On a tree without annotations in which every node that fails the stopping test of
`split` has no children, every member of every group after `merge` is a node without
children, homogeneous when the group has two or more members. -/
theorem merge_members_leaves_aux (samTH : ℚ) (minRegSize : Int) : ∀ (t t1 : qtNode),
    t.All (fun n => (¬ splitCondition n samTH minRegSize → n.isLeaf) ∧
      n.merged = [] ∧ n.isMerged = Flags.allFalse) →
    merge t samTH minRegSize = .ok t1 → t1.All (membersAreLeaves samTH) := by
  intro t
  induction t with
  | null => intro t1 _ h; simp [merge] at h
  | node region ul ur ll lr merged isMerged mean variance ih1 ih2 ih3 ih4 =>
    intro t1 hall h
    obtain ⟨⟨hleaf, hm, hf⟩, a1, a2, a3, a4⟩ := hall
    simp only [qtNode.merged, qtNode.isMerged] at hm hf
    subst hm
    subst hf
    have unvisited : ∀ c : qtNode,
        c.All (fun n => (¬ splitCondition n samTH minRegSize → n.isLeaf) ∧
          n.merged = [] ∧ n.isMerged = Flags.allFalse) →
        c.All (membersAreLeaves samTH) := by
      intro c hc
      refine qtNode.All_imp ?_ c hc
      intro n hn q hq
      rw [hn.2.1] at hq
      cases hq
    have homLeaf : ∀ c : qtNode, c.isNull = false →
        c.All (fun n => (¬ splitCondition n samTH minRegSize → n.isLeaf) ∧
          n.merged = [] ∧ n.isMerged = Flags.allFalse) →
        stdDevLe c.variance samTH = true → c.isLeaf := by
      intro c hc hca hhom
      apply (qtNode.All_root hc hca).1
      intro hsc
      unfold splitCondition at hsc
      rw [hhom] at hsc
      exact absurd hsc.2.2 (by decide)
    rcases merge_leaf_or_internal h with ⟨hcond, rfl⟩ | ⟨hw, hs⟩
    · refine ⟨?_, unvisited ul a1, unvisited ur a2, unvisited ll a3, unvisited lr a4⟩
      intro q hq
      simp only [qtNode.merged, List.nil_append, List.mem_singleton] at hq
      subst hq
      refine ⟨rfl, ?_, ?_⟩
      · have hl : (qtNode.node region ul ur ll lr [] Flags.allFalse mean variance).isLeaf := by
          apply hleaf
          intro hsc
          unfold splitCondition at hsc
          simp only [qtNode.region, qtNode.variance] at hsc
          rcases hcond with hc | hc
          · exact hc hsc.1
          · rw [hc] at hsc
            exact absurd hsc.2.2 (by decide)
        exact hl
      · intro hlen
        simp [qtNode.merged] at hlen
    · obtain ⟨⟨n1, n2, n3, n4⟩, hc⟩ := merge_internal_cases hw hs h
      unfold mergeable at hc
      rcases hc with ⟨mU, mL, rfl⟩ | ⟨mU, mL, ll1, lr1, h3, h4, rfl⟩ |
        ⟨mU, mR, mLf, ul1, ll1, h1, h3, rfl⟩ | ⟨mU, mR, mLf, ur1, lr1, h2, h4, rfl⟩ |
        ⟨mU, mR, mLf, ul1, ur1, ll1, lr1, h1, h2, h3, h4, rfl⟩
      · simp only [Bool.and_eq_true] at mU mL
        refine ⟨?_, unvisited ul a1, unvisited ur a2, unvisited ll a3, unvisited lr a4⟩
        intro q hq
        simp only [qtNode.merged, List.nil_append, List.cons_append, List.mem_cons,
          List.mem_singleton, List.not_mem_nil, or_false] at hq
        rcases hq with rfl | rfl | rfl | rfl
        · exact ⟨n1, homLeaf ul n1 a1 mU.1, fun _ => mU.1⟩
        · exact ⟨n2, homLeaf ur n2 a2 mU.2, fun _ => mU.2⟩
        · exact ⟨n4, homLeaf lr n4 a4 mL.2, fun _ => mL.2⟩
        · exact ⟨n3, homLeaf ll n3 a3 mL.1, fun _ => mL.1⟩
      · simp only [Bool.and_eq_true] at mU
        refine ⟨?_, unvisited ul a1, unvisited ur a2, ih3 ll1 a3 h3, ih4 lr1 a4 h4⟩
        intro q hq
        simp only [qtNode.merged, List.nil_append, List.mem_cons,
          List.mem_singleton, List.not_mem_nil, or_false] at hq
        rcases hq with rfl | rfl
        · exact ⟨n1, homLeaf ul n1 a1 mU.1, fun _ => mU.1⟩
        · exact ⟨n2, homLeaf ur n2 a2 mU.2, fun _ => mU.2⟩
      · simp only [Bool.and_eq_true] at mR
        refine ⟨?_, ih1 ul1 a1 h1, unvisited ur a2, ih3 ll1 a3 h3, unvisited lr a4⟩
        intro q hq
        simp only [qtNode.merged, List.nil_append, List.mem_cons,
          List.mem_singleton, List.not_mem_nil, or_false] at hq
        rcases hq with rfl | rfl
        · exact ⟨n2, homLeaf ur n2 a2 mR.1, fun _ => mR.1⟩
        · exact ⟨n4, homLeaf lr n4 a4 mR.2, fun _ => mR.2⟩
      · simp only [Bool.and_eq_true] at mLf
        refine ⟨?_, unvisited ul a1, ih2 ur1 a2 h2, unvisited ll a3, ih4 lr1 a4 h4⟩
        intro q hq
        simp only [qtNode.merged, List.nil_append, List.mem_cons,
          List.mem_singleton, List.not_mem_nil, or_false] at hq
        rcases hq with rfl | rfl
        · exact ⟨n1, homLeaf ul n1 a1 mLf.1, fun _ => mLf.1⟩
        · exact ⟨n3, homLeaf ll n3 a3 mLf.2, fun _ => mLf.2⟩
      · refine ⟨?_, ih1 ul1 a1 h1, ih2 ur1 a2 h2, ih3 ll1 a3 h3, ih4 lr1 a4 h4⟩
        intro q hq
        simp only [qtNode.merged] at hq
        cases hq

/-- C29 (merge-group members are leaves).  After `merge` on a tree that `split` built with the
same threshold and minimum size, every member of every merge group is a node without
children, and every member of a group of two or four has a standard deviation of at most the
threshold. -/
theorem merge_members_are_leaves (img : Mat) (region : Rect) (samTH : ℚ) (minRegSize : Int)
    (t t1 : qtNode) (h : split img region samTH minRegSize = .ok t)
    (hm : merge t samTH minRegSize = .ok t1) : t1.All (membersAreLeaves samTH) := by
  have hiff := split_children_iff img region samTH minRegSize t h
  have hfresh := fresh_of_erase t (split_erase img region samTH minRegSize t h)
  refine merge_members_leaves_aux samTH minRegSize t t1 ?_ hm
  refine qtNode.All_imp ?_ t (qtNode.All_and t hiff hfresh)
  intro n hn
  exact ⟨hn.1.2, hn.2.1, hn.2.2⟩

/-- A concrete instance: the tree of `skipRaster` with threshold 0 and minimum size 1. -/
theorem merge_members_are_leaves_witness :
    (split skipRaster ⟨0, 0, 4, 4⟩ 0 1 = .ok skipTree ∧
      merge skipTree 0 1 = .ok (mergeOrNull skipTree 0 1)) ∧
    (mergeOrNull skipTree 0 1).All (membersAreLeaves 0) :=
  ⟨by decide!, merge_members_are_leaves skipRaster ⟨0, 0, 4, 4⟩ 0 1 skipTree
    (mergeOrNull skipTree 0 1) (by decide!) (by decide!)⟩

/-! ## What `draw` touches -/

theorem region_node (region : Rect) (ul ur ll lr : qtNode) (merged : List Ref)
    (isMerged : Flags) (mean variance : ℚ) :
    (qtNode.node region ul ur ll lr merged isMerged mean variance).region = region := rfl

theorem erase_isNull (c : qtNode) : c.eraseAnnotations.isNull = c.isNull := by
  cases c <;> rfl

theorem erase_region (c : qtNode) : c.eraseAnnotations.region = c.region := by
  cases c <;> rfl

theorem erase_eq_null_iff (c : qtNode) : c.eraseAnnotations = .null ↔ c = .null := by
  cases c <;> simp [qtNode.eraseAnnotations]

theorem splitGeometry_erase (n : qtNode) :
    splitGeometry n.eraseAnnotations ↔ splitGeometry n := by
  cases n with
  | null => rfl
  | node region ul ur ll lr merged isMerged mean variance =>
    simp only [splitGeometry, hasQuadrants, qtNode.isLeaf, qtNode.eraseAnnotations,
      qtNode.upperLeft, qtNode.upperRight, qtNode.lowerLeft, qtNode.lowerRight, qtNode.deref,
      region_node, erase_isNull, erase_region, erase_eq_null_iff]

/-- The geometry of a tree does not depend on its annotations. -/
theorem geometry_of_erase : ∀ t : qtNode,
    t.eraseAnnotations.All splitGeometry → t.All splitGeometry := by
  intro t
  induction t with
  | null => intro _; trivial
  | node region ul ur ll lr merged isMerged mean variance ih1 ih2 ih3 ih4 =>
    intro h
    have hroot := (splitGeometry_erase
      (.node region ul ur ll lr merged isMerged mean variance)).mp h.1
    exact ⟨hroot, ih1 h.2.1, ih2 h.2.2.1, ih3 h.2.2.2.1, ih4 h.2.2.2.2⟩

/-- After `split` and `merge`, every node has the geometry of a split tree. -/
theorem merged_geometry (img : Mat) (region : Rect) (samTH : ℚ) (minRegSize : Int)
    (t t1 : qtNode) (h : split img region samTH minRegSize = .ok t)
    (hm : merge t samTH minRegSize = .ok t1) : t1.All splitGeometry := by
  apply geometry_of_erase
  rw [merge_erase samTH minRegSize t t1 hm, split_erase img region samTH minRegSize t h]
  exact split_quadrants img region samTH minRegSize t h

theorem qtNode.All_self {P : qtNode → Prop} : ∀ t : qtNode, t.All P →
    t.All (fun n => n.All P) := by
  intro t
  induction t with
  | null => intro _; trivial
  | node region ul ur ll lr merged isMerged mean variance ih1 ih2 ih3 ih4 =>
    intro h
    exact ⟨h, ih1 h.2.1, ih2 h.2.2.1, ih3 h.2.2.2.1, ih4 h.2.2.2.2⟩

/-- A pixel of the region of a child, or of the node itself, is a pixel of the region of the
node. -/
theorem deref_region_contains {n : qtNode} (hg : splitGeometry n) (q : Ref) {r c : Int}
    (hc : (n.deref q).region.contains r c) : n.region.contains r c := by
  cases n with
  | null =>
    simp only [qtNode.deref, qtNode.region, Rect.contains] at hc
    omega
  | node region ul ur ll lr merged isMerged mean variance =>
    obtain ⟨hw, hh, hq⟩ := hg
    rcases hq with hl | ⟨_, hq⟩
    · obtain ⟨l1, l2, l3, l4⟩ := hl
      simp only [qtNode.upperLeft, qtNode.upperRight, qtNode.lowerLeft, qtNode.lowerRight,
        qtNode.deref] at l1 l2 l3 l4
      subst l1 l2 l3 l4
      cases q
      · exact hc
      all_goals
        simp only [qtNode.deref, qtNode.region, Rect.contains] at hc
        omega
    · obtain ⟨_, _, _, _, e1, e2, e3, e4⟩ := hq
      simp only [qtNode.upperLeft, qtNode.upperRight, qtNode.lowerLeft, qtNode.lowerRight,
        qtNode.deref, region_node] at e1 e2 e3 e4
      simp only [region_node] at hw hh ⊢
      cases q
      · exact hc
      · simp only [qtNode.deref] at hc
        rw [e1] at hc
        unfold Rect.contains at hc ⊢
        simp only at hc
        omega
      · simp only [qtNode.deref] at hc
        rw [e2] at hc
        unfold Rect.contains at hc ⊢
        simp only at hc
        omega
      · simp only [qtNode.deref] at hc
        rw [e3] at hc
        unfold Rect.contains at hc ⊢
        simp only at hc
        omega
      · simp only [qtNode.deref] at hc
        rw [e4] at hc
        unfold Rect.contains at hc ⊢
        simp only at hc
        omega

theorem draw_cond_frame {b : Bool} {t : qtNode} {img out : Mat} {r c : Int}
    (ih : ∀ img out, draw img t = .ok out → ¬ t.region.contains r c → out.px r c = img.px r c)
    (hout : ¬ t.region.contains r c)
    (h : (if b = true then draw img t else pure img) = .ok out) : out.px r c = img.px r c := by
  split at h
  · exact ih img out h hout
  · cases h; rfl

/-- The renderer changes no sample outside the region of the node it is applied to, on a
tree with the geometry of a split tree. -/
theorem draw_frame : ∀ (t : qtNode), t.All splitGeometry → ∀ (img out : Mat) (r c : Int),
    draw img t = .ok out → ¬ t.region.contains r c → out.px r c = img.px r c := by
  intro t
  induction t with
  | null =>
    intro _ img out r c h _
    simp only [draw] at h
    cases h; rfl
  | node region ul ur ll lr merged isMerged mean variance ih1 ih2 ih3 ih4 =>
    intro hall img out r c h hout
    obtain ⟨hg, g1, g2, g3, g4⟩ := hall
    have o1 : ¬ ul.region.contains r c := fun hc =>
      hout (deref_region_contains hg Ref.upper_left hc)
    have o2 : ¬ ur.region.contains r c := fun hc =>
      hout (deref_region_contains hg Ref.upper_right hc)
    have o3 : ¬ ll.region.contains r c := fun hc =>
      hout (deref_region_contains hg Ref.lower_left hc)
    have o4 : ¬ lr.region.contains r c := fun hc =>
      hout (deref_region_contains hg Ref.lower_right hc)
    have j1 := fun img out hd => ih1 g1 img out r c hd
    have j2 := fun img out hd => ih2 g2 img out r c hd
    have j3 := fun img out hd => ih3 g3 img out r c hd
    have j4 := fun img out hd => ih4 g4 img out r c hd
    simp only [draw] at h
    split at h
    · obtain ⟨i1, h1, h⟩ := bind_eq_ok.mp h
      obtain ⟨i2, h2, h⟩ := bind_eq_ok.mp h
      obtain ⟨i3, h3, h⟩ := bind_eq_ok.mp h
      rw [j4 _ _ h o4, j3 _ _ h3 o3, j2 _ _ h2 o2, j1 _ _ h1 o1]
    · obtain ⟨rv, _, h⟩ := bind_eq_ok.mp h
      obtain ⟨i0, h0, h⟩ := bind_eq_ok.mp h
      have hp : i0.px r c = img.px r c := by
        apply (paintAll_px _ _ _ _ h0).2 r c
        intro member hmem hc
        simp only [List.mem_map] at hmem
        obtain ⟨q, _, rfl⟩ := hmem
        exact hout (deref_region_contains hg q hc)
      split at h
      · cases h; exact hp
      · obtain ⟨i1, h1, h⟩ := bind_eq_ok.mp h
        obtain ⟨i2, h2, h⟩ := bind_eq_ok.mp h
        obtain ⟨i3, h3, h⟩ := bind_eq_ok.mp h
        rw [draw_cond_frame j1 o1 h, draw_cond_frame j4 o4 h3, draw_cond_frame j2 o2 h2,
          draw_cond_frame j1 o1 h1, hp]

/-- The renderer on a node with a group of two or more members: the painting step, then the
four conditional recursions as the source has them. -/
theorem draw_group_eq (img : Mat) (region : Rect) (ul ur ll lr : qtNode) (merged : List Ref)
    (isMerged : Flags) (mean variance : ℚ) (hlen : 2 ≤ merged.length) :
    draw img (.node region ul ur ll lr merged isMerged mean variance) =
      (drawPaint img (.node region ul ur ll lr merged isMerged mean variance) >>= fun i0 =>
        (if !(isMerged.at up_left) then draw i0 ul else pure i0) >>= fun i1 =>
        (if !(isMerged.at up_right) then draw i1 ur else pure i1) >>= fun i2 =>
        (if !(isMerged.at low_right) then draw i2 lr else pure i2) >>= fun i3 =>
        (if !(isMerged.at low_left) then draw i3 ul else pure i3)) := by
  have hemp : (merged.map (qtNode.deref
      (.node region ul ur ll lr merged isMerged mean variance))).isEmpty = false := by
    cases merged with
    | nil => simp at hlen
    | cons a rest => rfl
  have hnot : ¬ (merged.map (qtNode.deref
      (.node region ul ur ll lr merged isMerged mean variance))).length ≤ 1 := by
    rw [List.length_map]; omega
  simp only [draw, drawPaint, hemp, Bool.false_eq_true, if_false, hnot, qtNode.merged]
  cases sumMeans (merged.map (qtNode.deref
      (.node region ul ur ll lr merged isMerged mean variance))) 0 with
  | error e => rfl
  | ok s =>
    simp only [bind, Except.bind]

theorem sumMeans_congr : ∀ (l l1 : List qtNode) (acc : ℚ),
    l.map qtNode.getMean = l1.map qtNode.getMean → sumMeans l acc = sumMeans l1 acc := by
  intro l
  induction l with
  | nil =>
    intro l1 acc h
    cases l1 with
    | nil => rfl
    | cons b rest => simp at h
  | cons a rest ih =>
    intro l1 acc h
    cases l1 with
    | nil => simp at h
    | cons b rest1 =>
      simp only [List.map_cons, List.cons.injEq] at h
      simp only [sumMeans, h.1]
      cases b.getMean with
      | error e => rfl
      | ok mean =>
        simp only [bind, Except.bind]
        exact ih rest1 _ h.2

theorem paintAll_congr (value : Int) : ∀ (l l1 : List qtNode) (img : Mat),
    l.map qtNode.getRegion = l1.map qtNode.getRegion →
    paintAll img l value = paintAll img l1 value := by
  intro l
  induction l with
  | nil =>
    intro l1 img h
    cases l1 with
    | nil => rfl
    | cons b rest => simp at h
  | cons a rest ih =>
    intro l1 img h
    cases l1 with
    | nil => simp at h
    | cons b rest1 =>
      simp only [List.map_cons, List.cons.injEq] at h
      simp only [paintAll, h.1]
      cases b.getRegion with
      | error e => rfl
      | ok region =>
        simp only [bind, Except.bind]
        cases img.assignRoi region value with
        | error e => rfl
        | ok img1 => exact ih rest1 img1 h.2

/-- The painting step reads of the lower-left child its region and its mean only. -/
theorem drawPaint_setLowerLeft (img : Mat) (region : Rect) (ul ur ll lr ll1 : qtNode)
    (merged : List Ref) (isMerged : Flags) (mean variance : ℚ)
    (hr : ll1.getRegion = ll.getRegion) (hmean : ll1.getMean = ll.getMean) :
    drawPaint img (.node region ul ur ll1 lr merged isMerged mean variance) =
      drawPaint img (.node region ul ur ll lr merged isMerged mean variance) := by
  have hm : (merged.map (qtNode.deref
      (.node region ul ur ll1 lr merged isMerged mean variance))).map qtNode.getMean =
      (merged.map (qtNode.deref
      (.node region ul ur ll lr merged isMerged mean variance))).map qtNode.getMean := by
    rw [List.map_map, List.map_map]
    apply List.map_congr_left
    intro q _
    cases q
    · rfl
    · rfl
    · rfl
    · exact hmean
    · rfl
  have hg : (merged.map (qtNode.deref
      (.node region ul ur ll1 lr merged isMerged mean variance))).map qtNode.getRegion =
      (merged.map (qtNode.deref
      (.node region ul ur ll lr merged isMerged mean variance))).map qtNode.getRegion := by
    rw [List.map_map, List.map_map]
    apply List.map_congr_left
    intro q _
    cases q
    · rfl
    · rfl
    · rfl
    · exact hr
    · rfl
  unfold drawPaint
  simp only [qtNode.merged]
  rw [sumMeans_congr _ _ 0 hm]
  simp only [List.length_map]
  cases sumMeans (merged.map (qtNode.deref
      (.node region ul ur ll lr merged isMerged mean variance))) 0 with
  | error e => rfl
  | ok s =>
    simp only [bind, Except.bind]
    exact paintAll_congr _ _ _ img hg

/-- On a node of a merged split tree whose group has two or more members and whose
lower-left flag is false, `draw` changes no sample of the region of the lower-left child. -/
theorem lower_left_untouched (region : Rect) (ul ur ll lr : qtNode) (merged : List Ref)
    (isMerged : Flags) (mean variance : ℚ)
    (hgeo : (qtNode.node region ul ur ll lr merged isMerged mean variance).All splitGeometry)
    (hshape : mergeShape (.node region ul ur ll lr merged isMerged mean variance))
    (hlen : 2 ≤ merged.length) (hflag : isMerged.at low_left = false)
    (img out : Mat)
    (h : draw img (.node region ul ur ll lr merged isMerged mean variance) = .ok out)
    (r c : Int) (hc : ll.region.contains r c) : out.px r c = img.px r c := by
  obtain ⟨hg, g1, g2, g3, g4⟩ := hgeo
  obtain ⟨hw, hh, hq⟩ := hg
  rcases hq with hl | ⟨_, hq⟩
  · have := hl.2.2.1
    simp only [qtNode.lowerLeft, qtNode.deref] at this
    subst this
    simp only [qtNode.region, Rect.contains] at hc
    omega
  · obtain ⟨_, _, _, _, e1, e2, e3, e4⟩ := hq
    simp only [qtNode.upperLeft, qtNode.upperRight, qtNode.lowerLeft, qtNode.lowerRight,
      qtNode.deref, region_node] at e1 e2 e3 e4
    simp only [region_node] at hw hh
    rw [e3] at hc
    have o1 : ¬ ul.region.contains r c := by
      rw [e1]; unfold Rect.contains at hc ⊢; simp only at hc ⊢; omega
    have o2 : ¬ ur.region.contains r c := by
      rw [e2]; unfold Rect.contains at hc ⊢; simp only at hc ⊢; omega
    have o4 : ¬ lr.region.contains r c := by
      rw [e4]; unfold Rect.contains at hc ⊢; simp only at hc ⊢; omega
    have j1 := fun img out hd => draw_frame ul g1 img out r c hd
    have j2 := fun img out hd => draw_frame ur g2 img out r c hd
    have j4 := fun img out hd => draw_frame lr g4 img out r c hd
    rw [draw_group_eq img region ul ur ll lr merged isMerged mean variance hlen] at h
    obtain ⟨i0, h0, h⟩ := bind_eq_ok.mp h
    obtain ⟨i1, h1, h⟩ := bind_eq_ok.mp h
    obtain ⟨i2, h2, h⟩ := bind_eq_ok.mp h
    obtain ⟨i3, h3, h⟩ := bind_eq_ok.mp h
    have hp : i0.px r c = img.px r c := by
      unfold drawPaint at h0
      obtain ⟨s, _, h0⟩ := bind_eq_ok.mp h0
      apply (paintAll_px _ _ _ _ h0).2 r c
      intro member hmem hcm
      simp only [qtNode.merged, List.mem_map] at hmem
      obtain ⟨q, hq, rfl⟩ := hmem
      unfold mergeShape at hshape
      simp only [qtNode.merged, qtNode.isMerged] at hshape
      rcases hshape with ⟨hm, _⟩ | ⟨_, hf⟩ | ⟨hm, _⟩ | ⟨hm, _⟩ | ⟨_, hf⟩ | ⟨hm, _⟩
      · rw [hm] at hlen; simp at hlen
      · rw [hf] at hflag; simp [Flags.at, low_left] at hflag
      · rw [hm] at hq
        simp only [List.mem_cons, List.mem_singleton, List.not_mem_nil, or_false] at hq
        rcases hq with rfl | rfl
        · exact o1 hcm
        · exact o2 hcm
      · rw [hm] at hq
        simp only [List.mem_cons, List.mem_singleton, List.not_mem_nil, or_false] at hq
        rcases hq with rfl | rfl
        · exact o2 hcm
        · exact o4 hcm
      · rw [hf] at hflag; simp [Flags.at, low_left] at hflag
      · rw [hm] at hlen; simp at hlen
    rw [draw_cond_frame j1 o1 h, draw_cond_frame j4 o4 h3, draw_cond_frame j2 o2 h2,
      draw_cond_frame j1 o1 h1, hp]

/-- C25 (the lower-left quadrant is skipped by `draw`).  After `split` and `merge`, at every
node whose group has two or more members and whose lower-left flag is false, `draw` recurses
into the upper-left child in place of the lower-left child, its result does not depend on
the subtree of the lower-left child, and every sample of the region of the lower-left child
has the same value after `draw` on that node as before. -/
theorem draw_lower_left_skipped (img0 : Mat) (region : Rect) (samTH : ℚ) (minRegSize : Int)
    (t t1 : qtNode) (h : split img0 region samTH minRegSize = .ok t)
    (hm : merge t samTH minRegSize = .ok t1) :
    t1.All (fun n => 2 ≤ n.merged.length → n.isMerged.at low_left = false →
      lowerLeftSkipped n) := by
  have hgeo := qtNode.All_self t1 (merged_geometry img0 region samTH minRegSize t t1 h hm)
  have hshape := merge_fresh_shape_all samTH minRegSize t t1
    (fresh_of_erase t (split_erase img0 region samTH minRegSize t h)) hm
  refine qtNode.All_imp ?_ t1 (qtNode.All_and t1 hgeo hshape)
  intro n hn hlen hflag img
  cases n with
  | null => simp [qtNode.merged] at hlen
  | node nregion ul ur ll lr merged isMerged mean variance =>
    simp only [qtNode.merged] at hlen
    simp only [qtNode.isMerged] at hflag
    refine ⟨?_, ?_, ?_⟩
    · rw [draw_group_eq img nregion ul ur ll lr merged isMerged mean variance hlen]
      simp only [qtNode.isMerged, qtNode.upperLeft, qtNode.upperRight, qtNode.lowerRight,
        qtNode.deref, hflag, Bool.not_false, if_true]
    · intro ll1 hr hmean
      simp only [qtNode.lowerLeft, qtNode.deref] at hr hmean
      simp only [qtNode.setLowerLeft]
      rw [draw_group_eq img nregion ul ur ll1 lr merged isMerged mean variance hlen,
        draw_group_eq img nregion ul ur ll lr merged isMerged mean variance hlen,
        drawPaint_setLowerLeft img nregion ul ur ll lr ll1 merged isMerged mean variance hr
          hmean]
    · intro out hd r c hc
      simp only [qtNode.lowerLeft, qtNode.deref] at hc
      exact lower_left_untouched nregion ul ur ll lr merged isMerged mean variance hn.1 hn.2
        hlen hflag img out hd r c hc

/-- A concrete instance: the tree of `skipRaster` with threshold 0 and minimum size 1, whose
root has the group of its upper-right and lower-right children and a false lower-left
flag. -/
theorem draw_lower_left_skipped_witness :
    (split skipRaster ⟨0, 0, 4, 4⟩ 0 1 = .ok skipTree ∧
      merge skipTree 0 1 = .ok (mergeOrNull skipTree 0 1) ∧
      (mergeOrNull skipTree 0 1).merged.length = 2 ∧
      (mergeOrNull skipTree 0 1).isMerged.at low_left = false) ∧
    (mergeOrNull skipTree 0 1).All (fun n => 2 ≤ n.merged.length →
      n.isMerged.at low_left = false → lowerLeftSkipped n) :=
  ⟨by decide!, draw_lower_left_skipped skipRaster ⟨0, 0, 4, 4⟩ 0 1 skipTree
    (mergeOrNull skipTree 0 1) (by decide!) (by decide!)⟩

/-- C21 (draw recursion), evaluated where it fails: for the merged tree of `skipRaster`
(threshold 0, minimum size 1) the group of the root has two members and the lower-left flag
is false; `draw` on the lower-left child alone would set the sample in row 2, column 1 to 0,
but `draw` on the root leaves it at 2, and gives the same raster when the lower-left child
is replaced by a node without children: the lower-left quadrant is not drawn into its own
child. -/
theorem draw_recursion_misses_lower_left :
    (mergeOrNull skipTree 0 1).merged = [Ref.upper_right, Ref.lower_right] ∧
    (mergeOrNull skipTree 0 1).isMerged = ⟨false, true, true, false⟩ ∧
    (draw skipRaster (mergeOrNull skipTree 0 1).lowerLeft).map Mat.toLists =
      .ok [[0, 2, 100, 100], [0, 0, 100, 100], [0, 0, 0, 0], [0, 0, 0, 0]] ∧
    (draw skipRaster (mergeOrNull skipTree 0 1)).map Mat.toLists =
      .ok [[0, 0, 50, 50], [0, 0, 50, 50], [0, 2, 50, 50], [0, 0, 50, 50]] ∧
    (draw skipRaster ((mergeOrNull skipTree 0 1).setLowerLeft
      (freshLeaf ⟨0, 2, 2, 2⟩ (1 / 2) (3 / 4)))).map Mat.toLists =
      .ok [[0, 0, 50, 50], [0, 0, 50, 50], [0, 2, 50, 50], [0, 0, 50, 50]] := by
  decide!

/-- With minimum size 0 and a negative threshold a region of one pixel is divided into
children of width 0, on which the statistics primitive fails. -/
theorem split_empty_child_example :
    split tinyRaster ⟨0, 0, 1, 1⟩ (-1) 0 = .error .cvAssert := by
  decide!

/-- C33 (no empty regions).  For a root region of width and height 1 or more and a minimum
size of 1 or more, every node of the tree that `split` returns has width and height 1 or
more, and at every node the statistics primitive was applied to a sub-matrix with rows and
columns and returned the statistics stored in the node; when the root region lies within
the raster, `split` does return a tree (no call of the statistics primitive fails). -/
theorem split_no_empty_region (img : Mat) (region : Rect) (samTH : ℚ) (minRegSize : Int)
    (hw : 1 ≤ region.width) (hh : 1 ≤ region.height) (hmin : 1 ≤ minRegSize) :
    (∀ t : qtNode, split img region samTH minRegSize = .ok t →
      t.All (fun n => 1 ≤ n.region.width ∧ 1 ≤ n.region.height ∧
        ∃ sub : Mat, img.roi n.region = .ok sub ∧ 0 < sub.rows ∧ 0 < sub.cols ∧
          meanStdDev sub = .ok (n.mean, n.variance))) ∧
    (img.roiValid region → ∃ t : qtNode, split img region samTH minRegSize = .ok t) := by
  constructor
  · intro t h
    refine qtNode.All_imp ?_ t (split_root img region samTH minRegSize t h).2.2
    intro n hn
    obtain ⟨_, hw1, hh1⟩ := regionStats_ok hn
    refine ⟨by omega, by omega, ?_⟩
    unfold regionStats at hn
    obtain ⟨sub, hsub, hst⟩ := bind_eq_ok.mp hn
    refine ⟨sub, hsub, ?_, ?_, hst⟩
    · unfold meanStdDev at hst
      by_cases h0 : sub.rows = 0 ∨ sub.cols = 0
      · rw [if_pos h0] at hst; cases hst
      · omega
    · unfold meanStdDev at hst
      by_cases h0 : sub.rows = 0 ∨ sub.cols = 0
      · rw [if_pos h0] at hst; cases hst
      · omega
  · intro hv
    exact splitFuel_total img samTH minRegSize hmin (region.width.toNat + 1) region
      (by omega) hv (by omega) (by omega)

/-- A concrete instance: the 4x4 quadrant raster with threshold 0 and minimum size 1. -/
theorem split_no_empty_region_witness :
    ((1 : Int) ≤ 4 ∧ (1 : Int) ≤ 1 ∧ quadrantRaster.roiValid ⟨0, 0, 4, 4⟩ ∧
      split quadrantRaster ⟨0, 0, 4, 4⟩ 0 1 = .ok quadrantTree) ∧
    quadrantTree.All (fun n => 1 ≤ n.region.width ∧ 1 ≤ n.region.height ∧
      ∃ sub : Mat, quadrantRaster.roi n.region = .ok sub ∧ 0 < sub.rows ∧ 0 < sub.cols ∧
        meanStdDev sub = .ok (n.mean, n.variance)) :=
  ⟨by decide!, (split_no_empty_region quadrantRaster ⟨0, 0, 4, 4⟩ 0 1 (by decide) (by decide)
    (by decide)).1 quadrantTree (by decide!)⟩

/-- The tiling invariant of `split` on a region whose width and height are powers of two:
nodes with children have even width and height, every pixel lies in exactly one leaf region
when it lies in the region and in none otherwise, and the leaf areas add up to the area. -/
theorem split_pow_two_invariant (img : Mat) (samTH : ℚ) (minRegSize : Int)
    (hmin : 1 ≤ minRegSize) (region : Rect) (t : qtNode)
    (h : split img region samTH minRegSize = .ok t) :
    t.isNull = false ∧
    ∀ a b : Nat, region.width = 2 ^ a → region.height = 2 ^ b →
      t.All (fun n => ¬ n.isLeaf → n.region.width % 2 = 0 ∧ n.region.height % 2 = 0) ∧
      (∀ r c : Int, t.leafRegions.countP (fun leaf => decide (leaf.contains r c)) =
        if region.contains r c then 1 else 0) ∧
      (t.leafRegions.map Rect.area).sum = region.area := by
  refine split_induct img samTH minRegSize
    (fun region t => t.isNull = false ∧
      ∀ a b : Nat, region.width = 2 ^ a → region.height = 2 ^ b →
        t.All (fun n => ¬ n.isLeaf → n.region.width % 2 = 0 ∧ n.region.height % 2 = 0) ∧
        (∀ r c : Int, t.leafRegions.countP (fun leaf => decide (leaf.contains r c)) =
          if region.contains r c then 1 else 0) ∧
        (t.leafRegions.map Rect.area).sum = region.area) ?_ ?_ region t h
  · intro region st _ _
    refine ⟨rfl, ?_⟩
    intro a b _ _
    refine ⟨⟨fun hnl => absurd ⟨rfl, rfl, rfl, rfl⟩ hnl, trivial, trivial, trivial, trivial⟩,
      ?_, ?_⟩
    · intro r c
      simp [qtNode.leafRegions, qtNode.isNull, List.countP_cons]
    · simp [qtNode.leafRegions, qtNode.isNull]
  · intro region st ul ur ll lr _ hdiv _ iul iur ill ilr
    refine ⟨rfl, ?_⟩
    intro a b hwa hhb
    simp only [regionIsDivisible, Bool.and_eq_true, decide_eq_true_eq] at hdiv
    obtain ⟨a1, rfl⟩ : ∃ a1, a = a1 + 1 := by
      cases a with
      | zero => simp at hwa; omega
      | succ a1 => exact ⟨a1, rfl⟩
    obtain ⟨b1, rfl⟩ : ∃ b1, b = b1 + 1 := by
      cases b with
      | zero => simp at hhb; omega
      | succ b1 => exact ⟨b1, rfl⟩
    have hW : (0 : Int) < 2 ^ a1 := by positivity
    have hH : (0 : Int) < 2 ^ b1 := by positivity
    have hw2 : region.width = 2 * 2 ^ a1 := by rw [hwa]; ring
    have hh2 : region.height = 2 * 2 ^ b1 := by rw [hhb]; ring
    have tw : Int.tdiv region.width 2 = 2 ^ a1 := by
      rw [tdiv_two_of_nonneg (by omega)]; omega
    have th : Int.tdiv region.height 2 = 2 ^ b1 := by
      rw [tdiv_two_of_nonneg (by omega)]; omega
    rw [tw, th] at iul iur ill ilr
    obtain ⟨nul, iul⟩ := iul
    obtain ⟨_, iur⟩ := iur
    obtain ⟨_, ill⟩ := ill
    obtain ⟨_, ilr⟩ := ilr
    obtain ⟨aul, cul, sul⟩ := iul a1 b1 rfl rfl
    obtain ⟨aur, cur, sur⟩ := iur a1 b1 rfl rfl
    obtain ⟨all, cll, sll⟩ := ill a1 b1 rfl rfl
    obtain ⟨alr, clr, slr⟩ := ilr a1 b1 rfl rfl
    refine ⟨⟨fun _ => ?_, aul, aur, all, alr⟩, ?_, ?_⟩
    · simp only [region_node]
      omega
    · intro r c
      rw [leafRegions_node_of_not_null _ _ _ _ _ _ _ _ _ nul]
      simp only [List.countP_append]
      rw [cul r c, cur r c, cll r c, clr r c]
      simp only [Rect.contains]
      split_ifs <;> omega
    · rw [leafRegions_node_of_not_null _ _ _ _ _ _ _ _ _ nul]
      simp only [List.map_append, List.sum_append, sul, sur, sll, slr, Rect.area]
      rw [hw2, hh2]
      ring

/-- C32 (exact tiling for power-of-two regions).  When the width and the height of the root
region are powers of two and the minimum size is 1 or more, every node with children of
the tree that `split` returns has even width and height, every pixel of the root region
lies in exactly one leaf region, and the areas of the leaf regions add up to the area of the
root region. -/
theorem split_power_of_two_tiling (img : Mat) (region : Rect) (samTH : ℚ) (minRegSize : Int)
    (t : qtNode) (a b : Nat) (hw : region.width = 2 ^ a) (hh : region.height = 2 ^ b)
    (hmin : 1 ≤ minRegSize) (h : split img region samTH minRegSize = .ok t) :
    t.All (fun n => ¬ n.isLeaf → n.region.width % 2 = 0 ∧ n.region.height % 2 = 0) ∧
    (∀ r c : Int, region.contains r c →
      t.leafRegions.countP (fun leaf => decide (leaf.contains r c)) = 1) ∧
    (t.leafRegions.map Rect.area).sum = region.area := by
  obtain ⟨ha, hc, hs⟩ :=
    (split_pow_two_invariant img samTH minRegSize hmin region t h).2 a b hw hh
  refine ⟨ha, ?_, hs⟩
  intro r c hrc
  rw [hc r c, if_pos hrc]

/-- A concrete instance: the 4x4 raster `skipRaster` with threshold 0 and minimum size 1,
whose tree has leaves of size 2x2 and 1x1. -/
theorem split_power_of_two_tiling_witness :
    (((4 : Int) = 2 ^ 2 ∧ (1 : Int) ≤ 1 ∧ split skipRaster ⟨0, 0, 4, 4⟩ 0 1 = .ok skipTree) ∧
      skipTree.leafRegions.length = 10) ∧
    (skipTree.All (fun n => ¬ n.isLeaf → n.region.width % 2 = 0 ∧ n.region.height % 2 = 0) ∧
      (∀ r c : Int, (⟨0, 0, 4, 4⟩ : Rect).contains r c →
        skipTree.leafRegions.countP (fun leaf => decide (leaf.contains r c)) = 1) ∧
      (skipTree.leafRegions.map Rect.area).sum = Rect.area ⟨0, 0, 4, 4⟩) :=
  ⟨by decide!, split_power_of_two_tiling skipRaster ⟨0, 0, 4, 4⟩ 0 1 skipTree 2 2 (by decide)
    (by decide) (by decide) (by decide!)⟩

/-- Erasing the annotations keeps the stored mean. -/
theorem erase_mean (c : qtNode) : c.eraseAnnotations.mean = c.mean := by
  cases c <;> rfl

/-- Erasing the annotations keeps the stored variance. -/
theorem erase_variance (c : qtNode) : c.eraseAnnotations.variance = c.variance := by
  cases c <;> rfl

/-- A property that does not look at the annotations holds at every node of a tree when it
holds at every node of the tree without annotations. -/
theorem All_of_erase {P : qtNode → Prop} (hP : ∀ n : qtNode, P n.eraseAnnotations → P n) :
    ∀ t : qtNode, t.eraseAnnotations.All P → t.All P := by
  intro t
  induction t with
  | null => intro _; trivial
  | node region ul ur ll lr merged isMerged mean variance iul iur ill ilr =>
    intro h
    simp only [qtNode.eraseAnnotations, qtNode.All] at h
    exact ⟨hP _ h.1, iul h.2.1, iur h.2.2.1, ill h.2.2.2.1, ilr h.2.2.2.2⟩

/-- After `split` and `merge` every node still stores the statistics of its region. -/
theorem merged_stats (img : Mat) (region : Rect) (samTH : ℚ) (minRegSize : Int)
    (t t1 : qtNode) (samTH1 : ℚ) (minRegSize1 : Int)
    (h : split img region samTH minRegSize = .ok t)
    (hm : merge t samTH1 minRegSize1 = .ok t1) :
    t1.All (fun n => regionStats img n.region = .ok (n.mean, n.variance)) := by
  apply All_of_erase
  · intro n hn
    rw [erase_region, erase_mean, erase_variance] at hn
    exact hn
  · rw [merge_erase samTH1 minRegSize1 t t1 hm, split_erase img region samTH minRegSize t h]
    exact (split_root img region samTH minRegSize t h).2.2

/-- A property of every node of a tree holds at every child that exists. -/
theorem deref_All {P : qtNode → Prop} {n : qtNode} (h : n.All P) (q : Ref)
    (hq : (n.deref q).isNull = false) : P (n.deref q) := by
  cases n with
  | null => simp [qtNode.deref, qtNode.isNull] at hq
  | node region ul ur ll lr merged isMerged mean variance =>
    obtain ⟨h0, h1, h2, h3, h4⟩ := h
    cases q with
    | self => exact h0
    | upper_left => exact qtNode.All_root hq h1
    | upper_right => exact qtNode.All_root hq h2
    | lower_left => exact qtNode.All_root hq h3
    | lower_right => exact qtNode.All_root hq h4

/-- Every element of the sample list of a matrix is the sample of a row and a column of the matrix. -/
theorem mem_pixels {src : Mat} {v : Nat} (hv : v ∈ src.pixels) :
    ∃ r : Nat, r < src.rows ∧ ∃ c : Nat, c < src.cols ∧ src.px (r : Int) (c : Int) = v := by
  unfold Mat.pixels at hv
  simp only [List.mem_flatMap, List.mem_map, List.mem_range] at hv
  obtain ⟨r, hr, c, hc, rfl⟩ := hv
  exact ⟨r, hr, c, hc, rfl⟩

/-- The mean of a region of a raster of 8-bit samples lies between 0 and 255. -/
theorem regionStats_mean_range {img : Mat} {region : Rect} {st : ℚ × ℚ}
    (h8 : ∀ r : Nat, r < img.rows → ∀ c : Nat, c < img.cols →
      img.px (r : Int) (c : Int) ≤ 255)
    (h : regionStats img region = .ok st) : 0 ≤ st.1 ∧ st.1 ≤ 255 := by
  obtain ⟨hv, hw, hh⟩ := regionStats_ok h
  unfold regionStats Mat.roi at h
  rw [if_pos hv] at h
  simp only [bind, Except.bind] at h
  unfold meanStdDev at h
  split_ifs at h with h0
  simp only [Except.ok.injEq] at h
  rw [← h]
  simp only
  set sub : Mat := ⟨region.height.toNat, region.width.toNat,
    fun r c => img.px (region.y + r) (region.x + c)⟩ with hsub
  have hle : sub.pixels.sum ≤ sub.pixels.length * 255 := by
    have := List.sum_le_card_nsmul sub.pixels 255 (by
      intro v hvm
      obtain ⟨r, hr, c, hc, rfl⟩ := mem_pixels hvm
      simp only [hsub] at hr hc ⊢
      obtain ⟨hx, _, hxw, hy, _, hyh⟩ := hv
      have e1 : region.y + (r : Int) = ((region.y + r).toNat : Int) := by omega
      have e2 : region.x + (c : Int) = ((region.x + c).toNat : Int) := by omega
      rw [e1, e2]
      exact h8 _ (by omega) _ (by omega))
    simpa [smul_eq_mul] using this
  rw [pixels_length] at hle
  have hpos : (0 : ℚ) < ((sub.rows * sub.cols : Nat) : ℚ) := by
    have : 0 < sub.rows * sub.cols := by
      simp only [hsub]
      exact Nat.mul_pos (by omega) (by omega)
    exact_mod_cast this
  constructor
  · exact div_nonneg (by exact_mod_cast Nat.zero_le _) hpos.le
  · rw [div_le_iff₀ hpos]
    exact_mod_cast (by omega : sub.pixels.sum ≤ 255 * (sub.rows * sub.cols))

/-- The first loop of `draw` returns the sum of the stored means when every merged node exists. -/
theorem sumMeans_total : ∀ (members : List qtNode) (acc : ℚ),
    (∀ m ∈ members, m.isNull = false) →
    sumMeans members acc = .ok (doubleSum (members.map qtNode.mean) acc) := by
  intro members
  induction members with
  | nil => intro acc _; simp [sumMeans, doubleSum]
  | cons m rest ih =>
    intro acc hall
    have hm := hall m (List.mem_cons_self _ _)
    cases m with
    | null => simp [qtNode.isNull] at hm
    | node region ul ur ll lr merged isMerged mean variance =>
      simp only [sumMeans, qtNode.getMean, bind, Except.bind]
      rw [ih _ (fun x hx => hall x (List.mem_cons_of_mem _ hx))]
      simp only [List.map_cons, qtNode.mean, doubleSum]

/-- The conversion `(int)` of a value between -1 and 256, both excluded, is an integer
between 0 and 255. -/
theorem truncToInt_range {q : ℚ} (h1 : -1 < q) (h2 : q < 256) :
    0 ≤ truncToInt q ∧ truncToInt q ≤ 255 := by
  by_cases h0 : 0 ≤ q
  · rw [truncToInt_of_nonneg h0]
    refine ⟨Int.floor_nonneg.mpr h0, ?_⟩
    have : ⌊q⌋ < 256 := Int.floor_lt.mpr (by exact_mod_cast h2)
    omega
  · have hneg : q < 0 := not_le.mp h0
    have hnum : q.num < 0 := Rat.num_neg.mpr hneg
    have hden : (0 : ℚ) < (q.den : ℚ) := by exact_mod_cast q.den_pos
    have hlt : -(q.den : Int) < q.num := by
      have hq : ((q.num : ℚ)) / (q.den : ℚ) = q := Rat.num_div_den q
      have : -(q.den : ℚ) < (q.num : ℚ) := by
        have h3 : -1 < (q.num : ℚ) / (q.den : ℚ) := by rw [hq]; exact h1
        rw [lt_div_iff₀ hden] at h3
        linarith
      exact_mod_cast this
    have hz : truncToInt q = 0 := by
      unfold truncToInt
      have e : q.num = -(-q.num) := by omega
      rw [e, Int.neg_tdiv, Int.tdiv_eq_zero_of_lt (by omega) (by omega)]
      rfl
    rw [hz]
    omega

/-- The average of rationals between 0 and 255 lies between 0 and 255. -/
theorem average_range (l : List ℚ) (hne : l ≠ []) (h : ∀ x ∈ l, 0 ≤ x ∧ x ≤ 255) :
    0 ≤ l.sum / (l.length : ℚ) ∧ l.sum / (l.length : ℚ) ≤ 255 := by
  have hpos : (0 : ℚ) < (l.length : ℚ) := by
    have : 0 < l.length := List.length_pos.mpr hne
    exact_mod_cast this
  constructor
  · exact div_nonneg (List.sum_nonneg fun x hx => (h x hx).1) hpos.le
  · rw [div_le_iff₀ hpos]
    have := List.sum_le_card_nsmul l 255 fun x hx => (h x hx).2
    simpa [nsmul_eq_mul, mul_comm] using this

/-- The running sum of `draw` over at most four means between 0 and 255 differs from the
exact sum by less than the rounding errors of its additions add up to. -/
theorem doubleSum_error : ∀ (l : List ℚ) (acc A : ℚ) (n : Nat),
    (∀ x ∈ l, 0 ≤ x ∧ x ≤ 255) → 0 ≤ A → A + 255 * (l.length : ℚ) ≤ 1020 →
    |acc - A| ≤ (n : ℚ) / 2 ^ 43 → n + 2 * l.length ≤ 8 →
    |doubleSum l acc - (A + l.sum)| ≤ ((n + 2 * l.length : Nat) : ℚ) / 2 ^ 43 := by
  intro l
  induction l with
  | nil =>
    intro acc A n _ _ _ hacc _
    simpa [doubleSum] using hacc
  | cons x rest ih =>
    intro acc A n hx hA hsum hacc hn
    have hx0 := hx x (List.mem_cons_self _ _)
    simp only [List.length_cons, Nat.cast_add, Nat.cast_one] at hsum hn
    have hlen : (0 : ℚ) ≤ (rest.length : ℚ) := Nat.cast_nonneg _
    have hnq : (n : ℚ) ≤ 6 := by
      have : n ≤ 6 := by omega
      exact_mod_cast this
    have hn0 : (0 : ℚ) ≤ (n : ℚ) := Nat.cast_nonneg _
    have hm := toDouble_error_small x (by rw [abs_le]; constructor <;> linarith [hx0.1, hx0.2])
    rw [abs_le] at hm hacc
    have hd : (0 : ℚ) < 1 / 2 ^ 43 := by positivity
    have hd1 : (1 : ℚ) / 2 ^ 43 ≤ 1 / 8 := by norm_num
    have hnd : (n : ℚ) / 2 ^ 43 = (n : ℚ) * (1 / 2 ^ 43) := by ring
    rw [hnd] at hacc
    have hnd6 : (n : ℚ) * (1 / 2 ^ 43) ≤ 6 * (1 / 2 ^ 43) :=
      mul_le_mul_of_nonneg_right hnq hd.le
    have hnd0 : 0 ≤ (n : ℚ) * (1 / 2 ^ 43) := mul_nonneg hn0 hd.le
    have hs := toDouble_error_small (acc + toDouble x) (by
      rw [abs_le]; constructor <;> linarith [hx0.1, hx0.2])
    rw [abs_le] at hs
    have hstep : |toDouble (acc + toDouble x) - (A + x)| ≤ ((n + 2 : Nat) : ℚ) / 2 ^ 43 := by
      rw [abs_le]
      push_cast
      constructor <;> linarith
    have h := ih (toDouble (acc + toDouble x)) (A + x) (n + 2)
      (fun y hy => hx y (List.mem_cons_of_mem _ hy)) (by linarith [hx0.1])
      (by linarith [hx0.2]) hstep (by omega)
    simp only [doubleSum, List.sum_cons, List.length_cons]
    have e1 : A + (x + rest.sum) = A + x + rest.sum := by ring
    have e2 : n + 2 * (rest.length + 1) = n + 2 + 2 * rest.length := by ring
    rw [e1, e2]
    exact h

/-- The value `regionValue` of `draw` for at most four means between 0 and 255 differs from
their exact average by `9 / 2 ^ 43` at most. -/
theorem regionValueOf_error (l : List ℚ) (hne : l ≠ []) (hlen : l.length ≤ 4)
    (h : ∀ x ∈ l, 0 ≤ x ∧ x ≤ 255) :
    |regionValueOf l - l.sum / (l.length : ℚ)| ≤ 9 / 2 ^ 43 := by
  have hk1 : 1 ≤ l.length := List.length_pos.mpr hne
  have hkq : (1 : ℚ) ≤ (l.length : ℚ) := by exact_mod_cast hk1
  have hk4 : (l.length : ℚ) ≤ 4 := by exact_mod_cast hlen
  have hkpos : (0 : ℚ) < (l.length : ℚ) := by linarith
  have hs := doubleSum_error l 0 0 0 h le_rfl (by linarith) (by simp) (by omega)
  simp only [zero_add, Nat.cast_mul, Nat.cast_ofNat] at hs
  have hs8 : |doubleSum l 0 - l.sum| ≤ 8 / 2 ^ 43 := by
    refine hs.trans ?_
    apply div_le_div_of_nonneg_right _ (by positivity)
    linarith
  have havg : |doubleSum l 0 / (l.length : ℚ) - l.sum / (l.length : ℚ)| ≤ 8 / 2 ^ 43 := by
    rw [← sub_div, abs_div, abs_of_pos hkpos]
    calc |doubleSum l 0 - l.sum| / (l.length : ℚ) ≤ |doubleSum l 0 - l.sum| / 1 :=
          div_le_div_of_nonneg_left (abs_nonneg _) (by norm_num) hkq
      _ = |doubleSum l 0 - l.sum| := div_one _
      _ ≤ 8 / 2 ^ 43 := hs8
  obtain ⟨r0, r1⟩ := average_range l hne h
  rw [abs_le] at havg
  have hd := toDouble_error_small (doubleSum l 0 / (l.length : ℚ)) (by
    rw [abs_le]
    have : (8 : ℚ) / 2 ^ 43 ≤ 1 := by norm_num
    constructor <;> linarith)
  rw [abs_le] at hd
  unfold regionValueOf
  rw [Int.cast_natCast, abs_le]
  have e9 : (9 : ℚ) / 2 ^ 43 = 8 / 2 ^ 43 + 1 / 2 ^ 43 := by norm_num
  rw [e9]
  constructor <;> linarith

/-- The painting step of `draw` writes the value of the group. -/
theorem drawPaint_eq_groupValue (img : Mat) (n : qtNode) :
    drawPaint img n = (groupValue n >>= fun v => paintAll img (n.merged.map n.deref) v) := by
  unfold drawPaint groupValue groupAverage
  cases sumMeans (n.merged.map n.deref) 0 <;> rfl

/-- After `split` and `merge` with the same parameters every member of every group exists. -/
theorem merged_members_exist (img : Mat) (region : Rect) (samTH : ℚ) (minRegSize : Int)
    (t t1 : qtNode) (h : split img region samTH minRegSize = .ok t)
    (hm : merge t samTH minRegSize = .ok t1) :
    t1.All (fun n => ∀ q ∈ n.merged, (n.deref q).isNull = false) := by
  have hiff := split_children_iff img region samTH minRegSize t h
  have hfresh := fresh_of_erase t (split_erase img region samTH minRegSize t h)
  have hall := merge_members_leaves_aux samTH minRegSize t t1
    (qtNode.All_imp (fun n hn => ⟨hn.1.2, hn.2.1, hn.2.2⟩) t (qtNode.All_and t hiff hfresh)) hm
  exact qtNode.All_imp (fun n hn q hq => (hn q hq).1) t1 hall

/-- After `split` and `merge` every member of every group stores the statistics of its
region. -/
theorem merged_member_stats (img : Mat) (region : Rect) (samTH : ℚ) (minRegSize : Int)
    (t t1 : qtNode) (h : split img region samTH minRegSize = .ok t)
    (hm : merge t samTH minRegSize = .ok t1) :
    t1.All (fun n => ∀ q ∈ n.merged, (n.deref q).isNull = false ∧
      regionStats img (n.deref q).region = .ok ((n.deref q).mean, (n.deref q).variance)) := by
  have hex := merged_members_exist img region samTH minRegSize t t1 h hm
  have hst := qtNode.All_self t1 (merged_stats img region samTH minRegSize t t1 samTH
    minRegSize h hm)
  refine qtNode.All_imp ?_ t1 (qtNode.All_and t1 hex hst)
  intro n hn q hq
  exact ⟨hn.1 q hq, deref_All hn.2 q (hn.1 q hq)⟩

/-- A group after `merge` on a tree without annotations has four members at most. -/
theorem mergeShape_length {n : qtNode} (h : mergeShape n) : n.merged.length ≤ 4 := by
  unfold mergeShape at h
  rcases h with ⟨hm, _⟩ | ⟨hm, _⟩ | ⟨hm, _⟩ | ⟨hm, _⟩ | ⟨hm, _⟩ | ⟨hm, _⟩ <;>
    rw [hm] <;> decide

/-- The value that `draw` computes for a group after `split` and `merge` on a raster of
samples in 0..255: the running sum of the first loop exists, the exact average of the means
lies between 0 and 255, and the `double` that `draw` computes differs from it by
`9 / 2 ^ 43` at most. -/
theorem group_value_facts (img : Mat) (region : Rect) (samTH : ℚ) (minRegSize : Int)
    (t t1 : qtNode)
    (h8 : ∀ r : Nat, r < img.rows → ∀ c : Nat, c < img.cols →
      img.px (r : Int) (c : Int) ≤ 255)
    (h : split img region samTH minRegSize = .ok t)
    (hm : merge t samTH minRegSize = .ok t1) :
    t1.All (fun n => n.merged ≠ [] →
      groupAverage n = .ok (regionValueOf ((n.merged.map n.deref).map qtNode.mean)) ∧
      |regionValueOf ((n.merged.map n.deref).map qtNode.mean) -
        ((n.merged.map n.deref).map qtNode.mean).sum / (n.merged.length : ℚ)| ≤ 9 / 2 ^ 43 ∧
      0 ≤ ((n.merged.map n.deref).map qtNode.mean).sum / (n.merged.length : ℚ) ∧
      ((n.merged.map n.deref).map qtNode.mean).sum / (n.merged.length : ℚ) ≤ 255) := by
  have hshape := merge_fresh_shape_all samTH minRegSize t t1
    (fresh_of_erase t (split_erase img region samTH minRegSize t h)) hm
  refine qtNode.All_imp ?_ t1 (qtNode.All_and t1
    (merged_member_stats img region samTH minRegSize t t1 h hm) hshape)
  intro n hn hne
  obtain ⟨hn, hsh⟩ := hn
  have hsum := sumMeans_total (n.merged.map n.deref) 0 (by
    intro m hmem
    obtain ⟨q, hq, rfl⟩ := List.mem_map.mp hmem
    exact (hn q hq).1)
  have hmeans : ∀ x ∈ (n.merged.map n.deref).map qtNode.mean, 0 ≤ x ∧ x ≤ 255 := by
    intro x hx
    obtain ⟨m, hmem, rfl⟩ := List.mem_map.mp hx
    obtain ⟨q, hq, rfl⟩ := List.mem_map.mp hmem
    exact regionStats_mean_range h8 (hn q hq).2
  have hne1 : (n.merged.map n.deref).map qtNode.mean ≠ [] := by simpa using hne
  have hrange := average_range _ hne1 hmeans
  have herr := regionValueOf_error _ hne1 (by simpa using mergeShape_length hsh) hmeans
  simp only [List.length_map] at hrange herr
  refine ⟨?_, herr, hrange.1, hrange.2⟩
  unfold groupAverage regionValueOf
  rw [hsum]
  simp only [bind, Except.bind, pure, Except.pure, List.length_map]

/-- C34 (painted values stay in the 8-bit range).  For a raster of samples in 0..255, at
every node with a non-empty group after `split` and `merge`, the integer that `draw` computes
for the group (the average of the means of the members in `double` arithmetic, converted to
an integer) exists and lies in 0..255, the conversion to an 8-bit sample leaves it unchanged,
and it is the value that the painting step of `draw` writes. -/
theorem painted_value_in_range (img : Mat) (region : Rect) (samTH : ℚ) (minRegSize : Int)
    (t t1 : qtNode)
    (h8 : ∀ r : Nat, r < img.rows → ∀ c : Nat, c < img.cols →
      img.px (r : Int) (c : Int) ≤ 255)
    (h : split img region samTH minRegSize = .ok t)
    (hm : merge t samTH minRegSize = .ok t1) :
    t1.All (fun n => n.merged ≠ [] →
      ∃ v : Int, groupValue n = .ok v ∧ 0 ≤ v ∧ v ≤ 255 ∧
        ((saturate_cast v : Nat) : Int) = v ∧
        ∀ img1 : Mat, drawPaint img1 n = paintAll img1 (n.merged.map n.deref) v) := by
  refine qtNode.All_imp ?_ t1 (group_value_facts img region samTH minRegSize t t1 h8 h hm)
  intro n hn hne
  obtain ⟨havg, herr, h0, h255⟩ := hn hne
  have hval : groupValue n =
      .ok (truncToInt (regionValueOf ((n.merged.map n.deref).map qtNode.mean))) := by
    unfold groupValue
    rw [havg]
    rfl
  rw [abs_le] at herr
  have hsmall : (9 : ℚ) / 2 ^ 43 < 1 := by norm_num
  obtain ⟨hv0, hv255⟩ := truncToInt_range
    (q := regionValueOf ((n.merged.map n.deref).map qtNode.mean)) (by linarith) (by linarith)
  refine ⟨_, hval, hv0, hv255, ?_, ?_⟩
  · unfold saturate_cast
    rw [if_neg (by omega), if_neg (by omega)]
    omega
  · intro img1
    rw [drawPaint_eq_groupValue, hval]
    rfl

/-- A concrete instance: the tree of `roundoffRaster` with threshold 1 and minimum size 1;
the group of the root is the four quadrants, whose means add up to 12 and whose average in
`double` arithmetic is just below 3, so that the value is 2. -/
theorem painted_value_in_range_witness :
    ((∀ r : Nat, r < roundoffRaster.rows → ∀ c : Nat, c < roundoffRaster.cols →
        roundoffRaster.px (r : Int) (c : Int) ≤ 255) ∧
      split roundoffRaster ⟨0, 0, 6, 6⟩ 1 1 = .ok roundoffTree ∧
      merge roundoffTree 1 1 = .ok (mergeOrNull roundoffTree 1 1) ∧
      groupValue (mergeOrNull roundoffTree 1 1) = .ok 2) ∧
    (mergeOrNull roundoffTree 1 1).All (fun n => n.merged ≠ [] →
      ∃ v : Int, groupValue n = .ok v ∧ 0 ≤ v ∧ v ≤ 255 ∧
        ((saturate_cast v : Nat) : Int) = v ∧
        ∀ img1 : Mat, drawPaint img1 n = paintAll img1 (n.merged.map n.deref) v) :=
  ⟨by decide!, painted_value_in_range roundoffRaster ⟨0, 0, 6, 6⟩ 1 1 roundoffTree
    (mergeOrNull roundoffTree 1 1) (by decide!) (by decide!) (by decide!)⟩

/-- The sum of a concatenation over a range, as a sum over the range. -/
theorem sum_flatMap_range (g : Nat → List Nat) (n : Nat) :
    ((List.range n).flatMap g).sum = ∑ i in Finset.range n, (g i).sum := by
  induction n with
  | zero => simp
  | succ n ih =>
    rw [List.range_succ, List.flatMap_append, List.sum_append, ih, Finset.sum_range_succ]
    simp

/-- The length of a concatenation over a range, as a sum over the range. -/
theorem length_flatMap_range (g : Nat → List Nat) (n : Nat) :
    ((List.range n).flatMap g).length = ∑ i in Finset.range n, (g i).length := by
  induction n with
  | zero => simp
  | succ n ih =>
    rw [List.range_succ, List.flatMap_append, List.length_append, ih, Finset.sum_range_succ]
    simp

/-- The sum of a list mapped over a range, as a sum over the range. -/
theorem sum_map_range (f : Nat → Nat) (n : Nat) :
    ((List.range n).map f).sum = ∑ i in Finset.range n, f i := by
  induction n with
  | zero => simp
  | succ n ih =>
    rw [List.range_succ, List.map_append, List.sum_append, ih, Finset.sum_range_succ]
    simp

/-- The sum over the selected indices of a range, as a sum of indicators. -/
theorem sum_filter_map_range (p : Nat → Bool) (f : Nat → Nat) (n : Nat) :
    (((List.range n).filter p).map f).sum =
      ∑ i in Finset.range n, if p i = true then f i else 0 := by
  induction n with
  | zero => simp
  | succ n ih =>
    rw [List.range_succ, List.filter_append, List.map_append, List.sum_append, ih,
      Finset.sum_range_succ]
    cases hp : p n <;> simp [List.filter, hp]

/-- The number of selected indices of a range, as a sum of indicators. -/
theorem length_filter_map_range (p : Nat → Bool) (f : Nat → Nat) (n : Nat) :
    (((List.range n).filter p).map f).length =
      ∑ i in Finset.range n, if p i = true then 1 else 0 := by
  induction n with
  | zero => simp
  | succ n ih =>
    rw [List.range_succ, List.filter_append, List.map_append, List.length_append, ih,
      Finset.sum_range_succ]
    cases hp : p n <;> simp [List.filter, hp]

/-- The sum of the samples of the union, as a double sum of indicators over the raster. -/
theorem unionPixels_sum (img : Mat) (regions : List Rect) :
    (unionPixels img regions).sum =
      ∑ r in Finset.range img.rows, ∑ c in Finset.range img.cols,
        if (regions.any fun region => decide (region.contains (r : Int) (c : Int))) = true
        then img.px (r : Int) (c : Int) else 0 := by
  unfold unionPixels
  rw [sum_flatMap_range]
  exact Finset.sum_congr rfl fun r _ => sum_filter_map_range _ _ _

/-- The number of pixels of the union, as a double sum of indicators over the raster. -/
theorem unionPixels_length (img : Mat) (regions : List Rect) :
    (unionPixels img regions).length =
      ∑ r in Finset.range img.rows, ∑ c in Finset.range img.cols,
        if (regions.any fun region => decide (region.contains (r : Int) (c : Int))) = true
        then 1 else 0 := by
  unfold unionPixels
  rw [length_flatMap_range]
  exact Finset.sum_congr rfl fun r _ => length_filter_map_range _ _ _

/-- Over rectangles that are pairwise disjoint, the indicator of the union is the sum of the
indicators. -/
theorem indicator_union (regions : List Rect) (hd : regions.Pairwise Rect.disjoint)
    (r c : Int) (g : Nat) :
    (if (regions.any fun region => decide (region.contains r c)) = true then g else 0) =
      (regions.map fun region => if region.contains r c then g else 0).sum := by
  induction regions with
  | nil => simp
  | cons a l ih =>
    rw [List.pairwise_cons] at hd
    rw [List.map_cons, List.sum_cons, ← ih hd.2]
    by_cases ha : a.contains r c
    · have hl : (l.any fun region => decide (region.contains r c)) = false := by
        rw [List.any_eq_false]
        intro b hb
        have := hd.1 b hb r c
        simp only [decide_eq_true_eq]
        exact fun hbc => this ⟨ha, hbc⟩
      simp [List.any_cons, ha, hl]
    · simp [List.any_cons, ha]

/-- A double sum over the raster of a sum over a list is the sum over the list of the double sums. -/
theorem sum_sum_list (R C : Nat) (l : List Rect) (f : Nat → Nat → Rect → Nat) :
    (∑ r in Finset.range R, ∑ c in Finset.range C, (l.map (f r c)).sum) =
      (l.map fun a => ∑ r in Finset.range R, ∑ c in Finset.range C, f r c a).sum := by
  induction l with
  | nil => simp
  | cons a l ih =>
    simp only [List.map_cons, List.sum_cons, Finset.sum_add_distrib, ih]

/-- A sum over the indices of an interval that lies within the range. -/
theorem sum_range_interval (y h : Int) (R : Nat) (hy : 0 ≤ y) (hh : 0 ≤ h) (hR : y + h ≤ R)
    (G : Int → Nat) :
    (∑ r in Finset.range R, if y ≤ (r : Int) ∧ (r : Int) < y + h then G r else 0) =
      ∑ k in Finset.range h.toNat, G (y + k) := by
  rw [← Finset.sum_filter]
  have hf : Finset.filter (fun r : Nat => y ≤ (r : Int) ∧ (r : Int) < y + h) (Finset.range R) =
      Finset.Ico y.toNat (y.toNat + h.toNat) := by
    ext r
    simp only [Finset.mem_filter, Finset.mem_range, Finset.mem_Ico]
    omega
  rw [hf, Finset.sum_Ico_eq_sum_range]
  simp only [Nat.add_sub_cancel_left]
  refine Finset.sum_congr rfl fun k _ => ?_
  congr 1
  push_cast
  omega

/-- The sum of a function over the pixels of a rectangle that lies within the raster. -/
theorem sum_rect (region : Rect) (R C : Nat)
    (hv : 0 ≤ region.x ∧ 0 ≤ region.width ∧ region.x + region.width ≤ C ∧
      0 ≤ region.y ∧ 0 ≤ region.height ∧ region.y + region.height ≤ R)
    (G : Int → Int → Nat) :
    (∑ r in Finset.range R, ∑ c in Finset.range C,
      if region.contains (r : Int) (c : Int) then G r c else 0) =
      ∑ k in Finset.range region.height.toNat, ∑ j in Finset.range region.width.toNat,
        G (region.y + k) (region.x + j) := by
  obtain ⟨hx, hw, hxw, hy, hh, hyh⟩ := hv
  have h1 : ∀ r : Nat, (∑ c in Finset.range C,
      if region.contains (r : Int) (c : Int) then G r c else 0) =
      if region.y ≤ (r : Int) ∧ (r : Int) < region.y + region.height then
        ∑ j in Finset.range region.width.toNat, G r (region.x + j) else 0 := by
    intro r
    by_cases hr : region.y ≤ (r : Int) ∧ (r : Int) < region.y + region.height
    · rw [if_pos hr, ← sum_range_interval region.x region.width C hx hw hxw (G r)]
      refine Finset.sum_congr rfl fun c _ => ?_
      simp only [Rect.contains, hr.1, hr.2, true_and]
    · rw [if_neg hr]
      apply Finset.sum_eq_zero
      intro c _
      rw [if_neg]
      unfold Rect.contains
      tauto
  simp only [h1]
  exact sum_range_interval region.y region.height R hy hh hyh
    (fun r => ∑ j in Finset.range region.width.toNat, G r (region.x + j))

/-- Over rectangles within the raster that are pairwise disjoint, the samples of the union
add up to the sum of the sums over the rectangles. -/
theorem unionPixels_sum_disjoint (img : Mat) (regions : List Rect)
    (hv : ∀ region ∈ regions, img.roiValid region)
    (hd : regions.Pairwise Rect.disjoint) :
    (unionPixels img regions).sum =
      (regions.map fun region =>
        ∑ k in Finset.range region.height.toNat, ∑ j in Finset.range region.width.toNat,
          img.px (region.y + k) (region.x + j)).sum := by
  rw [unionPixels_sum]
  simp only [indicator_union regions hd]
  rw [sum_sum_list]
  apply congrArg
  apply List.map_congr_left
  intro region hreg
  exact sum_rect region img.rows img.cols (hv region hreg) img.px

/-- Over rectangles within the raster that are pairwise disjoint, the number of pixels of
the union is the sum of the numbers of pixels of the rectangles. -/
theorem unionPixels_length_disjoint (img : Mat) (regions : List Rect)
    (hv : ∀ region ∈ regions, img.roiValid region)
    (hd : regions.Pairwise Rect.disjoint) :
    (unionPixels img regions).length =
      (regions.map fun region => region.height.toNat * region.width.toNat).sum := by
  rw [unionPixels_length]
  simp only [indicator_union regions hd]
  rw [sum_sum_list]
  apply congrArg
  apply List.map_congr_left
  intro region hreg
  rw [sum_rect region img.rows img.cols (hv region hreg) (fun _ _ => 1)]
  simp

/-- The mean over the union of disjoint rectangles of one size is the unweighted average of
the means over the rectangles. -/
theorem unionMean_equal_size (img : Mat) (regions : List Rect) (w hgt : Int)
    (hw : 0 < w) (hh : 0 < hgt) (hne : regions ≠ [])
    (hv : ∀ region ∈ regions, img.roiValid region)
    (hs : ∀ region ∈ regions, region.width = w ∧ region.height = hgt)
    (hd : regions.Pairwise Rect.disjoint) :
    (regions.map fun region =>
        (((∑ k in Finset.range region.height.toNat, ∑ j in Finset.range region.width.toNat,
          img.px (region.y + k) (region.x + j) : Nat) : ℚ)) /
        (((region.height.toNat * region.width.toNat : Nat) : ℚ))).sum /
      (regions.length : ℚ) = unionMean img regions := by
  unfold unionMean
  rw [unionPixels_sum_disjoint img regions hv hd, unionPixels_length_disjoint img regions hv hd]
  have hA : (regions.map fun region => region.height.toNat * region.width.toNat) =
      regions.map fun _ => hgt.toNat * w.toNat := by
    apply List.map_congr_left
    intro region hreg
    rw [(hs region hreg).1, (hs region hreg).2]
  have hM : (regions.map fun region =>
        (((∑ k in Finset.range region.height.toNat, ∑ j in Finset.range region.width.toNat,
          img.px (region.y + k) (region.x + j) : Nat) : ℚ)) /
        (((region.height.toNat * region.width.toNat : Nat) : ℚ))) =
      regions.map fun region =>
        (((∑ k in Finset.range region.height.toNat, ∑ j in Finset.range region.width.toNat,
          img.px (region.y + k) (region.x + j) : Nat) : ℚ)) *
        (((hgt.toNat * w.toNat : Nat) : ℚ))⁻¹ := by
    apply List.map_congr_left
    intro region hreg
    rw [(hs region hreg).1, (hs region hreg).2, div_eq_mul_inv]
  rw [hA, hM, List.sum_map_mul_right, Nat.cast_list_sum, List.map_map]
  simp only [List.map_const', List.sum_replicate, smul_eq_mul, Nat.cast_mul,
    Function.comp_def]
  have hk : (0 : ℚ) < (regions.length : ℚ) := by
    have : 0 < regions.length := List.length_pos.mpr hne
    exact_mod_cast this
  have hwq : (0 : ℚ) < (w.toNat : ℚ) := by
    have : 0 < w.toNat := by omega
    exact_mod_cast this
  have hhq : (0 : ℚ) < (hgt.toNat : ℚ) := by
    have : 0 < hgt.toNat := by omega
    exact_mod_cast this
  generalize (List.map (fun region : Rect =>
    (((∑ k in Finset.range region.height.toNat, ∑ j in Finset.range region.width.toNat,
      img.px (region.y + k) (region.x + j) : Nat) : ℚ))) regions).sum = S
  rw [div_eq_div_iff hk.ne' (mul_pos hk (mul_pos hhq hwq)).ne']
  field_simp
  ring

/-- The mean that `split` stores for a region: the sum of the samples of the region divided
by their number. -/
theorem regionStats_mean {img : Mat} {region : Rect} {st : ℚ × ℚ}
    (h : regionStats img region = .ok st) :
    st.1 = (((∑ k in Finset.range region.height.toNat,
        ∑ j in Finset.range region.width.toNat, img.px (region.y + k) (region.x + j) : Nat) : ℚ)) /
      (((region.height.toNat * region.width.toNat : Nat) : ℚ)) := by
  obtain ⟨hv, hw, hh⟩ := regionStats_ok h
  unfold regionStats Mat.roi at h
  rw [if_pos hv] at h
  simp only [bind, Except.bind] at h
  unfold meanStdDev at h
  split_ifs at h with h0
  simp only [Except.ok.injEq] at h
  rw [← h]
  simp only
  congr 2
  unfold Mat.pixels
  rw [sum_flatMap_range]
  exact Finset.sum_congr rfl fun r _ => sum_map_range _ _

/-- The regions of the members of a group after `merge` on a split tree have one size and
are pairwise disjoint. -/
theorem group_regions (n : qtNode) (hg : splitGeometry n) (hshape : mergeShape n)
    (hex : ∀ q ∈ n.merged, (n.deref q).isNull = false) :
    (∃ w hgt : Int, ∀ q ∈ n.merged,
      (n.deref q).region.width = w ∧ (n.deref q).region.height = hgt) ∧
    (n.merged.map fun q => (n.deref q).region).Pairwise Rect.disjoint := by
  cases n with
  | null => exact ⟨⟨0, 0, fun q hq => by simp [qtNode.merged] at hq⟩, List.Pairwise.nil⟩
  | node region ul ur ll lr merged isMerged mean variance =>
    simp only [qtNode.merged] at hex ⊢
    unfold mergeShape at hshape
    simp only [qtNode.merged] at hshape
    have hquad : (Ref.upper_left ∈ merged ∨ Ref.upper_right ∈ merged) →
        hasQuadrants (.node region ul ur ll lr merged isMerged mean variance) := by
      intro hmem
      rcases hg.2.2 with hl | ⟨_, hq⟩
      · exfalso
        obtain ⟨l1, l2, _, _⟩ := hl
        simp only [qtNode.upperLeft, qtNode.upperRight] at l1 l2
        rcases hmem with hm1 | hm1
        · have := hex _ hm1
          rw [l1] at this
          simp [qtNode.isNull] at this
        · have := hex _ hm1
          rw [l2] at this
          simp [qtNode.isNull] at this
      · exact hq
    rcases hshape with ⟨hm, _⟩ | ⟨hm, _⟩ | ⟨hm, _⟩ | ⟨hm, _⟩ | ⟨hm, _⟩ | ⟨hm, _⟩
    · subst hm
      refine ⟨⟨region.width, region.height, ?_⟩, ?_⟩
      · intro q hq
        simp only [List.mem_singleton] at hq
        subst hq
        exact ⟨rfl, rfl⟩
      · simp
    all_goals
      subst hm
      first
      | exact ⟨⟨0, 0, fun q hq => by simp at hq⟩, List.Pairwise.nil⟩
      | (obtain ⟨_, _, _, _, e1, e2, e3, e4⟩ := hquad (by simp)
         simp only [qtNode.upperLeft, qtNode.upperRight, qtNode.lowerLeft, qtNode.lowerRight,
           qtNode.deref, region_node] at e1 e2 e3 e4
         refine ⟨⟨region.width / 2, region.height / 2, ?_⟩, ?_⟩
         · intro q hq
           simp only [List.mem_cons, List.mem_singleton, List.not_mem_nil, or_false] at hq
           rcases hq with rfl | rfl | rfl | rfl <;>
             simp only [qtNode.deref, e1, e2, e3, e4, and_self]
         · simp only [List.map_cons, List.map_nil, qtNode.deref, e1, e2, e3, e4,
             List.pairwise_cons, List.mem_cons, List.mem_singleton, List.not_mem_nil,
             or_false, forall_eq_or_imp, forall_eq, IsEmpty.forall_iff, implies_true,
             List.Pairwise.nil, and_true, Rect.disjoint, Rect.contains]
           refine ?_
           repeat' constructor
           all_goals intro r c; omega)

/-- At a node of a merged split tree with a non-empty group, all members exist and have
regions of one positive width and height, and the exact average of their stored means is
the arithmetic mean of the samples of the raster over the union of their regions. -/
theorem exact_average_is_union_mean (img : Mat) (region : Rect) (samTH : ℚ)
    (minRegSize : Int) (t t1 : qtNode) (h : split img region samTH minRegSize = .ok t)
    (hm : merge t samTH minRegSize = .ok t1) :
    t1.All (fun n => n.merged ≠ [] →
      (∃ w hgt : Int, 0 < w ∧ 0 < hgt ∧ ∀ q ∈ n.merged, (n.deref q).isNull = false ∧
        (n.deref q).region.width = w ∧ (n.deref q).region.height = hgt) ∧
      ((n.merged.map n.deref).map qtNode.mean).sum / (n.merged.length : ℚ) =
        unionMean img (n.merged.map fun q => (n.deref q).region)) := by
  have hst := merged_member_stats img region samTH minRegSize t t1 h hm
  have hgeo := merged_geometry img region samTH minRegSize t t1 h hm
  have hshape := merge_fresh_shape_all samTH minRegSize t t1
    (fresh_of_erase t (split_erase img region samTH minRegSize t h)) hm
  refine qtNode.All_imp ?_ t1 (qtNode.All_and t1 hst (qtNode.All_and t1 hgeo hshape))
  intro n hn hne
  obtain ⟨hmem, hg, hsh⟩ := hn
  obtain ⟨⟨w, hgt, hsize⟩, hdisj⟩ := group_regions n hg hsh (fun q hq => (hmem q hq).1)
  obtain ⟨q0, hq0⟩ := List.exists_mem_of_ne_nil _ hne
  obtain ⟨_, hw0, hh0⟩ := regionStats_ok (hmem q0 hq0).2
  rw [(hsize q0 hq0).1] at hw0
  rw [(hsize q0 hq0).2] at hh0
  refine ⟨⟨w, hgt, hw0, hh0, fun q hq => ⟨(hmem q hq).1, hsize q hq⟩⟩, ?_⟩
  rw [← unionMean_equal_size img (n.merged.map fun q => (n.deref q).region) w hgt hw0 hh0
    (by simpa using hne)
    (by
      intro reg hreg
      obtain ⟨q, hq, rfl⟩ := List.mem_map.mp hreg
      exact (regionStats_ok (hmem q hq).2).1)
    (by
      intro reg hreg
      obtain ⟨q, hq, rfl⟩ := List.mem_map.mp hreg
      exact hsize q hq)
    hdisj]
  simp only [List.map_map, List.length_map]
  congr 2
  apply List.map_congr_left
  intro q hq
  exact regionStats_mean (hmem q hq).2

/-- C31 (the unweighted average is the true mean), refuted as stated: on `roundoffRaster`
with threshold 1 and minimum size 1 the group of the root is the four quadrants, with the
means 5/9, 59/9, 29/9 and 15/9; the arithmetic mean of the samples over their union, the
whole raster, is 3, and the average that `draw` computes in `double` arithmetic is
`3 - 2 ^ (-51)`, so that `draw` paints 2. -/
theorem group_average_differs_from_union_mean :
    split roundoffRaster ⟨0, 0, 6, 6⟩ 1 1 = .ok roundoffTree ∧
    merge roundoffTree 1 1 = .ok (mergeOrNull roundoffTree 1 1) ∧
    (mergeOrNull roundoffTree 1 1).merged =
      [Ref.upper_left, Ref.upper_right, Ref.lower_right, Ref.lower_left] ∧
    ((mergeOrNull roundoffTree 1 1).merged.map (mergeOrNull roundoffTree 1 1).deref).map
      qtNode.mean = [5 / 9, 59 / 9, 29 / 9, 15 / 9] ∧
    unionMean roundoffRaster ((mergeOrNull roundoffTree 1 1).merged.map
      fun q => ((mergeOrNull roundoffTree 1 1).deref q).region) = 3 ∧
    groupAverage (mergeOrNull roundoffTree 1 1) = .ok (3 - 1 / 2 ^ 51) ∧
    groupAverage (mergeOrNull roundoffTree 1 1) ≠
      .ok (unionMean roundoffRaster ((mergeOrNull roundoffTree 1 1).merged.map
        fun q => ((mergeOrNull roundoffTree 1 1).deref q).region)) ∧
    (split_and_merge roundoffRaster 1 1).map Mat.toLists =
      .ok [[2, 2, 2, 2, 2, 2], [2, 2, 2, 2, 2, 2], [2, 2, 2, 2, 2, 2], [2, 2, 2, 2, 2, 2],
        [2, 2, 2, 2, 2, 2], [2, 2, 2, 2, 2, 2]] := by
  decide!

/-- C31 (the unweighted average is the true mean), amended.  After `split` and `merge` on a
raster of samples in 0..255, at every node with a non-empty group all members exist and have
regions of one positive width and height, so that the exact unweighted average of the means
of the members is the arithmetic mean of the samples of the input raster over the union of
the regions of the members; the average that `draw` computes in `double` arithmetic, before
the conversion to an integer, differs from that mean by `9 / 2 ^ 43` at most, and the
painting step of `draw` writes it converted to an integer. -/
theorem group_average_near_union_mean (img : Mat) (region : Rect) (samTH : ℚ)
    (minRegSize : Int) (t t1 : qtNode)
    (h8 : ∀ r : Nat, r < img.rows → ∀ c : Nat, c < img.cols →
      img.px (r : Int) (c : Int) ≤ 255)
    (h : split img region samTH minRegSize = .ok t)
    (hm : merge t samTH minRegSize = .ok t1) :
    t1.All (fun n => n.merged ≠ [] →
      (∃ w hgt : Int, 0 < w ∧ 0 < hgt ∧ ∀ q ∈ n.merged, (n.deref q).isNull = false ∧
        (n.deref q).region.width = w ∧ (n.deref q).region.height = hgt) ∧
      ((n.merged.map n.deref).map qtNode.mean).sum / (n.merged.length : ℚ) =
        unionMean img (n.merged.map fun q => (n.deref q).region) ∧
      ∃ a : ℚ, groupAverage n = .ok a ∧
        |a - unionMean img (n.merged.map fun q => (n.deref q).region)| ≤ 9 / 2 ^ 43 ∧
        ∀ img1 : Mat, drawPaint img1 n = paintAll img1 (n.merged.map n.deref)
          (truncToInt a)) := by
  refine qtNode.All_imp ?_ t1 (qtNode.All_and t1
    (exact_average_is_union_mean img region samTH minRegSize t t1 h hm)
    (group_value_facts img region samTH minRegSize t t1 h8 h hm))
  intro n hn hne
  obtain ⟨hsize, hexact⟩ := hn.1 hne
  obtain ⟨havg, herr, _, _⟩ := hn.2 hne
  refine ⟨hsize, hexact, _, havg, ?_, ?_⟩
  · rw [← hexact]
    exact herr
  · intro img1
    rw [drawPaint_eq_groupValue]
    unfold groupValue
    rw [havg]
    rfl

/-- A concrete instance: the tree of `roundoffRaster` with threshold 1 and minimum size 1,
where the average that `draw` computes for the group of the root is not the mean 3 over
the union. -/
theorem group_average_near_union_mean_witness :
    ((∀ r : Nat, r < roundoffRaster.rows → ∀ c : Nat, c < roundoffRaster.cols →
        roundoffRaster.px (r : Int) (c : Int) ≤ 255) ∧
      split roundoffRaster ⟨0, 0, 6, 6⟩ 1 1 = .ok roundoffTree ∧
      merge roundoffTree 1 1 = .ok (mergeOrNull roundoffTree 1 1) ∧
      groupAverage (mergeOrNull roundoffTree 1 1) = .ok (3 - 1 / 2 ^ 51)) ∧
    (mergeOrNull roundoffTree 1 1).All (fun n => n.merged ≠ [] →
      (∃ w hgt : Int, 0 < w ∧ 0 < hgt ∧ ∀ q ∈ n.merged, (n.deref q).isNull = false ∧
        (n.deref q).region.width = w ∧ (n.deref q).region.height = hgt) ∧
      ((n.merged.map n.deref).map qtNode.mean).sum / (n.merged.length : ℚ) =
        unionMean roundoffRaster (n.merged.map fun q => (n.deref q).region) ∧
      ∃ a : ℚ, groupAverage n = .ok a ∧
        |a - unionMean roundoffRaster (n.merged.map fun q => (n.deref q).region)| ≤
          9 / 2 ^ 43 ∧
        ∀ img1 : Mat, drawPaint img1 n = paintAll img1 (n.merged.map n.deref)
          (truncToInt a)) :=
  ⟨by decide!, group_average_near_union_mean roundoffRaster ⟨0, 0, 6, 6⟩ 1 1 roundoffTree
    (mergeOrNull roundoffTree 1 1) (by decide!) (by decide!) (by decide!)⟩

end SplitAndMerge
